import Mathlib

/-! whichlang_lingua: the language detector of `language_detector.hpp` and the
helpers of its evaluation harness (`single_word.cpp`, `single_word_g.cpp`).

A shallow embedding of `LanguageDetector` (UTF-8 decoder, feature tokenizer,
feature hasher, linear scorer), of `trim` and of the language tables, and
theorems about them.

Conventions of the embedding.

* A byte is a `Fin 256`; a `std::string` is a `List Byte`.
* `uint32_t` and `char32_t` values are natural numbers, reduced `% 2 ^ 32`
  wherever the C++ arithmetic can exceed 32 bits.
* `float` is a type parameter `F` with the operations the scorer uses
  (`ScoreArith`); theorems state the properties of these operations they need.
  Two instances evaluate the scorer: exact integers (`intArith`) and IEEE 754
  binary32 on values that are not negative (`floatArith`).
* `weights.hpp` is not part of the sources at hand: the enumeration `Lang`, the
  tables `LANGUAGES`, `WEIGHTS`, `INTERCEPTS` and the enumerator `Lang::Eng` are
  parameters (`Model`).
* An out-of-bounds read of a table is an error: `detectLanguage` returns
  `Option`.
-/

namespace LanguageDetector

/-! ## Constants and data model -/

/-- One byte of a `std::string`. -/
abbrev Byte := Fin 256

/-- Wrap-around of `uint32_t` arithmetic. -/
def u32 (n : Nat) : Nat := n % 2 ^ 32

def DIMENSION : Nat := 1 <<< 12

def BIGRAM_MASK : Nat := (1 <<< 16) - 1

def TRIGRAM_MASK : Nat := (1 <<< 24) - 1

def SEED : Nat := 3242157231

def JP_PUNCT_START : Nat := 0x3000
def JP_PUNCT_END : Nat := 0x303f
def JP_HIRAGANA_START : Nat := 0x3040
def JP_HIRAGANA_END : Nat := 0x309f
def JP_KATAKANA_START : Nat := 0x30a0
def JP_KATAKANA_END : Nat := 0x30ff
def CJK_KANJI_START : Nat := 0x4e00
def CJK_KANJI_END : Nat := 0x9faf
def JP_HALFWIDTH_KATAKANA_START : Nat := 0xff61
def JP_HALFWIDTH_KATAKANA_END : Nat := 0xff90

/-- The `enum class Feature`. -/
inductive Feature where
  | AsciiNGram
  | Unicode
  | UnicodeClass
deriving DecidableEq, Repr

/-- The `struct FeatureToken`: a feature type and a `uint32_t` payload. -/
structure FeatureToken where
  type : Feature
  value : Nat
deriving DecidableEq, Repr

/-! ## Feature hasher -/

/-- The function `murmurhash2(uint32_t k, uint32_t seed)`; every product is
reduced to 32 bits. -/
def murmurhash2 (k seed : Nat) : Nat :=
  let M : Nat := 0x5bd1e995
  let h := seed
  let k := u32 (k * M)
  let k := k ^^^ (k >>> 24)
  let k := u32 (k * M)
  let h := u32 (h * M)
  let h := h ^^^ k
  let h := h ^^^ (h >>> 13)
  let h := u32 (h * M)
  let h := h ^^^ (h >>> 15)
  h

/-- The function `featureToHash`. -/
def featureToHash (token : FeatureToken) : Nat :=
  match token.type with
  | Feature.AsciiNGram => murmurhash2 token.value SEED
  | Feature.Unicode => murmurhash2 (token.value / 128) (SEED ^^^ 2)
  | Feature.UnicodeClass => murmurhash2 token.value (SEED ^^^ 4)

/-- The table `CLASSIFICATION_POINTS` of `classifyCodepoint`. -/
def CLASSIFICATION_POINTS : List Nat :=
  [160, 161, 171, 172, 173, 174, 187, 192, 196, 199, 200, 201, 202, 205,
   214, 220, 223, 224, 225, 226, 227, 228, 231, 232, 233, 234, 235, 236,
   237, 238, 239, 242, 243, 244, 245, 246, 249, 250, 251, 252, 333, 339,
   JP_PUNCT_START, JP_PUNCT_END, JP_HIRAGANA_START, JP_HIRAGANA_END,
   JP_KATAKANA_START, JP_KATAKANA_END, CJK_KANJI_START, CJK_KANJI_END,
   JP_HALFWIDTH_KATAKANA_START, JP_HALFWIDTH_KATAKANA_END]

/-- The loop of `std::lower_bound` on the range `[first, first + len)` of `table`:
while `len > 0` it probes the middle and keeps the upper or the lower half. The
first argument bounds the number of iterations; `len` at least halves in each
iteration, so a bound of `len` is never exhausted. -/
def lowerBoundLoop (table : List Nat) (val : Nat) : Nat → Nat → Nat → Nat
  | 0, first, _ => first
  | fuel + 1, first, len =>
    if 0 < len then
      let half := len >>> 1
      let mid := first + half
      if table.getD mid 0 < val then
        lowerBoundLoop table val fuel (mid + 1) (len - half - 1)
      else
        lowerBoundLoop table val fuel first half
    else first

/-- The call `std::lower_bound(table.begin(), table.end(), val)`, as the distance
of the returned iterator from `table.begin()`. -/
def lowerBound (table : List Nat) (val : Nat) : Nat :=
  lowerBoundLoop table val table.length 0 table.length

/-- The function `classifyCodepoint`: the distance from the start of the table to
the `std::lower_bound` of the codepoint. -/
def classifyCodepoint (chr : Nat) : Nat :=
  lowerBound CLASSIFICATION_POINTS (u32 chr)

/-! ## Character predicates -/

def isAscii (c : Nat) : Bool := decide (c ≤ 127)

/-- The function `std::isalnum` in the "C" locale: digits and the 52 letters. -/
def isalnum (c : Nat) : Bool :=
  (decide (0x30 ≤ c) && decide (c ≤ 0x39)) ||
  (decide (0x41 ≤ c) && decide (c ≤ 0x5A)) ||
  (decide (0x61 ≤ c) && decide (c ≤ 0x7A))

/-- The function `std::tolower` in the "C" locale: `A`..`Z` move to `a`..`z`. -/
def tolower (c : Nat) : Nat :=
  if 0x41 ≤ c ∧ c ≤ 0x5A then c + 0x20 else c

def isAlphaNumeric (c : Nat) : Bool := isalnum c || !isAscii c

def toLowerAscii (c : Nat) : Nat :=
  if isAscii c then tolower c else c

/-! ## UTF-8 decoder -/

/-- The loop of `utf8ToUtf32`, from index `i` with the codepoints pushed so far in
`result`. Reads of `utf8[i+1]`, `utf8[i+2]`, `utf8[i+3]` happen only under the
bounds test of the source, which is what makes them well-typed here. -/
def utf8ToUtf32Loop (utf8 : List Byte) (i : Nat) (result : List Nat) : List Nat :=
  if h : i < utf8.length then
    let c : Nat := (utf8[i]).val
    if c ≤ 0x7F then
      utf8ToUtf32Loop utf8 (i + 1) (result ++ [c])
    else if c &&& 0xE0 = 0xC0 then
      if h1 : i + 1 < utf8.length then
        let codepoint := ((c &&& 0x1F) <<< 6) ||| ((utf8[i + 1]).val &&& 0x3F)
        utf8ToUtf32Loop utf8 (i + 2) (result ++ [codepoint])
      else result
    else if c &&& 0xF0 = 0xE0 then
      if h2 : i + 2 < utf8.length then
        let codepoint := ((c &&& 0x0F) <<< 12) |||
                         (((utf8[i + 1]).val &&& 0x3F) <<< 6) |||
                         ((utf8[i + 2]).val &&& 0x3F)
        utf8ToUtf32Loop utf8 (i + 3) (result ++ [codepoint])
      else result
    else if c &&& 0xF8 = 0xF0 then
      if h3 : i + 3 < utf8.length then
        let codepoint := ((c &&& 0x07) <<< 18) |||
                         (((utf8[i + 1]).val &&& 0x3F) <<< 12) |||
                         (((utf8[i + 2]).val &&& 0x3F) <<< 6) |||
                         ((utf8[i + 3]).val &&& 0x3F)
        utf8ToUtf32Loop utf8 (i + 4) (result ++ [codepoint])
      else result
    else
      utf8ToUtf32Loop utf8 (i + 1) result
  else result
termination_by utf8.length - i
decreasing_by all_goals (simp_wf; omega)

/-- The function `utf8ToUtf32`. -/
def utf8ToUtf32 (utf8 : List Byte) : List Nat :=
  utf8ToUtf32Loop utf8 0 []

/-- The decoder as a recursion on the byte list: what `utf8ToUtf32Loop` computes
from the bytes not yet consumed (`utf8ToUtf32Loop_eq`). -/
def utf8Decode : List Byte → List Nat
  | [] => []
  | c :: rest =>
    if c.val ≤ 0x7F then
      c.val :: utf8Decode rest
    else if c.val &&& 0xE0 = 0xC0 then
      match rest with
      | b1 :: rest1 =>
        (((c.val &&& 0x1F) <<< 6) ||| (b1.val &&& 0x3F)) :: utf8Decode rest1
      | _ => []
    else if c.val &&& 0xF0 = 0xE0 then
      match rest with
      | b1 :: b2 :: rest2 =>
        (((c.val &&& 0x0F) <<< 12) ||| ((b1.val &&& 0x3F) <<< 6) |||
          (b2.val &&& 0x3F)) :: utf8Decode rest2
      | _ => []
    else if c.val &&& 0xF8 = 0xF0 then
      match rest with
      | b1 :: b2 :: b3 :: rest3 =>
        (((c.val &&& 0x07) <<< 18) ||| ((b1.val &&& 0x3F) <<< 12) |||
          ((b2.val &&& 0x3F) <<< 6) ||| (b3.val &&& 0x3F)) :: utf8Decode rest3
      | _ => []
    else
      utf8Decode rest

/-! ## Feature tokenizer -/

/-- The loop state of `emitTokens`: the rolling window `prev`, the counter
`numPreviousAsciiChr`, and the state `acc` of the listener. -/
structure EmitState (σ : Type) where
  prev : Nat
  numPreviousAsciiChr : Nat
  acc : σ

/-- One iteration of the `for (char32_t chr : utf32Text)` loop of `emitTokens`.
The listener is a state transformer: `listener acc token` is the listener's state
after it was called on `token` in state `acc`. -/
def emitStep {σ : Type} (listener : σ → FeatureToken → σ)
    (st : EmitState σ) (chr : Nat) : EmitState σ :=
  let code := u32 (toLowerAscii chr)
  if !isAscii chr then
    let acc := listener st.acc ⟨Feature.Unicode, u32 chr⟩
    let acc := listener acc ⟨Feature.UnicodeClass, classifyCodepoint chr⟩
    { prev := st.prev, numPreviousAsciiChr := 0, acc := acc }
  else
    let prev := u32 ((st.prev <<< 8) ||| code)
    let st1 : EmitState σ :=
      match st.numPreviousAsciiChr with
      | 0 => { prev := prev, numPreviousAsciiChr := 1, acc := st.acc }
      | 1 =>
        let acc := listener st.acc ⟨Feature.AsciiNGram, prev &&& BIGRAM_MASK⟩
        { prev := prev, numPreviousAsciiChr := 2, acc := acc }
      | 2 =>
        let acc := listener st.acc ⟨Feature.AsciiNGram, prev &&& BIGRAM_MASK⟩
        let acc := listener acc ⟨Feature.AsciiNGram, prev &&& TRIGRAM_MASK⟩
        { prev := prev, numPreviousAsciiChr := 3, acc := acc }
      | 3 =>
        let acc := listener st.acc ⟨Feature.AsciiNGram, prev &&& BIGRAM_MASK⟩
        let acc := listener acc ⟨Feature.AsciiNGram, prev &&& TRIGRAM_MASK⟩
        let acc := listener acc ⟨Feature.AsciiNGram, prev⟩
        { prev := prev, numPreviousAsciiChr := 3, acc := acc }
      | n + 4 => { prev := prev, numPreviousAsciiChr := n + 4, acc := st.acc }
    if !isAlphaNumeric chr then
      { st1 with prev := 0x20 }
    else st1

/-- The function `emitTokens`: decode, then run the loop from the window `' '` and
the counter 1; the result is the final state of the listener. -/
def emitTokens {σ : Type} (text : List Byte) (listener : σ → FeatureToken → σ)
    (init : σ) : σ :=
  let utf32Text := utf8ToUtf32 text
  (utf32Text.foldl (emitStep listener) ⟨0x20, 1, init⟩).acc

/-- The tokens `emitTokens` hands to its listener, in order: the run of
`emitTokens` with the listener that appends each token to a list. -/
def tokens (text : List Byte) : List FeatureToken :=
  emitTokens text (fun acc t => acc ++ [t]) []

/-- The loop of `emitTokens` on a sequence of codepoints, started with the window
`prev` and the counter `num`, with the listener that appends each token to a list. -/
def emitLoop (prev num : Nat) (cps : List Nat) : EmitState (List FeatureToken) :=
  cps.foldl (emitStep (fun acc t => acc ++ [t])) ⟨prev, num, []⟩

/-- The tokens the loop of `emitTokens` emits on an already decoded sequence of
codepoints, from the initial window `' '` and counter 1. -/
def tokensOfCodepoints (cps : List Nat) : List FeatureToken :=
  (emitLoop 0x20 1 cps).acc

/-! ## Linear scorer -/

/-- The operations on `float` used by `detectLanguage`; the arithmetic of `float`
itself is not modelled. -/
structure ScoreArith (F : Type) where
  /-- The literal `0.0f`. -/
  zero : F
  /-- The sum `a + b`. -/
  add : F → F → F
  /-- The product `a * b`. -/
  mul : F → F → F
  /-- The value `1.0f / std::sqrt(static_cast<float>(n))` of a `uint32_t n`. -/
  rsqrt : Nat → F
  /-- The comparison `a < b`. -/
  lt : F → F → Bool

/-- The contents of `weights.hpp`, which is not among the sources: the language
list, the weight matrix flattened row by row (one row per bucket), the intercepts,
and the enumerator `Lang::Eng` that `detectLanguage` returns by default. -/
structure Model (Lang F : Type) where
  LANGUAGES : List Lang
  WEIGHTS : List F
  INTERCEPTS : List F
  Eng : Lang

/-- The loop `for (i = 0; i < numLanguages; ++i) scores[i] += WEIGHTS[idx + i]`,
from index `i` with `remaining = numLanguages - i` iterations to go. A read
outside `scores` or `WEIGHTS` is an error. -/
def addWeights {F : Type} (A : ScoreArith F) (WEIGHTS : List F) (idx : Nat) :
    Nat → Nat → List F → Option (List F)
  | 0, _, scores => some scores
  | remaining + 1, i, scores =>
    match scores[i]?, WEIGHTS[idx + i]? with
    | some s, some w => addWeights A WEIGHTS idx remaining (i + 1) (scores.set i (A.add s w))
    | _, _ => none

/-- The lambda that `detectLanguage` passes to `emitTokens`, on the captured pair
`(scores, numFeatures)`; `none` is the state after an out-of-bounds read. -/
def scoreListener {Lang F : Type} (A : ScoreArith F) (m : Model Lang F)
    (st : Option (List F × Nat)) (token : FeatureToken) : Option (List F × Nat) :=
  match st with
  | none => none
  | some (scores, numFeatures) =>
    let numLanguages := m.LANGUAGES.length
    let numFeatures := u32 (numFeatures + 1)
    let bucket := featureToHash token % DIMENSION
    let idx := bucket * numLanguages
    match addWeights A m.WEIGHTS idx numLanguages 0 scores with
    | some scores => some (scores, numFeatures)
    | none => none

/-- The loop `for (i = 0; i < numLanguages; ++i)
scores[i] = scores[i] * sqrtInvNumFeatures + INTERCEPTS[i]`. -/
def addIntercepts {F : Type} (A : ScoreArith F) (INTERCEPTS : List F) (sqrtInvNumFeatures : F) :
    Nat → Nat → List F → Option (List F)
  | 0, _, scores => some scores
  | remaining + 1, i, scores =>
    match scores[i]?, INTERCEPTS[i]? with
    | some s, some b =>
      addIntercepts A INTERCEPTS sqrtInvNumFeatures remaining (i + 1)
        (scores.set i (A.add (A.mul s sqrtInvNumFeatures) b))
    | _, _ => none

/-- The scan of `std::max_element` after its first element: `largest` is the index
of the largest element so far and `largestVal` its value, `i` the index of the head
of the list still to scan. -/
def maxElementFrom {F : Type} (lt : F → F → Bool) : List F → Nat → Nat → F → Nat
  | [], _, largest, _ => largest
  | x :: xs, i, largest, largestVal =>
    if lt largestVal x then maxElementFrom lt xs (i + 1) i x
    else maxElementFrom lt xs (i + 1) largest largestVal

/-- The call `std::max_element(scores.begin(), scores.end())` as the distance of
the returned iterator from `scores.begin()`; on an empty range the iterator is
`end()`, at distance 0. -/
def maxElement {F : Type} (lt : F → F → Bool) : List F → Nat
  | [] => 0
  | x :: xs => maxElementFrom lt xs 1 0 x

/-- The function `detectLanguage`. -/
def detectLanguage {Lang F : Type} (A : ScoreArith F) (m : Model Lang F)
    (text : List Byte) : Option Lang :=
  let numLanguages := m.LANGUAGES.length
  let scores := List.replicate numLanguages A.zero
  match emitTokens text (scoreListener A m) (some (scores, 0)) with
  | none => none
  | some (scores, numFeatures) =>
    if numFeatures = 0 then
      some m.Eng
    else
      let sqrtInvNumFeatures := A.rsqrt numFeatures
      match addIntercepts A m.INTERCEPTS sqrtInvNumFeatures numLanguages 0 scores with
      | none => none
      | some scores =>
        let langId := maxElement A.lt scores
        m.LANGUAGES[langId]?

/-! ## Definitions used to state the properties -/

/-- The value of the `uint32_t` counter `numFeatures` after tokenization: the
number of emitted tokens, wrapped to 32 bits. -/
def numFeatures (text : List Byte) : Nat :=
  u32 (tokens text).length

/-- The bucket of a token: `featureToHash(token) % DIMENSION`. -/
def bucket (token : FeatureToken) : Nat :=
  featureToHash token % DIMENSION

/-- The dimensions a model must have: `DIMENSION * numLanguages` weights and
`numLanguages` intercepts. -/
def Model.WellFormed {Lang F : Type} (m : Model Lang F) : Prop :=
  m.WEIGHTS.length = DIMENSION * m.LANGUAGES.length ∧
  m.INTERCEPTS.length = m.LANGUAGES.length

/-- The score of language `k` as the specification writes it: the sum, over the
emitted tokens in order, of the weight of language `k` in the token's bucket,
times `1 / sqrt(numFeatures)`, plus the intercept of `k`. A weight or intercept
outside the tables reads as `zero`. -/
def specScore {Lang F : Type} (A : ScoreArith F) (m : Model Lang F)
    (text : List Byte) (k : Nat) : F :=
  let sum := (tokens text).foldl
    (fun acc t => A.add acc (m.WEIGHTS.getD (bucket t * m.LANGUAGES.length + k) A.zero)) A.zero
  A.add (A.mul sum (A.rsqrt (numFeatures text))) (m.INTERCEPTS.getD k A.zero)

/-- The comparison `lt` orders the values of `scores` as `<` orders numbers that are
not NaN: it is irreflexive and transitive, and so is being incomparable. -/
def StrictWeakOn {F : Type} (lt : F → F → Bool) (scores : List F) : Prop :=
  (∀ a ∈ scores, lt a a = false) ∧
  (∀ a ∈ scores, ∀ b ∈ scores, ∀ c ∈ scores, lt a b = true → lt b c = true → lt a c = true) ∧
  (∀ a ∈ scores, ∀ b ∈ scores, ∀ c ∈ scores, lt a b = false → lt b c = false → lt a c = false)

instance {Lang F : Type} (m : Model Lang F) : Decidable m.WellFormed := by
  unfold Model.WellFormed
  infer_instance

/-- A byte of the given value. -/
def byte (n : Nat) : Byte := ⟨n % 256, Nat.mod_lt n (by decide)⟩

/-- The standard UTF-8 encoding of one codepoint below `0x110000`, in its shortest
form: 1 byte below `0x80`, 2 bytes below `0x800`, 3 bytes below `0x10000`, 4 bytes
otherwise. -/
def utf8EncodeChar (cp : Nat) : List Byte :=
  if cp < 0x80 then
    [byte cp]
  else if cp < 0x800 then
    [byte (0xC0 ||| (cp >>> 6)), byte (0x80 ||| (cp &&& 0x3F))]
  else if cp < 0x10000 then
    [byte (0xE0 ||| (cp >>> 12)), byte (0x80 ||| ((cp >>> 6) &&& 0x3F)),
     byte (0x80 ||| (cp &&& 0x3F))]
  else
    [byte (0xF0 ||| (cp >>> 18)), byte (0x80 ||| ((cp >>> 12) &&& 0x3F)),
     byte (0x80 ||| ((cp >>> 6) &&& 0x3F)), byte (0x80 ||| (cp &&& 0x3F))]

/-- The standard UTF-8 encoding of a sequence of codepoints. -/
def utf8Encode (cps : List Nat) : List Byte :=
  cps.flatMap utf8EncodeChar

/-- The number of bytes of the sequence a lead byte announces to `utf8ToUtf32`:
2 for `0xC0`..`0xDF`, 3 for `0xE0`..`0xEF`, 4 for `0xF0`..`0xF7`, and 1 for every
other byte. -/
def sequenceLength (lead : Byte) : Nat :=
  if lead.val &&& 0xE0 = 0xC0 then 2
  else if lead.val &&& 0xF0 = 0xE0 then 3
  else if lead.val &&& 0xF8 = 0xF0 then 4
  else 1

/-- A byte that `utf8ToUtf32` skips: `0x80`..`0xBF` or `0xF8`..`0xFF`. -/
def isInvalidLead (b : Byte) : Bool :=
  (decide (0x80 ≤ b.val) && decide (b.val ≤ 0xBF)) || decide (0xF8 ≤ b.val)

/-- Byte `i` of a token value; byte 0 is the lowest byte, the last character. -/
def byteAt (v i : Nat) : Nat := v / 256 ^ i % 256

/-- The four bytes of a 32-bit token value, lowest first. -/
def tokenBytes (v : Nat) : List Nat :=
  [byteAt v 0, byteAt v 1, byteAt v 2, byteAt v 3]

/-- A lowercased ASCII alphanumeric: a digit or one of `a`..`z`. -/
def isLowerAlnum (c : Nat) : Bool :=
  (decide (0x30 ≤ c) && decide (c ≤ 0x39)) || (decide (0x61 ≤ c) && decide (c ≤ 0x7A))

/-- The characters of an n-gram value above its last character are well formed:
each of the bytes 1, 2, 3 is a lowercased alphanumeric, or it is the boundary
marker `0x20` and every byte above it is zero, or (bytes 2 and 3 only) it and every
byte above it are zero: the n-gram has no character there. Byte 1 is always a
character. -/
def UpperOk (v : Nat) : Prop :=
  ∀ i, i < 3 →
    isLowerAlnum (byteAt v (i + 1)) = true ∨
    (byteAt v (i + 1) = 0x20 ∧ v / 256 ^ (i + 2) = 0) ∨
    (0 < i ∧ v / 256 ^ (i + 1) = 0)

instance (v : Nat) : Decidable (UpperOk v) := by
  unfold UpperOk
  infer_instance

/-- The rolling window is well formed: it fits 32 bits, and each of its bytes is a
lowercased alphanumeric, or the boundary marker `0x20` with only zero bytes above
it, or (above byte 0) zero together with every byte above it. -/
def WindowOk (p : Nat) : Prop :=
  p < 2 ^ 32 ∧
  ∀ i, i < 4 →
    isLowerAlnum (byteAt p i) = true ∨
    (byteAt p i = 0x20 ∧ p / 256 ^ (i + 1) = 0) ∨
    (0 < i ∧ p / 256 ^ i = 0)

instance (p : Nat) : Decidable (WindowOk p) := by
  unfold WindowOk
  infer_instance

/-- The ASCII input `quoi`. -/
def quoi : List Byte := [0x71, 0x75, 0x6F, 0x69]

/-- The ASCII input `the`. -/
def the : List Byte := [0x74, 0x68, 0x65]

/-- The ASCII input `ab cd`. -/
def abcd : List Byte := [0x61, 0x62, 0x20, 0x63, 0x64]

/-- A two-language enumeration for toy models. -/
inductive ToyLang where
  | English
  | French
deriving DecidableEq, Repr

/-- The model with the given languages whose weights and intercepts are all
`zero`. -/
def zeroModel {Lang F : Type} (languages : List Lang) (eng : Lang) (zero : F) : Model Lang F where
  LANGUAGES := languages
  WEIGHTS := List.replicate (DIMENSION * languages.length) zero
  INTERCEPTS := List.replicate languages.length zero
  Eng := eng

/-- The toy model of the end-to-end scenario: languages `[English, French]`, zero
intercepts, and weights `zero` except `w` for French in the bucket of the bigram
`qu` (`0x7175`) and `w` for English in the bucket of the bigram `th` (`0x7468`). -/
def toyModel {F : Type} (zero w : F) : Model ToyLang F where
  LANGUAGES := [ToyLang.English, ToyLang.French]
  WEIGHTS := (List.range (DIMENSION * 2)).map fun j =>
    if j = bucket ⟨Feature.AsciiNGram, 0x7175⟩ * 2 + 1 ∨
       j = bucket ⟨Feature.AsciiNGram, 0x7468⟩ * 2 + 0 then w else zero
  INTERCEPTS := [zero, zero]
  Eng := ToyLang.English

/-- Exact integer arithmetic in place of `float`, with the scale factor 1: an
instance of `ScoreArith` on which the scorer can be evaluated. -/
def intArith : ScoreArith Int where
  zero := 0
  add := fun a b => a + b
  mul := fun a b => a * b
  rsqrt := fun _ => 1
  lt := fun a b => decide (a < b)

/-- The all-zero model over integers with the languages `[French, English]` and the
default `English`: the default is not the lowest-indexed language. -/
def zeroToyModel : Model ToyLang Int :=
  zeroModel [ToyLang.French, ToyLang.English] ToyLang.English 0

/-- An input of `2 ^ 32` bytes: the two-byte encoding `C3 A9` of U+00E9, repeated
`2 ^ 31` times. -/
def wrapInput : List Byte :=
  (List.replicate (2 ^ 31) [0xC3, 0xA9]).flatten

/-- The lower-bound rank of `val` in `table`: the number of entries of `table` that
are strictly smaller than `val`. -/
def rank (table : List Nat) (val : Nat) : Nat :=
  table.countP (fun p => decide (p < val))

/-- The blocks named by the range constants, as pairs `(start, end)`: Japanese
punctuation, hiragana, katakana, CJK kanji, half-width katakana. -/
def BLOCKS : List (Nat × Nat) :=
  [(JP_PUNCT_START, JP_PUNCT_END), (JP_HIRAGANA_START, JP_HIRAGANA_END),
   (JP_KATAKANA_START, JP_KATAKANA_END), (CJK_KANJI_START, CJK_KANJI_END),
   (JP_HALFWIDTH_KATAKANA_START, JP_HALFWIDTH_KATAKANA_END)]

/-- Two rolling windows agree on the bytes that the next n-grams can read: with the
counter at `n`, on their `n` lowest bytes (at most three). -/
def WindowsAgree (n p1 p2 : Nat) : Prop :=
  match n with
  | 0 => True
  | 1 => p1 % 2 ^ 8 = p2 % 2 ^ 8
  | 2 => p1 % 2 ^ 16 = p2 % 2 ^ 16
  | _ + 3 => p1 % 2 ^ 24 = p2 % 2 ^ 24

/-- The character `c_j` of a sequence of codepoints: `c_0` is the space `0x20` that
precedes the stream, and `c_j`, for `j ≥ 1`, is the `j`-th codepoint, lowercased. -/
def ngramChar (cps : List Nat) (j : Nat) : Nat :=
  (0x20 :: cps.map toLowerAscii).getD j 0

/-- Two characters packed one byte per character, the latest in the low byte. -/
def pack2 (a b : Nat) : Nat := a * 256 + b

/-- Three characters packed one byte per character, the latest in the low byte. -/
def pack3 (a b c : Nat) : Nat := a * 65536 + b * 256 + c

/-- Four characters packed one byte per character, the latest in the low byte. -/
def pack4 (a b c d : Nat) : Nat := a * 16777216 + b * 65536 + c * 256 + d

/-- The tokens listed for the character `c_k`, `k ≥ 1`, of a run of alphanumerics:
the bigram for `c_1`; the bigram and the trigram for `c_2`; the bigram, the trigram
and the 4-gram from `c_3` on. -/
def expectedAt (cps : List Nat) (k : Nat) : List FeatureToken :=
  if k = 1 then
    [⟨Feature.AsciiNGram, pack2 (ngramChar cps 0) (ngramChar cps 1)⟩]
  else if k = 2 then
    [⟨Feature.AsciiNGram, pack2 (ngramChar cps 1) (ngramChar cps 2)⟩,
     ⟨Feature.AsciiNGram, pack3 (ngramChar cps 0) (ngramChar cps 1) (ngramChar cps 2)⟩]
  else
    [⟨Feature.AsciiNGram, pack2 (ngramChar cps (k - 1)) (ngramChar cps k)⟩,
     ⟨Feature.AsciiNGram,
       pack3 (ngramChar cps (k - 2)) (ngramChar cps (k - 1)) (ngramChar cps k)⟩,
     ⟨Feature.AsciiNGram,
       pack4 (ngramChar cps (k - 3)) (ngramChar cps (k - 2)) (ngramChar cps (k - 1))
         (ngramChar cps k)⟩]

/-- The tokens listed for a run of alphanumerics `c_1 .. c_n`, in order. -/
def expectedNGrams (cps : List Nat) : List FeatureToken :=
  (List.range cps.length).flatMap (fun i => expectedAt cps (i + 1))

/-- The rolling window after a run of alphanumerics `c_1 .. c_n`: the last four of
the characters `c_0 .. c_n`, or all of them when there are fewer. -/
def windowAfter (cps : List Nat) : Nat :=
  if cps.length = 0 then 0x20
  else if cps.length = 1 then pack2 (ngramChar cps 0) (ngramChar cps 1)
  else if cps.length = 2 then
    pack3 (ngramChar cps 0) (ngramChar cps 1) (ngramChar cps 2)
  else
    pack4 (ngramChar cps (cps.length - 3)) (ngramChar cps (cps.length - 2))
      (ngramChar cps (cps.length - 1)) (ngramChar cps cps.length)

/-- The number of tokens stated for an ASCII input of `n` bytes: 0 for the empty
input, 1 for one byte, and `3 n - 3` from two bytes on. -/
def asciiTokenCount (n : Nat) : Nat :=
  if n = 0 then 0 else if n = 1 then 1 else 3 * n - 3

/-- The byte with an ASCII uppercase letter `A`..`Z` replaced by its lowercase
letter; every other byte is kept. -/
def lowerByte (b : Byte) : Byte :=
  if 0x41 ≤ b.val ∧ b.val ≤ 0x5A then byte (b.val + 0x20) else b

/-- The input with each ASCII uppercase letter replaced by its lowercase letter. -/
def lowerBytes (text : List Byte) : List Byte :=
  text.map lowerByte

/-! ## The evaluation harness: `trim` (single_word.cpp, single_word_g.cpp) -/

/-- The width of `size_t`, taken as 64 bits. -/
def SIZE_BITS : Nat := 64

/-- The value `std::string::npos`, the largest `size_t`. -/
def npos : Nat := 2 ^ SIZE_BITS - 1

/-- Membership of a byte in the set `" \t\n\r"` that `trim` passes to the two
searches: space, tab, line feed, carriage return. -/
def isTrimChar (c : Byte) : Bool :=
  c.val = 0x20 || c.val = 0x09 || c.val = 0x0A || c.val = 0x0D

/-- The search `std::string::find_first_not_of`: the index of the first
character that is not in the set, `none` (for `npos`) when there is none. -/
def find_first_not_of (inSet : Byte → Bool) : List Byte → Option Nat
  | [] => none
  | c :: rest =>
    if inSet c then (find_first_not_of inSet rest).map (· + 1) else some 0

/-- The search `std::string::find_last_not_of`: the index of the last character
that is not in the set, `none` (for `npos`) when there is none. It is the first
such character of the reversed string, counted from the end. -/
def find_last_not_of (inSet : Byte → Bool) (str : List Byte) : Option Nat :=
  (find_first_not_of inSet str.reverse).map (fun j => str.length - 1 - j)

/-- The member `std::string::substr(pos, len)`: the characters from `pos`, at most
`len` of them; it throws (`none`) when `pos` is beyond the size. -/
def substr (str : List Byte) (pos len : Nat) : Option (List Byte) :=
  if pos > str.length then none else some ((str.drop pos).take len)

/-- The function `trim` of the harness: `none` is the exception of `substr`. The
length `end - start + 1` is computed in `size_t`. -/
def trim (str : List Byte) : Option (List Byte) :=
  match find_first_not_of isTrimChar str with
  | none => some []
  | some start =>
    let end_ := (find_last_not_of isTrimChar str).getD npos
    substr str start (((end_ + 2 ^ SIZE_BITS - start) % 2 ^ SIZE_BITS + 1) % 2 ^ SIZE_BITS)

/-- The result the text of the claim on `trim` describes: the string without its
leading and without its trailing characters of the set. -/
def trimSpec (str : List Byte) : List Byte :=
  ((str.dropWhile isTrimChar).reverse.dropWhile isTrimChar).reverse

/-! ## The evaluation harness: the language tables -/

/-- Modelled from the spec: the declaration of the enumeration `Lang` is in
weights.hpp, which is not among the sources; the spec calls a language an
identifier drawn from a fixed, externally defined enumerated set. These are the
enumerators single_word.cpp names, in the order it names them, taken pairwise
distinct. -/
inductive SingleWord.Lang where
  | Af | Ar | Az | Be | Bg | Bn | Bs | Ca | Cs | Cy | Da | De
  | El | En | Eo | Es | Et | Eu | Fa | Fi | Fr | Ga | Gu | He
  | Hi | Hr | Hu | Hy | Id | Is | It | Ja | Ka | Kk | Ko | La
  | Lg | Lt | Lv | Mi | Mk | Mn | Mr | Ms | Nb | Nl | Nn | Pa
  | Pl | Pt | Ro | Ru | Sk | Sl | Sn | So | Sq | Sr | St | Sv
  | Sw | Ta | Te | Th | Tl | Tn | Tr | Ts | Uk | Ur | Vi | Xh
  | Yo | Zh | Zu
  deriving DecidableEq

/-- The function `createLanguageMap` of single_word.cpp: the initializer list of the
`std::map` from a code to a language, in the order it is written. -/
def SingleWord.createLanguageMap : List (String × SingleWord.Lang) :=
  [("af", SingleWord.Lang.Af), ("ar", SingleWord.Lang.Ar), ("az", SingleWord.Lang.Az),
   ("be", SingleWord.Lang.Be), ("bg", SingleWord.Lang.Bg), ("bn", SingleWord.Lang.Bn),
   ("bs", SingleWord.Lang.Bs), ("ca", SingleWord.Lang.Ca), ("cs", SingleWord.Lang.Cs),
   ("cy", SingleWord.Lang.Cy), ("da", SingleWord.Lang.Da), ("de", SingleWord.Lang.De),
   ("el", SingleWord.Lang.El), ("en", SingleWord.Lang.En), ("eo", SingleWord.Lang.Eo),
   ("es", SingleWord.Lang.Es), ("et", SingleWord.Lang.Et), ("eu", SingleWord.Lang.Eu),
   ("fa", SingleWord.Lang.Fa), ("fi", SingleWord.Lang.Fi), ("fr", SingleWord.Lang.Fr),
   ("ga", SingleWord.Lang.Ga), ("gu", SingleWord.Lang.Gu), ("he", SingleWord.Lang.He),
   ("hi", SingleWord.Lang.Hi), ("hr", SingleWord.Lang.Hr), ("hu", SingleWord.Lang.Hu),
   ("hy", SingleWord.Lang.Hy), ("id", SingleWord.Lang.Id), ("is", SingleWord.Lang.Is),
   ("it", SingleWord.Lang.It), ("ja", SingleWord.Lang.Ja), ("ka", SingleWord.Lang.Ka),
   ("kk", SingleWord.Lang.Kk), ("ko", SingleWord.Lang.Ko), ("la", SingleWord.Lang.La),
   ("lg", SingleWord.Lang.Lg), ("lt", SingleWord.Lang.Lt), ("lv", SingleWord.Lang.Lv),
   ("mi", SingleWord.Lang.Mi), ("mk", SingleWord.Lang.Mk), ("mn", SingleWord.Lang.Mn),
   ("mr", SingleWord.Lang.Mr), ("ms", SingleWord.Lang.Ms), ("nb", SingleWord.Lang.Nb),
   ("nl", SingleWord.Lang.Nl), ("nn", SingleWord.Lang.Nn), ("pa", SingleWord.Lang.Pa),
   ("pl", SingleWord.Lang.Pl), ("pt", SingleWord.Lang.Pt), ("ro", SingleWord.Lang.Ro),
   ("ru", SingleWord.Lang.Ru), ("sk", SingleWord.Lang.Sk), ("sl", SingleWord.Lang.Sl),
   ("sn", SingleWord.Lang.Sn), ("so", SingleWord.Lang.So), ("sq", SingleWord.Lang.Sq),
   ("sr", SingleWord.Lang.Sr), ("st", SingleWord.Lang.St), ("sv", SingleWord.Lang.Sv),
   ("sw", SingleWord.Lang.Sw), ("ta", SingleWord.Lang.Ta), ("te", SingleWord.Lang.Te),
   ("th", SingleWord.Lang.Th), ("tl", SingleWord.Lang.Tl), ("tn", SingleWord.Lang.Tn),
   ("tr", SingleWord.Lang.Tr), ("ts", SingleWord.Lang.Ts), ("uk", SingleWord.Lang.Uk),
   ("ur", SingleWord.Lang.Ur), ("vi", SingleWord.Lang.Vi), ("xh", SingleWord.Lang.Xh),
   ("yo", SingleWord.Lang.Yo), ("zh", SingleWord.Lang.Zh), ("zu", SingleWord.Lang.Zu)]

/-- The function `createReverseLanguageMap` of single_word.cpp: the initializer list
of the `std::map` from a language to its code, in the order it is written. -/
def SingleWord.createReverseLanguageMap : List (SingleWord.Lang × String) :=
  [(SingleWord.Lang.Af, "af"), (SingleWord.Lang.Ar, "ar"), (SingleWord.Lang.Az, "az"),
   (SingleWord.Lang.Be, "be"), (SingleWord.Lang.Bg, "bg"), (SingleWord.Lang.Bn, "bn"),
   (SingleWord.Lang.Bs, "bs"), (SingleWord.Lang.Ca, "ca"), (SingleWord.Lang.Cs, "cs"),
   (SingleWord.Lang.Cy, "cy"), (SingleWord.Lang.Da, "da"), (SingleWord.Lang.De, "de"),
   (SingleWord.Lang.El, "el"), (SingleWord.Lang.En, "en"), (SingleWord.Lang.Eo, "eo"),
   (SingleWord.Lang.Es, "es"), (SingleWord.Lang.Et, "et"), (SingleWord.Lang.Eu, "eu"),
   (SingleWord.Lang.Fa, "fa"), (SingleWord.Lang.Fi, "fi"), (SingleWord.Lang.Fr, "fr"),
   (SingleWord.Lang.Ga, "ga"), (SingleWord.Lang.Gu, "gu"), (SingleWord.Lang.He, "he"),
   (SingleWord.Lang.Hi, "hi"), (SingleWord.Lang.Hr, "hr"), (SingleWord.Lang.Hu, "hu"),
   (SingleWord.Lang.Hy, "hy"), (SingleWord.Lang.Id, "id"), (SingleWord.Lang.Is, "is"),
   (SingleWord.Lang.It, "it"), (SingleWord.Lang.Ja, "ja"), (SingleWord.Lang.Ka, "ka"),
   (SingleWord.Lang.Kk, "kk"), (SingleWord.Lang.Ko, "ko"), (SingleWord.Lang.La, "la"),
   (SingleWord.Lang.Lg, "lg"), (SingleWord.Lang.Lt, "lt"), (SingleWord.Lang.Lv, "lv"),
   (SingleWord.Lang.Mi, "mi"), (SingleWord.Lang.Mk, "mk"), (SingleWord.Lang.Mn, "mn"),
   (SingleWord.Lang.Mr, "mr"), (SingleWord.Lang.Ms, "ms"), (SingleWord.Lang.Nb, "nb"),
   (SingleWord.Lang.Nl, "nl"), (SingleWord.Lang.Nn, "nn"), (SingleWord.Lang.Pa, "pa"),
   (SingleWord.Lang.Pl, "pl"), (SingleWord.Lang.Pt, "pt"), (SingleWord.Lang.Ro, "ro"),
   (SingleWord.Lang.Ru, "ru"), (SingleWord.Lang.Sk, "sk"), (SingleWord.Lang.Sl, "sl"),
   (SingleWord.Lang.Sn, "sn"), (SingleWord.Lang.So, "so"), (SingleWord.Lang.Sq, "sq"),
   (SingleWord.Lang.Sr, "sr"), (SingleWord.Lang.St, "st"), (SingleWord.Lang.Sv, "sv"),
   (SingleWord.Lang.Sw, "sw"), (SingleWord.Lang.Ta, "ta"), (SingleWord.Lang.Te, "te"),
   (SingleWord.Lang.Th, "th"), (SingleWord.Lang.Tl, "tl"), (SingleWord.Lang.Tn, "tn"),
   (SingleWord.Lang.Tr, "tr"), (SingleWord.Lang.Ts, "ts"), (SingleWord.Lang.Uk, "uk"),
   (SingleWord.Lang.Ur, "ur"), (SingleWord.Lang.Vi, "vi"), (SingleWord.Lang.Xh, "xh"),
   (SingleWord.Lang.Yo, "yo"), (SingleWord.Lang.Zh, "zh"), (SingleWord.Lang.Zu, "zu")]

/-- Modelled from the spec: the declaration of the enumeration `Lang` that
single_word_g.cpp uses is in language_detector_g.hpp, which is not among the
sources. These are the enumerators single_word_g.cpp names, taken pairwise
distinct. -/
inductive SingleWordG.Lang where
  | De | En | Fr | Es | Ja | Zh
  deriving DecidableEq

/-- The function `createLanguageMap` of single_word_g.cpp. -/
def SingleWordG.createLanguageMap : List (String × SingleWordG.Lang) :=
  [("de", SingleWordG.Lang.De), ("en", SingleWordG.Lang.En), ("fr", SingleWordG.Lang.Fr),
   ("es", SingleWordG.Lang.Es), ("ja", SingleWordG.Lang.Ja), ("zh", SingleWordG.Lang.Zh)]

/-- The function `createReverseLanguageMap` of single_word_g.cpp. -/
def SingleWordG.createReverseLanguageMap : List (SingleWordG.Lang × String) :=
  [(SingleWordG.Lang.De, "de"), (SingleWordG.Lang.En, "en"), (SingleWordG.Lang.Fr, "fr"),
   (SingleWordG.Lang.Es, "es"), (SingleWordG.Lang.Ja, "ja"), (SingleWordG.Lang.Zh, "zh")]

/-- The lookup `find` of a `std::map` built from an initializer list: the
constructor keeps, for each key, the first pair with that key, so the lookup
returns the value of the first pair with the key, and `none` stands for `end()`. -/
def mapFind {K V : Type} [DecidableEq K] (m : List (K × V)) (key : K) : Option V :=
  match m with
  | [] => none
  | (k, v) :: rest => if key = k then some v else mapFind rest key

/-- The number of entries of a `std::map` built from an initializer list: the
number of distinct keys. -/
def mapSize {K V : Type} [DecidableEq K] (m : List (K × V)) : Nat :=
  (m.map Prod.fst).dedup.length

/-- The read `reverseLangMap[detectedLang]` of `main`: the code of the language,
and the empty string, which `operator[]` inserts, when the language has no entry. -/
def mapIndex {K : Type} [DecidableEq K] (m : List (K × String)) (key : K) : String :=
  (mapFind m key).getD ""

/-- The flag `isCorrect` that `main` of single_word.cpp computes for a word:
the expected code equals the code of the detected language. -/
def SingleWord.isCorrect (expectedLangCode : String) (detectedLang : SingleWord.Lang) : Bool :=
  expectedLangCode == mapIndex SingleWord.createReverseLanguageMap detectedLang

/-- The flag `isCorrect` that `main` of single_word_g.cpp computes for a word. -/
def SingleWordG.isCorrect (expectedLangCode : String) (detectedLang : SingleWordG.Lang) :
    Bool :=
  expectedLangCode == mapIndex SingleWordG.createReverseLanguageMap detectedLang

/-! ## The `float` arithmetic of the scorer on values that are not negative

The scorer uses `float` through `+=`, `*`, `+`, `1.0f / std::sqrt(static_cast<float>(n))`
and the `<` of `std::max_element`. With weights and intercepts that are not negative
every value it computes is a non-negative IEEE 754 binary32 number, `+inf` or NaN.
The definitions below are these operations on such values, rounding to nearest with
ties to even; they serve to evaluate the scorer on a concrete toy model. -/

/-- A binary32 value that is not negative: `fin v` is the finite value
`v * 2 ^ (-149)` (every finite binary32 number is a multiple of the least
subnormal `2 ^ (-149)`), `inf` is `+inf`, `nan` is NaN. -/
inductive F32 where
  | fin (v : Nat)
  | inf
  | nan
  deriving DecidableEq

/-- The largest finite binary32 number, `(2 ^ 24 - 1) * 2 ^ 104`, in units of
`2 ^ (-149)`. -/
def F32_MAX : Nat := (2 ^ 24 - 1) * 2 ^ 253

/-- The number of binary digits of `n`, by halving. -/
def bitLengthLoop : Nat → Nat → Nat
  | 0, _ => 0
  | fuel + 1, n => if n = 0 then 0 else bitLengthLoop fuel (n / 2) + 1

/-- The number of binary digits of `n` (for `n < 2 ^ 1024`). -/
def bitLength (n : Nat) : Nat := bitLengthLoop 1024 n

/-- Rounding of the exact value `num / den` (in units of `2 ^ (-149)`) to binary32:
to the nearest number with a 24-bit significand, or to the nearest multiple of
`2 ^ (-149)` in the subnormal range, ties to the even significand; `+inf` when the
rounded value exceeds the largest finite number. -/
def f32Round (num den : Nat) : F32 :=
  let e := bitLength (num / den) - 24
  let d := den * 2 ^ e
  let m := num / d
  let r := num % d
  let m := if d < 2 * r ∨ (2 * r = d ∧ m % 2 = 1) then m + 1 else m
  if F32_MAX < m * 2 ^ e then F32.inf else F32.fin (m * 2 ^ e)

/-- The integer square root, one binary digit per step from bit `k - 1` down. -/
def isqrtLoop : Nat → Nat → Nat → Nat
  | 0, r, _ => r
  | k + 1, r, n =>
    if (r + 2 ^ k) * (r + 2 ^ k) ≤ n then isqrtLoop k (r + 2 ^ k) n else isqrtLoop k r n

/-- The integer square root of `n` (for `n < 2 ^ 512`). -/
def isqrt (n : Nat) : Nat := isqrtLoop 256 0 n

/-- The sum `a + b` of `float`. -/
def f32Add : F32 → F32 → F32
  | .fin a, .fin b => f32Round (a + b) 1
  | .nan, _ => .nan
  | _, .nan => .nan
  | _, _ => .inf

/-- The product `a * b` of `float`; `0 * inf` is NaN. -/
def f32Mul : F32 → F32 → F32
  | .fin a, .fin b => f32Round (a * b) (2 ^ 149)
  | .nan, _ => .nan
  | _, .nan => .nan
  | .inf, .fin b => if b = 0 then .nan else .inf
  | .fin a, .inf => if a = 0 then .nan else .inf
  | .inf, .inf => .inf

/-- The quotient `a / b` of `float`; `x / 0` is `+inf` for `x > 0`, and `0 / 0` and
`inf / inf` are NaN. -/
def f32Div : F32 → F32 → F32
  | .fin a, .fin b =>
    if b = 0 then (if a = 0 then .nan else .inf) else f32Round (a * 2 ^ 149) b
  | .nan, _ => .nan
  | _, .nan => .nan
  | .fin _, .inf => .fin 0
  | .inf, .fin _ => .inf
  | .inf, .inf => .nan

/-- The correctly rounded `std::sqrt` of `float`. -/
def f32Sqrt : F32 → F32
  | .fin a =>
    let n := a * 2 ^ 149
    let e := bitLength (isqrt n) - 24
    let m := isqrt (n / 4 ^ e)
    let m := if (2 * m + 1) * (2 * m + 1) * 4 ^ e < 4 * n ∨
      ((2 * m + 1) * (2 * m + 1) * 4 ^ e = 4 * n ∧ m % 2 = 1) then m + 1 else m
    .fin (m * 2 ^ e)
  | .inf => .inf
  | .nan => .nan

/-- The conversion `static_cast<float>(n)` of a `uint32_t`. -/
def f32OfNat (n : Nat) : F32 := f32Round (n * 2 ^ 149) 1

/-- The comparison `a < b` of `float`; false when one side is NaN. -/
def f32Lt : F32 → F32 → Bool
  | .fin a, .fin b => decide (a < b)
  | .fin _, .inf => true
  | _, _ => false

/-- The literal `1.0f`. -/
def F32_ONE : F32 := .fin (2 ^ 149)

/-- The least positive `float`, `FLT_TRUE_MIN = 2 ^ (-149)`. -/
def F32_TRUE_MIN : F32 := .fin 1

/-- The `float` operations of `detectLanguage` on values that are not negative. -/
def floatArith : ScoreArith F32 where
  zero := .fin 0
  add := f32Add
  mul := f32Mul
  rsqrt := fun n => f32Div F32_ONE (f32Sqrt (f32OfNat n))
  lt := f32Lt

/-! ## The decoder loop and the recursion on the bytes -/

theorem utf8Decode_nil : utf8Decode [] = [] := rfl

theorem utf8Decode_cons (c : Byte) (rest : List Byte) :
    utf8Decode (c :: rest) =
      if c.val ≤ 0x7F then
        c.val :: utf8Decode rest
      else if c.val &&& 0xE0 = 0xC0 then
        match rest with
        | b1 :: rest1 =>
          (((c.val &&& 0x1F) <<< 6) ||| (b1.val &&& 0x3F)) :: utf8Decode rest1
        | _ => []
      else if c.val &&& 0xF0 = 0xE0 then
        match rest with
        | b1 :: b2 :: rest2 =>
          (((c.val &&& 0x0F) <<< 12) ||| ((b1.val &&& 0x3F) <<< 6) |||
            (b2.val &&& 0x3F)) :: utf8Decode rest2
        | _ => []
      else if c.val &&& 0xF8 = 0xF0 then
        match rest with
        | b1 :: b2 :: b3 :: rest3 =>
          (((c.val &&& 0x07) <<< 18) ||| ((b1.val &&& 0x3F) <<< 12) |||
            ((b2.val &&& 0x3F) <<< 6) ||| (b3.val &&& 0x3F)) :: utf8Decode rest3
        | _ => []
      else
        utf8Decode rest := by
  cases rest with
  | nil => rfl
  | cons b1 r1 =>
    cases r1 with
    | nil => rfl
    | cons b2 r2 =>
      cases r2 with
      | nil => rfl
      | cons b3 r3 => rfl

theorem utf8ToUtf32Loop_eq (utf8 : List Byte) :
    ∀ (n i : Nat) (result : List Nat), utf8.length - i ≤ n →
      utf8ToUtf32Loop utf8 i result = result ++ utf8Decode (utf8.drop i) := by
  intro n
  induction n with
  | zero =>
    intro i result hn
    have hi : utf8.length ≤ i := by omega
    rw [utf8ToUtf32Loop, dif_neg (by omega), List.drop_eq_nil_of_le hi, utf8Decode_nil,
      List.append_nil]
  | succ n ih =>
    intro i result hn
    rw [utf8ToUtf32Loop]
    by_cases h : i < utf8.length
    · rw [dif_pos h, List.drop_eq_getElem_cons h, utf8Decode_cons]
      by_cases c1 : (utf8[i]).val ≤ 0x7F
      · simp only [c1, if_true]
        rw [ih (i + 1) _ (by omega)]
        simp
      · by_cases c2 : (utf8[i]).val &&& 0xE0 = 0xC0
        · simp only [c1, c2, if_true, if_false]
          by_cases h1 : i + 1 < utf8.length
          · rw [dif_pos h1, List.drop_eq_getElem_cons h1, ih (i + 2) _ (by omega)]
            simp
          · rw [dif_neg h1, List.drop_eq_nil_of_le (by omega)]
            simp
        · by_cases c3 : (utf8[i]).val &&& 0xF0 = 0xE0
          · simp only [c1, c2, c3, if_true, if_false]
            by_cases h2 : i + 2 < utf8.length
            · have h1 : i + 1 < utf8.length := by omega
              rw [dif_pos h2, List.drop_eq_getElem_cons h1, List.drop_eq_getElem_cons h2,
                ih (i + 3) _ (by omega)]
              simp
            · rw [dif_neg h2]
              by_cases h1 : i + 1 < utf8.length
              · rw [List.drop_eq_getElem_cons h1, List.drop_eq_nil_of_le (by omega)]
                simp
              · rw [List.drop_eq_nil_of_le (by omega)]
                simp
          · by_cases c4 : (utf8[i]).val &&& 0xF8 = 0xF0
            · simp only [c1, c2, c3, c4, if_true, if_false]
              by_cases h3 : i + 3 < utf8.length
              · have h1 : i + 1 < utf8.length := by omega
                have h2 : i + 2 < utf8.length := by omega
                rw [dif_pos h3, List.drop_eq_getElem_cons h1, List.drop_eq_getElem_cons h2,
                  List.drop_eq_getElem_cons h3, ih (i + 4) _ (by omega)]
                simp
              · rw [dif_neg h3]
                by_cases h1 : i + 1 < utf8.length
                · rw [List.drop_eq_getElem_cons h1]
                  by_cases h2 : i + 2 < utf8.length
                  · rw [List.drop_eq_getElem_cons h2, List.drop_eq_nil_of_le (by omega)]
                    simp
                  · rw [List.drop_eq_nil_of_le (by omega)]
                    simp
                · rw [List.drop_eq_nil_of_le (by omega)]
                  simp
            · simp only [c1, c2, c3, c4, if_false]
              exact ih (i + 1) _ (by omega)
    · rw [dif_neg h, List.drop_eq_nil_of_le (by omega), utf8Decode_nil, List.append_nil]

/-- The function `utf8ToUtf32` computes the recursion `utf8Decode` on its input. -/
theorem utf8ToUtf32_eq (utf8 : List Byte) : utf8ToUtf32 utf8 = utf8Decode utf8 := by
  rw [utf8ToUtf32, utf8ToUtf32Loop_eq utf8 utf8.length 0 [] (by omega)]
  simp

/-! ## The tokenizer and its listener -/

/-- One loop iteration with an arbitrary listener does to the listener's state what
folding the listener over the tokens of that iteration does, and moves the window
and the counter in the same way. -/
theorem emitStep_listener {σ : Type} (listener : σ → FeatureToken → σ)
    (p n : Nat) (a : σ) (chr : Nat) :
    emitStep listener ⟨p, n, a⟩ chr =
      ⟨(emitStep (fun acc t => acc ++ [t]) ⟨p, n, []⟩ chr).prev,
       (emitStep (fun acc t => acc ++ [t]) ⟨p, n, []⟩ chr).numPreviousAsciiChr,
       (emitStep (fun acc t => acc ++ [t]) ⟨p, n, []⟩ chr).acc.foldl listener a⟩ := by
  unfold emitStep
  by_cases h1 : isAscii chr = true
  · by_cases h2 : isAlphaNumeric chr = true
    · rcases n with _ | _ | _ | _ | n <;> simp [h1, h2]
    · rcases n with _ | _ | _ | _ | n <;> simp [h1, h2]
  · simp [h1]

theorem foldl_emitStep_listener {σ : Type} (listener : σ → FeatureToken → σ)
    (cps : List Nat) :
    ∀ (p n : Nat) (a : σ) (toks : List FeatureToken),
      cps.foldl (emitStep listener) ⟨p, n, toks.foldl listener a⟩ =
        ⟨(cps.foldl (emitStep (fun acc t => acc ++ [t])) ⟨p, n, toks⟩).prev,
         (cps.foldl (emitStep (fun acc t => acc ++ [t])) ⟨p, n, toks⟩).numPreviousAsciiChr,
         (cps.foldl (emitStep (fun acc t => acc ++ [t])) ⟨p, n, toks⟩).acc.foldl listener a⟩ := by
  induction cps with
  | nil => intro p n a toks; rfl
  | cons chr cps ih =>
    intro p n a toks
    rw [List.foldl_cons, List.foldl_cons, emitStep_listener listener,
      emitStep_listener (fun acc t => acc ++ [t]) p n toks]
    have happ : ∀ (l acc : List FeatureToken),
        l.foldl (fun acc t => acc ++ [t]) acc = acc ++ l := by
      intro l
      induction l with
      | nil => intro acc; simp
      | cons x l ihl => intro acc; simp [ihl]
    rw [happ, ← List.foldl_append]
    exact ih _ _ a _

/-- The listener of `emitTokens` sees exactly the tokens of `tokens`, in order. -/
theorem emitTokens_eq_foldl {σ : Type} (text : List Byte)
    (listener : σ → FeatureToken → σ) (init : σ) :
    emitTokens text listener init = (tokens text).foldl listener init := by
  have h := foldl_emitStep_listener listener (utf8ToUtf32 text) 0x20 1 init []
  simp only [List.foldl_nil] at h
  unfold emitTokens tokens emitTokens
  simp only [h]

/-! ## The scorer: the two loops over the languages -/

theorem addWeights_spec {F : Type} (A : ScoreArith F) (W : List F) (idx : Nat) :
    ∀ (remaining i : Nat) (scores : List F),
      i + remaining ≤ scores.length → idx + i + remaining ≤ W.length →
      ∃ out, addWeights A W idx remaining i scores = some out ∧
        out.length = scores.length ∧
        ∀ j, out[j]? =
          if i ≤ j ∧ j < i + remaining then
            (scores[j]?).map (fun s => A.add s (W.getD (idx + j) A.zero))
          else scores[j]? := by
  intro remaining
  induction remaining with
  | zero =>
    intro i scores _ _
    refine ⟨scores, rfl, rfl, ?_⟩
    intro j
    rw [if_neg (by omega)]
  | succ r ih =>
    intro i scores hs hw
    have hi : i < scores.length := by omega
    have hwi : idx + i < W.length := by omega
    obtain ⟨out, hout, hlen, hget⟩ :=
      ih (i + 1) (scores.set i (A.add scores[i] W[idx + i]))
        (by rw [List.length_set]; omega) (by omega)
    refine ⟨out, ?_, ?_, ?_⟩
    · rw [addWeights, List.getElem?_eq_getElem hi, List.getElem?_eq_getElem hwi]
      exact hout
    · rw [hlen, List.length_set]
    · intro j
      rw [hget j]
      by_cases hj : j = i
      · subst hj
        rw [if_neg (by omega), if_pos (by omega), List.getElem?_set_self hi,
          List.getElem?_eq_getElem hi, List.getD_eq_getElem W A.zero hwi]
        rfl
      · rw [List.getElem?_set_ne (Ne.symm hj)]
        by_cases hc : i + 1 ≤ j ∧ j < i + 1 + r
        · rw [if_pos hc, if_pos (by omega)]
        · rw [if_neg hc, if_neg (by omega)]

theorem addIntercepts_spec {F : Type} (A : ScoreArith F) (I : List F) (r : F) :
    ∀ (remaining i : Nat) (scores : List F),
      i + remaining ≤ scores.length → i + remaining ≤ I.length →
      ∃ out, addIntercepts A I r remaining i scores = some out ∧
        out.length = scores.length ∧
        ∀ j, out[j]? =
          if i ≤ j ∧ j < i + remaining then
            (scores[j]?).map (fun s => A.add (A.mul s r) (I.getD j A.zero))
          else scores[j]? := by
  intro remaining
  induction remaining with
  | zero =>
    intro i scores _ _
    refine ⟨scores, rfl, rfl, ?_⟩
    intro j
    rw [if_neg (by omega)]
  | succ n ih =>
    intro i scores hs hw
    have hi : i < scores.length := by omega
    have hwi : i < I.length := by omega
    obtain ⟨out, hout, hlen, hget⟩ :=
      ih (i + 1) (scores.set i (A.add (A.mul scores[i] r) I[i]))
        (by rw [List.length_set]; omega) (by omega)
    refine ⟨out, ?_, ?_, ?_⟩
    · rw [addIntercepts, List.getElem?_eq_getElem hi, List.getElem?_eq_getElem hwi]
      exact hout
    · rw [hlen, List.length_set]
    · intro j
      rw [hget j]
      by_cases hj : j = i
      · subst hj
        rw [if_neg (by omega), if_pos (by omega), List.getElem?_set_self hi,
          List.getElem?_eq_getElem hi, List.getD_eq_getElem I A.zero hwi]
        rfl
      · rw [List.getElem?_set_ne (Ne.symm hj)]
        by_cases hc : i + 1 ≤ j ∧ j < i + 1 + n
        · rw [if_pos hc, if_pos (by omega)]
        · rw [if_neg hc, if_neg (by omega)]

theorem u32_succ (c : Nat) : u32 (u32 c + 1) = u32 (c + 1) := by
  unfold u32
  omega

theorem bucket_lt (t : FeatureToken) : bucket t < DIMENSION := by
  unfold bucket
  exact Nat.mod_lt _ (by decide)

/-- Folding the lambda of `detectLanguage` over a token list, in a model with
`DIMENSION * numLanguages` weights: no read is out of bounds, the counter grows by
the number of tokens (wrapped to 32 bits), and score `k` grows by the weights of
language `k` in the buckets of the tokens, added in order. -/
theorem foldl_scoreListener {Lang F : Type} (A : ScoreArith F) (m : Model Lang F)
    (hw : m.WEIGHTS.length = DIMENSION * m.LANGUAGES.length) :
    ∀ (toks : List FeatureToken) (scores : List F) (c : Nat),
      scores.length = m.LANGUAGES.length →
      ∃ out, toks.foldl (scoreListener A m) (some (scores, u32 c)) =
          some (out, u32 (c + toks.length)) ∧
        out.length = m.LANGUAGES.length ∧
        ∀ k, k < m.LANGUAGES.length →
          out[k]? = some (toks.foldl
            (fun acc t => A.add acc (m.WEIGHTS.getD (bucket t * m.LANGUAGES.length + k) A.zero))
            (scores.getD k A.zero)) := by
  intro toks
  induction toks with
  | nil =>
    intro scores c hs
    refine ⟨scores, rfl, hs, ?_⟩
    intro k hk
    rw [List.foldl_nil, List.getD_eq_getElem scores A.zero (by omega),
      List.getElem?_eq_getElem (by omega)]
  | cons t toks ih =>
    intro scores c hs
    have hb : bucket t * m.LANGUAGES.length + 0 + m.LANGUAGES.length ≤ m.WEIGHTS.length := by
      have h1 := bucket_lt t
      rw [hw]
      calc bucket t * m.LANGUAGES.length + 0 + m.LANGUAGES.length
          = (bucket t + 1) * m.LANGUAGES.length := by ring
        _ ≤ DIMENSION * m.LANGUAGES.length := Nat.mul_le_mul_right _ h1
    obtain ⟨out1, h1, hl1, hg1⟩ :=
      addWeights_spec A m.WEIGHTS (bucket t * m.LANGUAGES.length) m.LANGUAGES.length 0 scores
        (by omega) hb
    obtain ⟨out, h2, hl2, hg2⟩ := ih out1 (c + 1) (by omega)
    refine ⟨out, ?_, hl2, ?_⟩
    · rw [List.foldl_cons]
      have hstep : scoreListener A m (some (scores, u32 c)) t = some (out1, u32 (c + 1)) := by
        simp only [scoreListener]
        rw [show featureToHash t % DIMENSION = bucket t from rfl, h1, u32_succ]
      rw [hstep, h2, List.length_cons]
      congr 3
      omega
    · intro k hk
      rw [hg2 k hk, List.foldl_cons]
      congr 2
      have hk1 : k < out1.length := by omega
      have hk0 : k < scores.length := by omega
      have := hg1 k
      rw [if_pos (by omega), List.getElem?_eq_getElem hk1, List.getElem?_eq_getElem hk0] at this
      rw [List.getD_eq_getElem out1 A.zero hk1, List.getD_eq_getElem scores A.zero hk0]
      simpa using this

/-- The scorer in closed form. In a model of the required dimensions no read is out
of bounds, and the result is the default when the counter is zero and otherwise the
language at the index `std::max_element` finds in the list of the scores
`specScore 0, ..., specScore (numLanguages - 1)`. -/
theorem detectLanguage_eq {Lang F : Type} (A : ScoreArith F) (m : Model Lang F)
    (hm : m.WellFormed) (text : List Byte) :
    detectLanguage A m text =
      if numFeatures text = 0 then some m.Eng
      else m.LANGUAGES[maxElement A.lt
        ((List.range m.LANGUAGES.length).map (specScore A m text))]? := by
  obtain ⟨hw, hi⟩ := hm
  obtain ⟨out, h1, hl1, hg1⟩ := foldl_scoreListener A m hw (tokens text)
    (List.replicate m.LANGUAGES.length A.zero) 0 (by simp)
  have h0 : u32 0 = 0 := rfl
  rw [h0, Nat.zero_add] at h1
  unfold detectLanguage
  simp only [emitTokens_eq_foldl, h1]
  rw [show u32 (tokens text).length = numFeatures text from rfl]
  by_cases hz : numFeatures text = 0
  · rw [if_pos hz, if_pos hz]
  · rw [if_neg hz, if_neg hz]
    obtain ⟨fin, h2, hl2, hg2⟩ := addIntercepts_spec A m.INTERCEPTS
      (A.rsqrt (numFeatures text)) m.LANGUAGES.length 0 out (by omega) (by omega)
    simp only [h2]
    have hfin : fin = (List.range m.LANGUAGES.length).map (specScore A m text) := by
      apply List.ext_getElem?
      intro k
      rw [hg2 k]
      by_cases hk : k < m.LANGUAGES.length
      · rw [if_pos (by omega), hg1 k hk]
        rw [List.getElem?_map, List.getElem?_range hk]
        simp [specScore, List.getD_eq_getElem?_getD, hk]
      · rw [if_neg (by omega), List.getElem?_eq_none (by omega),
          List.getElem?_eq_none (by simp; omega)]
    rw [hfin]

/-! ## The scan of `std::max_element` -/

theorem maxElementFrom_lt {F : Type} (lt : F → F → Bool) :
    ∀ (xs : List F) (i largest : Nat) (lv : F), largest < i →
      maxElementFrom lt xs i largest lv < i + xs.length := by
  intro xs
  induction xs with
  | nil => intro i largest lv h; simpa [maxElementFrom] using h
  | cons x xs ih =>
    intro i largest lv h
    rw [maxElementFrom, List.length_cons]
    split
    · have := ih (i + 1) i x (by omega)
      omega
    · have := ih (i + 1) largest lv (by omega)
      omega

/-- The index `std::max_element` returns lies inside a non-empty range, whatever
the comparison does. -/
theorem maxElement_lt {F : Type} (lt : F → F → Bool) (l : List F) (h : l ≠ []) :
    maxElement lt l < l.length := by
  cases l with
  | nil => exact absurd rfl h
  | cons x xs =>
    rw [maxElement, List.length_cons]
    have := maxElementFrom_lt lt xs 1 0 x (by omega)
    omega

theorem maxElementFrom_spec {F : Type} (lt : F → F → Bool) :
    ∀ (xs pre : List F) (largest : Nat) (lv : F),
      StrictWeakOn lt (pre ++ xs) →
      pre[largest]? = some lv →
      (∀ y ∈ pre, lt lv y = false) →
      (∀ j y, j < largest → pre[j]? = some y → lt y lv = true) →
      ∃ v, (pre ++ xs)[maxElementFrom lt xs pre.length largest lv]? = some v ∧
        (∀ y ∈ pre ++ xs, lt v y = false) ∧
        (∀ j y, j < maxElementFrom lt xs pre.length largest lv →
          (pre ++ xs)[j]? = some y → lt y v = true) := by
  intro xs
  induction xs with
  | nil =>
    intro pre largest lv _ hl hb hc
    simp only [List.append_nil, maxElementFrom]
    exact ⟨lv, hl, hb, hc⟩
  | cons x xs ih =>
    intro pre largest lv hS hl hb hc
    obtain ⟨hirr, htr, hntr⟩ := hS
    have hlv : lv ∈ pre ++ x :: xs :=
      List.mem_append_left _ (List.getElem?_mem hl)
    have hx : x ∈ pre ++ x :: xs := by simp
    have hpre : ∀ y ∈ pre, y ∈ pre ++ x :: xs := fun y hy => List.mem_append_left _ hy
    have hlen : (pre ++ [x]).length = pre.length + 1 := by simp
    have happ : pre ++ x :: xs = (pre ++ [x]) ++ xs := by simp
    rw [maxElementFrom]
    by_cases hcmp : lt lv x = true
    · rw [if_pos hcmp, happ, ← hlen]
      apply ih (pre ++ [x]) pre.length x
      · rw [← happ]; exact ⟨hirr, htr, hntr⟩
      · simp
      · intro y hy
        rcases List.mem_append.mp hy with hy | hy
        · by_contra hxy
          have hxy1 : lt x y = true := by simpa using hxy
          have := htr lv hlv x hx y (hpre y hy) hcmp hxy1
          rw [hb y hy] at this
          exact Bool.noConfusion this
        · have : y = x := by simpa using hy
          rw [this]; exact hirr x hx
      · intro j y hj hjy
        have hjy1 : pre[j]? = some y := by
          rw [List.getElem?_append_left hj] at hjy; exact hjy
        have hy : y ∈ pre := List.getElem?_mem hjy1
        by_contra hyx
        have hyx1 : lt y x = false := by simpa using hyx
        have := hntr lv hlv y (hpre y hy) x hx (hb y hy) hyx1
        rw [hcmp] at this
        exact Bool.noConfusion this
    · have hcmp1 : lt lv x = false := by simpa using hcmp
      rw [if_neg hcmp, happ, ← hlen]
      apply ih (pre ++ [x]) largest lv
      · rw [← happ]; exact ⟨hirr, htr, hntr⟩
      · have hlt : largest < pre.length := by
          by_contra hge
          rw [List.getElem?_eq_none (by omega)] at hl
          exact Option.noConfusion hl
        rw [List.getElem?_append_left hlt]; exact hl
      · intro y hy
        rcases List.mem_append.mp hy with hy | hy
        · exact hb y hy
        · have : y = x := by simpa using hy
          rw [this]; exact hcmp1
      · intro j y hj hjy
        have hlt : largest < pre.length := by
          by_contra hge
          rw [List.getElem?_eq_none (by omega)] at hl
          exact Option.noConfusion hl
        rw [List.getElem?_append_left (by omega)] at hjy
        exact hc j y hj hjy

/-- On a non-empty list whose values `lt` orders as `<` orders numbers,
`std::max_element` returns the first index of a maximum: no element is larger than
the one it returns, and every element before it is strictly smaller. -/
theorem maxElement_spec {F : Type} (lt : F → F → Bool) (l : List F) (h : l ≠ [])
    (hS : StrictWeakOn lt l) :
    ∃ v, l[maxElement lt l]? = some v ∧
      (∀ y ∈ l, lt v y = false) ∧
      (∀ j y, j < maxElement lt l → l[j]? = some y → lt y v = true) := by
  cases l with
  | nil => exact absurd rfl h
  | cons x xs =>
    have := maxElementFrom_spec lt xs [x] 0 x hS rfl
      (by intro y hy; have : y = x := by simpa using hy
          rw [this]; exact hS.1 x (by simp))
      (by intro j y hj; omega)
    simpa [maxElement] using this

/-! ## Totality and the default language -/

theorem tokens_eq (text : List Byte) :
    tokens text = tokensOfCodepoints (utf8Decode text) := by
  rw [← utf8ToUtf32_eq]
  rfl

theorem tokens_nil : tokens [] = [] := by
  rw [tokens_eq]
  rfl

/-- Claim C1. For every byte sequence and every model with at least one language,
`DIMENSION * numLanguages` weights and `numLanguages` intercepts, `detectLanguage`
reads no table out of bounds and returns a language that is `LANGUAGES[k]` for some
`k < numLanguages` or the default `Lang::Eng`; this holds for every interpretation
of the `float` operations. -/
theorem detectLanguage_total {Lang F : Type} (A : ScoreArith F) (m : Model Lang F)
    (text : List Byte) (hn : 1 ≤ m.LANGUAGES.length)
    (hw : m.WEIGHTS.length = DIMENSION * m.LANGUAGES.length)
    (hi : m.INTERCEPTS.length = m.LANGUAGES.length) :
    ∃ l, detectLanguage A m text = some l ∧
      (l = m.Eng ∨ ∃ k, k < m.LANGUAGES.length ∧ m.LANGUAGES[k]? = some l) := by
  rw [detectLanguage_eq A m ⟨hw, hi⟩ text]
  by_cases hz : numFeatures text = 0
  · rw [if_pos hz]
    exact ⟨m.Eng, rfl, Or.inl rfl⟩
  · rw [if_neg hz]
    have hne : (List.range m.LANGUAGES.length).map (specScore A m text) ≠ [] := by
      intro h
      have := congrArg List.length h
      rw [List.length_map, List.length_range, List.length_nil] at this
      omega
    have hlt := maxElement_lt A.lt _ hne
    rw [List.length_map, List.length_range] at hlt
    exact ⟨m.LANGUAGES[maxElement A.lt
        ((List.range m.LANGUAGES.length).map (specScore A m text))],
      List.getElem?_eq_getElem hlt, Or.inr ⟨_, hlt, List.getElem?_eq_getElem hlt⟩⟩

/-- An input without tokens gets the default, in every model. -/
theorem detectLanguage_of_tokens_nil {Lang F : Type} (A : ScoreArith F) (m : Model Lang F)
    (text : List Byte) (ht : tokens text = []) : detectLanguage A m text = some m.Eng := by
  unfold detectLanguage
  simp [emitTokens_eq_foldl, ht]

/-- Claim C2. On the empty byte sequence `detectLanguage` returns the default
`Lang::Eng` for every model; and on every input whose feature counter is zero after
tokenization it returns the default, in a model of the required dimensions or when
no token was emitted at all. This holds for every interpretation of the `float`
operations, so the result does not depend on `1 / sqrt(numFeatures)`. -/
theorem detectLanguage_default {Lang F : Type} (A : ScoreArith F) (m : Model Lang F)
    (text : List Byte) :
    detectLanguage A m [] = some m.Eng ∧
    (numFeatures text = 0 → (m.WellFormed ∨ tokens text = []) →
      detectLanguage A m text = some m.Eng) := by
  refine ⟨detectLanguage_of_tokens_nil A m [] tokens_nil, ?_⟩
  intro h0 hm
  rcases hm with hm | hm
  · rw [detectLanguage_eq A m hm text, if_pos h0]
  · exact detectLanguage_of_tokens_nil A m text hm

theorem zeroModel_wellFormed {Lang F : Type} (languages : List Lang) (eng : Lang) (zero : F) :
    (zeroModel languages eng zero).WellFormed := by
  constructor <;> simp [zeroModel]

theorem detectLanguage_total_witness :
    1 ≤ zeroToyModel.LANGUAGES.length ∧
    zeroToyModel.WEIGHTS.length = DIMENSION * zeroToyModel.LANGUAGES.length ∧
    zeroToyModel.INTERCEPTS.length = zeroToyModel.LANGUAGES.length ∧
    ∃ l, detectLanguage intArith zeroToyModel [0x61, 0x80, 0xC3] = some l ∧
      (l = zeroToyModel.Eng ∨
        ∃ k, k < zeroToyModel.LANGUAGES.length ∧ zeroToyModel.LANGUAGES[k]? = some l) :=
  ⟨by decide, (zeroModel_wellFormed _ _ _).1, (zeroModel_wellFormed _ _ _).2,
    detectLanguage_total intArith zeroToyModel [0x61, 0x80, 0xC3] (by decide)
      (zeroModel_wellFormed _ _ _).1 (zeroModel_wellFormed _ _ _).2⟩

theorem detectLanguage_default_witness :
    numFeatures [0x80, 0xC3] = 0 ∧
    (zeroToyModel.WellFormed ∨ tokens [0x80, 0xC3] = []) ∧
    detectLanguage intArith zeroToyModel [0x80, 0xC3] = some ToyLang.English :=
  have ht : tokens [0x80, 0xC3] = [] := by rw [tokens_eq]; decide
  have h0 : numFeatures [0x80, 0xC3] = 0 := by rw [numFeatures, ht]; rfl
  ⟨h0, Or.inr ht,
    (detectLanguage_default intArith zeroToyModel [0x80, 0xC3]).2 h0 (Or.inr ht)⟩

/-! ## The argmax and the wrap of the feature counter -/

/-- When the feature counter is not zero after tokenization, `detectLanguage`
returns `LANGUAGES[k]` for the lowest index `k` that maximises `specScore`: no
score is larger than score `k`, and every score before `k` is strictly smaller.
The model has the required dimensions and the comparison orders the scores as `<`
orders numbers (no score is NaN). -/
theorem detectLanguage_argmax {Lang F : Type} (A : ScoreArith F) (m : Model Lang F)
    (text : List Byte) (hm : m.WellFormed) (hn : 1 ≤ m.LANGUAGES.length)
    (h0 : numFeatures text ≠ 0)
    (hS : StrictWeakOn A.lt ((List.range m.LANGUAGES.length).map (specScore A m text))) :
    ∃ k l, k < m.LANGUAGES.length ∧ m.LANGUAGES[k]? = some l ∧
      detectLanguage A m text = some l ∧
      (∀ j, j < m.LANGUAGES.length →
        A.lt (specScore A m text k) (specScore A m text j) = false) ∧
      (∀ j, j < k → A.lt (specScore A m text j) (specScore A m text k) = true) := by
  have hne : (List.range m.LANGUAGES.length).map (specScore A m text) ≠ [] := by
    intro h
    have := congrArg List.length h
    rw [List.length_map, List.length_range, List.length_nil] at this
    omega
  have hlt := maxElement_lt A.lt _ hne
  rw [List.length_map, List.length_range] at hlt
  obtain ⟨v, hv, hmax, hfirst⟩ := maxElement_spec A.lt _ hne hS
  rw [List.getElem?_map, List.getElem?_range hlt] at hv
  have hv1 : specScore A m text (maxElement A.lt
      ((List.range m.LANGUAGES.length).map (specScore A m text))) = v := by
    simpa using hv
  refine ⟨_, m.LANGUAGES[maxElement A.lt
      ((List.range m.LANGUAGES.length).map (specScore A m text))], hlt,
    List.getElem?_eq_getElem hlt, ?_, ?_, ?_⟩
  · rw [detectLanguage_eq A m hm text, if_neg h0, List.getElem?_eq_getElem hlt]
  · intro j hj
    rw [hv1]
    exact hmax _ (List.mem_map.mpr ⟨j, List.mem_range.mpr hj, rfl⟩)
  · intro j hj
    rw [hv1]
    apply hfirst j _ hj
    rw [List.getElem?_map, List.getElem?_range (by omega)]
    rfl

theorem detectLanguage_argmax_witness :
    zeroToyModel.WellFormed ∧ 1 ≤ zeroToyModel.LANGUAGES.length ∧
    numFeatures [0x61] ≠ 0 ∧
    ∃ k l, k < zeroToyModel.LANGUAGES.length ∧ zeroToyModel.LANGUAGES[k]? = some l ∧
      detectLanguage intArith zeroToyModel [0x61] = some l ∧
      (∀ j, j < zeroToyModel.LANGUAGES.length →
        intArith.lt (specScore intArith zeroToyModel [0x61] k)
          (specScore intArith zeroToyModel [0x61] j) = false) ∧
      (∀ j, j < k → intArith.lt (specScore intArith zeroToyModel [0x61] j)
        (specScore intArith zeroToyModel [0x61] k) = true) :=
  have ht : tokens [0x61] = [⟨Feature.AsciiNGram, 0x2061⟩] := by rw [tokens_eq]; decide
  have h0 : numFeatures [0x61] ≠ 0 := by rw [numFeatures, ht]; decide
  have hS : StrictWeakOn intArith.lt
      ((List.range zeroToyModel.LANGUAGES.length).map (specScore intArith zeroToyModel [0x61])) := by
    refine ⟨?_, ?_, ?_⟩
    · intro a _; simp [intArith]
    · intro a _ b _ c _; simp only [intArith, decide_eq_true_eq]; omega
    · intro a _ b _ c _; simp only [intArith, decide_eq_false_iff_not]; omega
  ⟨zeroModel_wellFormed _ _ _, by decide, h0,
    detectLanguage_argmax intArith zeroToyModel [0x61] (zeroModel_wellFormed _ _ _)
      (by decide) h0 hS⟩

theorem utf8Decode_wrap (n : Nat) :
    utf8Decode (List.replicate n [(0xC3 : Byte), 0xA9]).flatten = List.replicate n 0xE9 := by
  induction n with
  | zero => rfl
  | succ n ih =>
    rw [List.replicate_succ, List.flatten_cons, List.replicate_succ]
    show utf8Decode ((0xC3 : Byte) :: 0xA9 :: (List.replicate n [(0xC3 : Byte), 0xA9]).flatten) = _
    rw [utf8Decode_cons, if_neg (by decide), if_pos (by decide)]
    show _ :: utf8Decode (List.replicate n [(0xC3 : Byte), 0xA9]).flatten = _
    rw [ih]
    rfl

theorem foldl_emitStep_nonAscii (n : Nat) :
    ∀ (p k : Nat) (acc : List FeatureToken),
      ((List.replicate n 0xE9).foldl (emitStep (fun acc t => acc ++ [t])) ⟨p, k, acc⟩).acc.length
        = acc.length + 2 * n := by
  induction n with
  | zero => intro p k acc; rfl
  | succ n ih =>
    intro p k acc
    rw [List.replicate_succ, List.foldl_cons]
    have hstep : emitStep (fun acc t => acc ++ [t]) ⟨p, k, acc⟩ 0xE9 =
        ⟨p, 0, acc ++ [⟨Feature.Unicode, u32 0xE9⟩] ++
          [⟨Feature.UnicodeClass, classifyCodepoint 0xE9⟩]⟩ := rfl
    rw [hstep, ih]
    simp only [List.length_append, List.length_singleton]
    omega

/-- The input `wrapInput` makes `emitTokens` emit exactly `2 ^ 32` tokens. -/
theorem tokens_wrapInput : (tokens wrapInput).length = 2 ^ 32 := by
  rw [tokens_eq, wrapInput, utf8Decode_wrap, tokensOfCodepoints, emitLoop,
    foldl_emitStep_nonAscii]
  rfl

/-- Claim C3, at its failing input. The input `wrapInput` (4 GiB: `C3 A9` repeated
`2 ^ 31` times) emits `2 ^ 32` tokens, so at least one; the 32-bit counter
`numFeatures` has wrapped to zero after tokenization and `detectLanguage` returns
the default `English`, although every score is equal and the lowest index
maximising the score is 0, where `LANGUAGES` holds `French`. -/
theorem detectLanguage_counter_wrap :
    (tokens wrapInput).length = 2 ^ 32 ∧
    numFeatures wrapInput = 0 ∧
    detectLanguage intArith zeroToyModel wrapInput = some ToyLang.English ∧
    zeroToyModel.LANGUAGES[0]? = some ToyLang.French ∧
    detectLanguage intArith zeroToyModel wrapInput ≠ zeroToyModel.LANGUAGES[0]? := by
  have h0 : numFeatures wrapInput = 0 := by
    rw [numFeatures, tokens_wrapInput]
    rfl
  have hd : detectLanguage intArith zeroToyModel wrapInput = some ToyLang.English := by
    rw [detectLanguage_eq intArith zeroToyModel (zeroModel_wellFormed _ _ _), if_pos h0]
    rfl
  refine ⟨tokens_wrapInput, h0, hd, rfl, ?_⟩
  rw [hd]
  decide

/-! ## The all-zero model -/

theorem foldl_add_zero {F T : Type} (A : ScoreArith F) (hadd : A.add A.zero A.zero = A.zero)
    (toks : List T) : toks.foldl (fun acc _ => A.add acc A.zero) A.zero = A.zero := by
  induction toks with
  | nil => rfl
  | cons t toks ih => rw [List.foldl_cons, hadd, ih]

theorem specScore_zeroModel {Lang F : Type} (A : ScoreArith F) (languages : List Lang)
    (eng : Lang) (hadd : A.add A.zero A.zero = A.zero) (text : List Byte)
    (hmul : A.mul A.zero (A.rsqrt (numFeatures text)) = A.zero) (k : Nat) :
    specScore A (zeroModel languages eng A.zero) text k = A.zero := by
  have hw : ∀ j, (zeroModel languages eng A.zero).WEIGHTS.getD j A.zero = A.zero := by
    intro j
    simp only [zeroModel, List.getD_eq_getElem?_getD, List.getElem?_replicate]
    split <;> rfl
  have hi : (zeroModel languages eng A.zero).INTERCEPTS.getD k A.zero = A.zero := by
    simp only [zeroModel, List.getD_eq_getElem?_getD, List.getElem?_replicate]
    split <;> rfl
  unfold specScore
  simp only [hw, hi]
  rw [foldl_add_zero A hadd, hmul, hadd]

theorem maxElementFrom_replicate {F : Type} (lt : F → F → Bool) (z : F) (hz : lt z z = false) :
    ∀ (n i largest : Nat), maxElementFrom lt (List.replicate n z) i largest z = largest := by
  intro n
  induction n with
  | zero => intro i largest; rfl
  | succ n ih =>
    intro i largest
    rw [List.replicate_succ, maxElementFrom, hz]
    exact ih (i + 1) largest

theorem maxElement_replicate {F : Type} (lt : F → F → Bool) (z : F) (hz : lt z z = false)
    (n : Nat) : maxElement lt (List.replicate n z) = 0 := by
  cases n with
  | zero => rfl
  | succ n =>
    rw [List.replicate_succ, maxElement]
    exact maxElementFrom_replicate lt z hz n 1 0

/-- In the all-zero model every score is zero, and `detectLanguage` returns the
default when the feature counter is zero and the first language otherwise. The
scale factor `1 / sqrt n` is used for a counter `n` other than zero only. -/
theorem detectLanguage_zeroModel {Lang F : Type} (A : ScoreArith F) (languages : List Lang)
    (eng : Lang) (hadd : A.add A.zero A.zero = A.zero)
    (hmul : ∀ n, n ≠ 0 → A.mul A.zero (A.rsqrt n) = A.zero)
    (hlt : A.lt A.zero A.zero = false) (text : List Byte) :
    detectLanguage A (zeroModel languages eng A.zero) text =
      if numFeatures text = 0 then some eng else languages[0]? := by
  rw [detectLanguage_eq A _ (zeroModel_wellFormed _ _ _)]
  by_cases h0 : numFeatures text = 0
  · rw [if_pos h0, if_pos h0]
    rfl
  rw [if_neg h0, if_neg h0]
  have hmap : (List.range (zeroModel languages eng A.zero).LANGUAGES.length).map
      (specScore A (zeroModel languages eng A.zero) text) =
      List.replicate languages.length A.zero := by
    apply List.ext_getElem?
    intro k
    rw [List.getElem?_map, List.getElem?_replicate]
    by_cases hk : k < languages.length
    · rw [if_pos hk, List.getElem?_range (by simpa [zeroModel] using hk)]
      simp [specScore_zeroModel A languages eng hadd text (hmul _ h0)]
    · rw [if_neg hk, List.getElem?_eq_none (by simpa [zeroModel] using hk)]
      rfl
  rw [hmap, maxElement_replicate A.lt A.zero hlt]
  rfl

/-! ## Inputs without features and the all-zero scenario -/

/-- Claim C7, refuted as stated. The one-byte input `0x80` is not empty, yet with
the all-zero model whose languages are `[French, English]` `detectLanguage`
returns the default `English`, not `LANGUAGES[0]`: the byte is skipped by the
decoder and no feature is extracted. -/
theorem zeroModel_nonEmpty_counterexample :
    ¬ (∀ text : List Byte, text ≠ [] →
        detectLanguage intArith zeroToyModel text = zeroToyModel.LANGUAGES[0]?) := by
  intro h
  have h1 := h [0x80] (by decide)
  have ht : tokens [0x80] = [] := by rw [tokens_eq]; decide
  rw [detectLanguage_of_tokens_nil intArith zeroToyModel [0x80] ht] at h1
  exact absurd h1 (by decide)

/-- Claim C7, amended. With a model whose weights and intercepts are all zero and
at least one language, `detectLanguage` returns `LANGUAGES[0]` on every byte
sequence whose feature counter is not zero after tokenization. The `float`
operations satisfy `0 + 0 = 0`, `0 * (1 / sqrt n) = 0` for every counter `n` other
than zero, and not `0 < 0`; nothing is assumed of `1 / sqrt 0`. -/
theorem detectLanguage_zeroModel_first {Lang F : Type} (A : ScoreArith F)
    (languages : List Lang) (eng : Lang) (text : List Byte)
    (hadd : A.add A.zero A.zero = A.zero)
    (hmul : ∀ n, n ≠ 0 → A.mul A.zero (A.rsqrt n) = A.zero)
    (hlt : A.lt A.zero A.zero = false)
    (hn : 1 ≤ languages.length) (h0 : numFeatures text ≠ 0) :
    ∃ l, languages[0]? = some l ∧
      detectLanguage A (zeroModel languages eng A.zero) text = some l := by
  refine ⟨languages[0], List.getElem?_eq_getElem (by omega), ?_⟩
  rw [detectLanguage_zeroModel A languages eng hadd hmul hlt, if_neg h0,
    List.getElem?_eq_getElem (by omega)]

theorem detectLanguage_zeroModel_first_witness :
    numFeatures [0x61] ≠ 0 ∧
    ∃ l, [ToyLang.French, ToyLang.English][0]? = some l ∧
      detectLanguage intArith
        (zeroModel [ToyLang.French, ToyLang.English] ToyLang.English intArith.zero) [0x61]
        = some l :=
  have ht : tokens [0x61] = [⟨Feature.AsciiNGram, 0x2061⟩] := by rw [tokens_eq]; decide
  have h0 : numFeatures [0x61] ≠ 0 := by rw [numFeatures, ht]; decide
  ⟨h0, detectLanguage_zeroModel_first intArith [ToyLang.French, ToyLang.English]
    ToyLang.English [0x61] rfl (fun _ _ => rfl) rfl (by decide) h0⟩

/-! ## Skipped bytes and truncated sequences -/

set_option maxRecDepth 100000 in
theorem invalidLead_facts : ∀ c : Byte, isInvalidLead c = true →
    ¬ c.val ≤ 0x7F ∧ c.val &&& 0xE0 ≠ 0xC0 ∧ c.val &&& 0xF0 ≠ 0xE0 ∧ c.val &&& 0xF8 ≠ 0xF0 := by
  decide

set_option maxRecDepth 100000 in
theorem sequenceLength_ascii : ∀ c : Byte, c.val ≤ 0x7F → sequenceLength c = 1 := by
  decide

/-- A byte in `0x80`..`0xBF` or `0xF8`..`0xFF` is skipped: it emits no codepoint
and decoding goes on with the next byte. -/
theorem utf8Decode_invalid (c : Byte) (rest : List Byte) (h : isInvalidLead c = true) :
    utf8Decode (c :: rest) = utf8Decode rest := by
  obtain ⟨h1, h2, h3, h4⟩ := invalidLead_facts c h
  rw [utf8Decode_cons, if_neg h1, if_neg h2, if_neg h3, if_neg h4]

/-- A lead byte followed by fewer bytes than its sequence needs ends the decoding
without a codepoint. -/
theorem utf8Decode_truncated (lead : Byte) (following : List Byte)
    (h : following.length + 1 < sequenceLength lead) :
    utf8Decode (lead :: following) = [] := by
  have h1 : ¬ lead.val ≤ 0x7F := by
    intro hle
    rw [sequenceLength_ascii lead hle] at h
    omega
  rw [utf8Decode_cons, if_neg h1]
  unfold sequenceLength at h
  by_cases c2 : lead.val &&& 0xE0 = 0xC0
  · rw [if_pos c2] at h ⊢
    match following, h with
    | [], _ => rfl
  · rw [if_neg c2] at h ⊢
    by_cases c3 : lead.val &&& 0xF0 = 0xE0
    · rw [if_pos c3] at h ⊢
      match following, h with
      | [], _ => rfl
      | [_], _ => rfl
    · rw [if_neg c3] at h ⊢
      by_cases c4 : lead.val &&& 0xF8 = 0xF0
      · rw [if_pos c4] at h ⊢
        match following, h with
        | [], _ => rfl
        | [_], _ => rfl
        | [_, _], _ => rfl
      · rw [if_neg c4] at h
        omega

theorem utf8Decode_skipped (tail : List Byte) :
    ∀ skipped : List Byte, (∀ b ∈ skipped, isInvalidLead b = true) →
      utf8Decode (skipped ++ tail) = utf8Decode tail := by
  intro skipped
  induction skipped with
  | nil => intro _; rfl
  | cons b skipped ih =>
    intro h
    rw [List.cons_append, utf8Decode_invalid b _ (h b (List.mem_cons_self _ _))]
    exact ih (fun x hx => h x (List.mem_cons_of_mem _ hx))

/-- Claim C4, refuted as stated. The two-byte input `C3 C3` consists of two lead
bytes, but the decoder takes the second one as the continuation of the first and
produces U+00C3: two features are extracted, and with the all-zero model over
`[French, English]` the result is `French`, not the `English` of the empty input. -/
theorem leadPair_counterexample :
    tokens [0xC3, 0xC3] = [⟨Feature.Unicode, 0xC3⟩, ⟨Feature.UnicodeClass, 8⟩] ∧
    numFeatures [0xC3, 0xC3] = 2 ∧
    detectLanguage intArith zeroToyModel [0xC3, 0xC3] = some ToyLang.French ∧
    detectLanguage intArith zeroToyModel [] = some ToyLang.English ∧
    detectLanguage intArith zeroToyModel [0xC3, 0xC3] ≠ detectLanguage intArith zeroToyModel [] := by
  have ht : tokens [0xC3, 0xC3] = [⟨Feature.Unicode, 0xC3⟩, ⟨Feature.UnicodeClass, 8⟩] := by
    rw [tokens_eq]; decide
  have h2 : numFeatures [0xC3, 0xC3] = 2 := by rw [numFeatures, ht]; rfl
  have hd : detectLanguage intArith zeroToyModel [0xC3, 0xC3] = some ToyLang.French := by
    have := detectLanguage_zeroModel intArith [ToyLang.French, ToyLang.English]
      ToyLang.English rfl (fun _ _ => rfl) rfl [0xC3, 0xC3]
    rw [h2] at this
    exact this
  have he : detectLanguage intArith zeroToyModel [] = some ToyLang.English :=
    detectLanguage_of_tokens_nil intArith zeroToyModel [] tokens_nil
  refine ⟨ht, h2, hd, he, ?_⟩
  rw [hd, he]
  decide

/-- Claim C4, amended. For every input that consists of bytes the decoder skips
(`0x80`..`0xBF`, `0xF8`..`0xFF`), followed by nothing or by one multi-byte lead
byte with fewer bytes after it than its sequence needs, zero features are
extracted and `detectLanguage` returns what it returns for the empty input. -/
theorem tokens_skipped_truncated {Lang F : Type} (A : ScoreArith F) (m : Model Lang F)
    (skipped tail : List Byte) (hs : ∀ b ∈ skipped, isInvalidLead b = true)
    (ht : tail = [] ∨ ∃ lead following, tail = lead :: following ∧
      following.length + 1 < sequenceLength lead) :
    tokens (skipped ++ tail) = [] ∧ numFeatures (skipped ++ tail) = 0 ∧
    detectLanguage A m (skipped ++ tail) = detectLanguage A m [] := by
  have hdec : utf8Decode (skipped ++ tail) = [] := by
    rw [utf8Decode_skipped tail skipped hs]
    rcases ht with ht | ⟨lead, following, ht, hlen⟩
    · rw [ht]; rfl
    · rw [ht]; exact utf8Decode_truncated lead following hlen
  have htok : tokens (skipped ++ tail) = [] := by
    rw [tokens_eq, hdec]; rfl
  refine ⟨htok, ?_, ?_⟩
  · rw [numFeatures, htok]; rfl
  · rw [detectLanguage_of_tokens_nil A m _ htok,
      detectLanguage_of_tokens_nil A m [] tokens_nil]

theorem tokens_skipped_truncated_witness :
    (∀ b ∈ [(0x80 : Byte), 0xFF, 0xBF], isInvalidLead b = true) ∧
    (([0xE2, 0x82] : List Byte) = [] ∨ ∃ lead following,
      ([0xE2, 0x82] : List Byte) = lead :: following ∧
      following.length + 1 < sequenceLength lead) ∧
    tokens ([0x80, 0xFF, 0xBF] ++ [0xE2, 0x82]) = [] ∧
    numFeatures ([0x80, 0xFF, 0xBF] ++ [0xE2, 0x82]) = 0 ∧
    detectLanguage intArith zeroToyModel ([0x80, 0xFF, 0xBF] ++ [0xE2, 0x82]) =
      detectLanguage intArith zeroToyModel [] :=
  have hs : ∀ b ∈ [(0x80 : Byte), 0xFF, 0xBF], isInvalidLead b = true := by
    intro b hb
    simp only [List.mem_cons, List.mem_singleton, List.not_mem_nil, or_false] at hb
    rcases hb with rfl | rfl | rfl <;> rfl
  have ht : (([0xE2, 0x82] : List Byte) = [] ∨ ∃ lead following,
      ([0xE2, 0x82] : List Byte) = lead :: following ∧
      following.length + 1 < sequenceLength lead) :=
    Or.inr ⟨0xE2, [0x82], rfl, by decide⟩
  ⟨hs, ht, tokens_skipped_truncated intArith zeroToyModel [0x80, 0xFF, 0xBF] [0xE2, 0x82] hs ht⟩

/-! ## Word boundaries -/

theorem tokens_abcd :
    tokens abcd =
      [⟨Feature.AsciiNGram, 0x2061⟩,
       ⟨Feature.AsciiNGram, 0x6162⟩, ⟨Feature.AsciiNGram, 0x206162⟩,
       ⟨Feature.AsciiNGram, 0x6220⟩, ⟨Feature.AsciiNGram, 0x616220⟩,
       ⟨Feature.AsciiNGram, 0x20616220⟩,
       ⟨Feature.AsciiNGram, 0x2063⟩, ⟨Feature.AsciiNGram, 0x2063⟩,
       ⟨Feature.AsciiNGram, 0x2063⟩,
       ⟨Feature.AsciiNGram, 0x6364⟩, ⟨Feature.AsciiNGram, 0x206364⟩,
       ⟨Feature.AsciiNGram, 0x206364⟩] := by
  rw [tokens_eq]
  decide

/-- Claim C5, refuted as stated. For the input `ab cd` the tokenizer does emit the
bigram `0x6220` that packs `b` followed by the space, and also the trigram
`0x616220` and the 4-gram `0x20616220` that end in `b` and the space: the space is
shifted into the window and the n-grams are emitted before the window is reset. -/
theorem abcd_counterexample :
    (⟨Feature.AsciiNGram, 0x6220⟩ : FeatureToken) ∈ tokens abcd ∧
    (⟨Feature.AsciiNGram, 0x616220⟩ : FeatureToken) ∈ tokens abcd ∧
    (⟨Feature.AsciiNGram, 0x20616220⟩ : FeatureToken) ∈ tokens abcd := by
  rw [tokens_abcd]
  decide

/-- Claim C5, amended. For the input `ab cd` the tokenizer emits exactly twelve
n-grams: ` a`, `ab`, ` ab`; then, at the space, `b `, `ab ` and ` ab ` (the
separator is their last character); then ` c` three times, `cd`, ` cd` and ` cd`.
No token contains a character of `ab` together with a character of `cd`: the
n-grams after the space are formed within `cd`, preceded by the boundary space. -/
theorem abcd_tokens_within_words :
    tokens abcd =
      [⟨Feature.AsciiNGram, 0x2061⟩,
       ⟨Feature.AsciiNGram, 0x6162⟩, ⟨Feature.AsciiNGram, 0x206162⟩,
       ⟨Feature.AsciiNGram, 0x6220⟩, ⟨Feature.AsciiNGram, 0x616220⟩,
       ⟨Feature.AsciiNGram, 0x20616220⟩,
       ⟨Feature.AsciiNGram, 0x2063⟩, ⟨Feature.AsciiNGram, 0x2063⟩,
       ⟨Feature.AsciiNGram, 0x2063⟩,
       ⟨Feature.AsciiNGram, 0x6364⟩, ⟨Feature.AsciiNGram, 0x206364⟩,
       ⟨Feature.AsciiNGram, 0x206364⟩] ∧
    ∀ t ∈ tokens abcd,
      ¬ ((0x61 ∈ tokenBytes t.value ∨ 0x62 ∈ tokenBytes t.value) ∧
         (0x63 ∈ tokenBytes t.value ∨ 0x64 ∈ tokenBytes t.value)) := by
  refine ⟨tokens_abcd, ?_⟩
  rw [tokens_abcd]
  decide

theorem toLowerAscii_le (chr : Nat) (h : chr ≤ 127) : toLowerAscii chr ≤ 127 := by
  unfold toLowerAscii tolower
  split
  · split <;> omega
  · omega

theorem window_eq (p chr : Nat) (h : chr ≤ 127) :
    u32 ((p <<< 8) ||| u32 (toLowerAscii chr)) = (p * 256 + toLowerAscii chr) % 2 ^ 32 := by
  have hc := toLowerAscii_le chr h
  have h1 : u32 (toLowerAscii chr) = toLowerAscii chr := by
    unfold u32; omega
  have h2 : (p <<< 8) ||| toLowerAscii chr = p * 256 + toLowerAscii chr := by
    have := Nat.mul_add_lt_is_or (show toLowerAscii chr < 2 ^ 8 by omega) p
    rw [Nat.shiftLeft_eq, Nat.mul_comm p (2 ^ 8), ← this]
  rw [h1, h2, u32]

theorem and_BIGRAM_MASK (w : Nat) : w &&& BIGRAM_MASK = w % 2 ^ 16 :=
  Nat.and_pow_two_sub_one_eq_mod w 16

theorem and_TRIGRAM_MASK (w : Nat) : w &&& TRIGRAM_MASK = w % 2 ^ 24 :=
  Nat.and_pow_two_sub_one_eq_mod w 24

theorem isLowerAlnum_iff (c : Nat) :
    isLowerAlnum c = true ↔ (0x30 ≤ c ∧ c ≤ 0x39) ∨ (0x61 ≤ c ∧ c ≤ 0x7A) := by
  simp [isLowerAlnum]

theorem isLowerAlnum_toLowerAscii (chr : Nat) (h1 : isAscii chr = true)
    (h2 : isAlphaNumeric chr = true) : isLowerAlnum (toLowerAscii chr) = true := by
  rw [isLowerAlnum_iff]
  simp only [isAlphaNumeric, isalnum, isAscii, Bool.or_eq_true, Bool.and_eq_true,
    decide_eq_true_eq, Bool.not_eq_true', decide_eq_false_iff_not] at h1 h2
  unfold toLowerAscii tolower
  simp only [isAscii, decide_eq_true_eq]
  split
  · split <;> omega
  · omega

/-! ### The window invariant -/

theorem windowOk_space : WindowOk 0x20 := by
  decide

theorem upperOk_bigram (p code : Nat) (hp : WindowOk p) (hc : code ≤ 127) :
    UpperOk ((p * 256 + code) % 2 ^ 32 % 2 ^ 16) := by
  obtain ⟨hlt, hb⟩ := hp
  have h0 := hb 0 (by omega)
  have h1 := hb 1 (by omega)
  have h2 := hb 2 (by omega)
  simp only [isLowerAlnum_iff, byteAt] at h0 h1 h2
  norm_num at h0 h1 h2 hlt
  clear hb
  intro i hi
  simp only [isLowerAlnum_iff, byteAt]
  interval_cases i
  · clear h1 h2
    norm_num
    omega
  · clear h0 h2
    norm_num
  · clear h0 h1
    norm_num
    omega

theorem upperOk_trigram (p code : Nat) (hp : WindowOk p) (hc : code ≤ 127) :
    UpperOk ((p * 256 + code) % 2 ^ 32 % 2 ^ 24) := by
  obtain ⟨hlt, hb⟩ := hp
  have h0 := hb 0 (by omega)
  have h1 := hb 1 (by omega)
  have h2 := hb 2 (by omega)
  simp only [isLowerAlnum_iff, byteAt] at h0 h1 h2
  norm_num at h0 h1 h2 hlt
  clear hb
  intro i hi
  simp only [isLowerAlnum_iff, byteAt]
  interval_cases i
  · clear h1 h2
    norm_num
    omega
  · clear h0 h2
    norm_num
    omega
  · clear h0 h1
    norm_num

theorem upperOk_window (p code : Nat) (hp : WindowOk p) (hc : code ≤ 127) :
    UpperOk ((p * 256 + code) % 2 ^ 32) := by
  obtain ⟨hlt, hb⟩ := hp
  have h0 := hb 0 (by omega)
  have h1 := hb 1 (by omega)
  have h2 := hb 2 (by omega)
  simp only [isLowerAlnum_iff, byteAt] at h0 h1 h2
  norm_num at h0 h1 h2 hlt
  clear hb
  intro i hi
  simp only [isLowerAlnum_iff, byteAt]
  interval_cases i
  · clear h1 h2
    norm_num
    omega
  · clear h0 h2
    norm_num
    omega
  · clear h0 h1
    norm_num
    omega

theorem windowOk_shift (p code : Nat) (hp : WindowOk p)
    (hcode : isLowerAlnum code = true) : WindowOk ((p * 256 + code) % 2 ^ 32) := by
  obtain ⟨hlt, hb⟩ := hp
  have h0 := hb 0 (by omega)
  have h1 := hb 1 (by omega)
  have h2 := hb 2 (by omega)
  simp only [isLowerAlnum_iff, byteAt] at h0 h1 h2
  norm_num at h0 h1 h2 hlt
  clear hb
  rw [isLowerAlnum_iff] at hcode
  refine ⟨Nat.mod_lt _ (Nat.two_pow_pos 32), ?_⟩
  intro i hi3
  simp only [isLowerAlnum_iff, byteAt]
  interval_cases i
  · clear h0 h1 h2
    norm_num
    omega
  · clear h1 h2
    norm_num
    omega
  · clear h0 h2
    norm_num
    omega
  · clear h0 h1
    norm_num
    omega

/-- One loop iteration keeps the window well formed and emits only n-grams whose
upper characters are well formed. -/
theorem emitStep_inv (p n : Nat) (acc : List FeatureToken) (chr : Nat) (hw : WindowOk p)
    (hacc : ∀ t ∈ acc, t.type = Feature.AsciiNGram → UpperOk t.value) :
    WindowOk (emitStep (fun acc t => acc ++ [t]) ⟨p, n, acc⟩ chr).prev ∧
    ∀ t ∈ (emitStep (fun acc t => acc ++ [t]) ⟨p, n, acc⟩ chr).acc,
      t.type = Feature.AsciiNGram → UpperOk t.value := by
  by_cases h1 : isAscii chr = true
  · have hle : chr ≤ 127 := by simpa [isAscii] using h1
    have hc := toLowerAscii_le chr hle
    have hb := upperOk_bigram p (toLowerAscii chr) hw hc
    have ht := upperOk_trigram p (toLowerAscii chr) hw hc
    have hq := upperOk_window p (toLowerAscii chr) hw hc
    have hprev : WindowOk (if isAlphaNumeric chr = true then
        (p * 256 + toLowerAscii chr) % 2 ^ 32 else 0x20) := by
      split
      · next h2 => exact windowOk_shift p _ hw (isLowerAlnum_toLowerAscii chr h1 h2)
      · exact windowOk_space
    unfold emitStep
    simp only [h1, Bool.not_true, Bool.false_eq_true, if_false, window_eq p chr hle,
      and_BIGRAM_MASK, and_TRIGRAM_MASK]
    by_cases h2 : isAlphaNumeric chr = true
    · simp only [h2, if_true] at hprev
      rcases n with _ | _ | _ | _ | n <;>
        simp only [h2, Bool.not_true, Bool.false_eq_true, if_false] <;>
        refine ⟨hprev, ?_⟩ <;>
        intro t htm <;>
        try simp only [List.mem_append, List.mem_singleton] at htm
      · exact hacc t htm
      · rcases htm with htm | rfl
        · exact hacc t htm
        · exact fun _ => hb
      · rcases htm with (htm | rfl) | rfl
        · exact hacc t htm
        · exact fun _ => hb
        · exact fun _ => ht
      · rcases htm with ((htm | rfl) | rfl) | rfl
        · exact hacc t htm
        · exact fun _ => hb
        · exact fun _ => ht
        · exact fun _ => hq
      · exact hacc t htm
    · simp only [h2, if_false] at hprev
      rcases n with _ | _ | _ | _ | n <;>
        simp only [h2, Bool.not_false, if_true] <;>
        refine ⟨hprev, ?_⟩ <;>
        intro t htm <;>
        try simp only [List.mem_append, List.mem_singleton] at htm
      · exact hacc t htm
      · rcases htm with htm | rfl
        · exact hacc t htm
        · exact fun _ => hb
      · rcases htm with (htm | rfl) | rfl
        · exact hacc t htm
        · exact fun _ => hb
        · exact fun _ => ht
      · rcases htm with ((htm | rfl) | rfl) | rfl
        · exact hacc t htm
        · exact fun _ => hb
        · exact fun _ => ht
        · exact fun _ => hq
      · exact hacc t htm
  · unfold emitStep
    simp only [h1, Bool.not_false, if_true]
    refine ⟨hw, ?_⟩
    intro t htm
    simp only [List.mem_append, List.mem_singleton] at htm
    rcases htm with (htm | rfl) | rfl
    · exact hacc t htm
    · intro h; exact Feature.noConfusion h
    · intro h; exact Feature.noConfusion h

theorem emitLoop_inv (cps : List Nat) :
    ∀ (st : EmitState (List FeatureToken)), WindowOk st.prev →
      (∀ t ∈ st.acc, t.type = Feature.AsciiNGram → UpperOk t.value) →
      ∀ t ∈ (cps.foldl (emitStep (fun acc t => acc ++ [t])) st).acc,
        t.type = Feature.AsciiNGram → UpperOk t.value := by
  induction cps with
  | nil => intro st _ hacc; exact hacc
  | cons chr cps ih =>
    intro st hw hacc
    rw [List.foldl_cons]
    obtain ⟨p, n, acc⟩ := st
    have := emitStep_inv p n acc chr hw hacc
    exact ih _ this.1 this.2

theorem foldl_append_singleton {T : Type} (l : List T) :
    ∀ acc : List T, l.foldl (fun acc t => acc ++ [t]) acc = acc ++ l := by
  induction l with
  | nil => intro acc; simp
  | cons x l ih => intro acc; simp [ih]

/-- The tokens collected by the loop started with a non-empty list are that list
followed by the tokens of the loop started with the empty list. -/
theorem foldl_emitStep_acc (cps : List Nat) (p n : Nat) (acc : List FeatureToken) :
    cps.foldl (emitStep (fun acc t => acc ++ [t])) ⟨p, n, acc⟩ =
      ⟨(emitLoop p n cps).prev, (emitLoop p n cps).numPreviousAsciiChr,
       acc ++ (emitLoop p n cps).acc⟩ := by
  have h := foldl_emitStep_listener (fun acc t => acc ++ [t]) cps p n acc []
  rw [List.foldl_nil, foldl_append_singleton] at h
  exact h

theorem emitStep_separator (p n : Nat) (acc : List FeatureToken) (sep : Nat)
    (h1 : isAscii sep = true) (h2 : isAlphaNumeric sep = false) :
    (emitStep (fun acc t => acc ++ [t]) ⟨p, n, acc⟩ sep).prev = 0x20 := by
  unfold emitStep
  simp [h1, h2]

/-- The tokens of a sequence with a non-alphanumeric ASCII character `sep` in it:
the tokens of the part up to `sep`, then the tokens of the loop restarted on the
part after `sep` with the window `' '` and some counter `k`. -/
theorem tokensOfCodepoints_separator (pre post : List Nat) (sep : Nat)
    (h1 : isAscii sep = true) (h2 : isAlphaNumeric sep = false) :
    ∃ k, tokensOfCodepoints (pre ++ sep :: post) =
      tokensOfCodepoints (pre ++ [sep]) ++ (emitLoop 0x20 k post).acc := by
  have hsplit : pre ++ sep :: post = (pre ++ [sep]) ++ post := by simp
  refine ⟨(emitLoop 0x20 1 (pre ++ [sep])).numPreviousAsciiChr, ?_⟩
  have hprev : (emitLoop 0x20 1 (pre ++ [sep])).prev = 0x20 := by
    unfold emitLoop
    rw [List.foldl_append, List.foldl_cons, List.foldl_nil]
    exact emitStep_separator _ _ _ sep h1 h2
  unfold tokensOfCodepoints
  rw [hsplit]
  conv_lhs => rw [emitLoop, List.foldl_append]
  have hst : List.foldl (emitStep (fun acc t => acc ++ [t])) ⟨0x20, 1, []⟩ (pre ++ [sep]) =
      ⟨0x20, (emitLoop 0x20 1 (pre ++ [sep])).numPreviousAsciiChr,
        (emitLoop 0x20 1 (pre ++ [sep])).acc⟩ := by
    show emitLoop 0x20 1 (pre ++ [sep]) = _
    generalize emitLoop 0x20 1 (pre ++ [sep]) = e at hprev
    obtain ⟨ep, en, ea⟩ := e
    simp only at hprev
    rw [hprev]
  rw [hst, foldl_emitStep_acc]

/-- Claim C6. In every `AsciiNGram` token emitted for any input, every byte above
the lowest one is a lowercased ASCII alphanumeric, or the boundary marker `0x20`
with only zero bytes above it, or one of the zero bytes above the n-gram. And at
every non-alphanumeric ASCII character of the decoded input the token sequence
splits: the tokens up to the separator are those of the part up to the separator,
and the later tokens are those of the loop restarted with the window `' '` on the
part after it, so no token holds characters from both sides. -/
theorem ngram_upper_chars (text : List Byte) :
    (∀ t ∈ tokens text, t.type = Feature.AsciiNGram → UpperOk t.value) ∧
    (∀ (pre post : List Nat) (sep : Nat), utf8ToUtf32 text = pre ++ sep :: post →
      isAscii sep = true → isAlphaNumeric sep = false →
      ∃ k, tokens text = tokensOfCodepoints (pre ++ [sep]) ++ (emitLoop 0x20 k post).acc) := by
  constructor
  · rw [tokens_eq]
    exact emitLoop_inv (utf8Decode text) ⟨0x20, 1, []⟩ windowOk_space
      (fun t ht => absurd ht (List.not_mem_nil t))
  · intro pre post sep hdec h1 h2
    have : tokens text = tokensOfCodepoints (utf8ToUtf32 text) := rfl
    rw [this, hdec]
    exact tokensOfCodepoints_separator pre post sep h1 h2

theorem ngram_upper_chars_witness :
    UpperOk 0x20616220 ∧
    ∃ k, tokens abcd =
      tokensOfCodepoints ([0x61, 0x62] ++ [0x20]) ++ (emitLoop 0x20 k [0x63, 0x64]).acc :=
  ⟨(ngram_upper_chars abcd).1 ⟨Feature.AsciiNGram, 0x20616220⟩
      (by rw [tokens_abcd]; decide) rfl,
    (ngram_upper_chars abcd).2 [0x61, 0x62] [0x63, 0x64] 0x20
      (by rw [utf8ToUtf32_eq]; decide) rfl rfl⟩

/-! ## The two-language scenario -/

theorem toyModel_wellFormed {F : Type} (zero w : F) : (toyModel zero w).WellFormed := by
  constructor <;> simp [toyModel]

theorem toyModel_weight {F : Type} (zero w : F) (j : Nat) :
    (toyModel zero w).WEIGHTS.getD j zero = if j = 5229 ∨ j = 6316 then w else zero := by
  have hq : bucket ⟨Feature.AsciiNGram, 0x7175⟩ * 2 + 1 = 5229 := by decide
  have ht : bucket ⟨Feature.AsciiNGram, 0x7468⟩ * 2 + 0 = 6316 := by decide
  have hd : DIMENSION * 2 = 8192 := by decide
  simp only [toyModel, hq, ht, hd, List.getD_eq_getElem?_getD, List.getElem?_map]
  by_cases hj : j < 8192
  · rw [List.getElem?_range hj]
    rfl
  · rw [List.getElem?_eq_none (by simpa using hj)]
    rw [if_neg (by omega)]
    rfl

theorem buckets_quoi :
    (tokens quoi).map bucket = [3640, 2614, 3749, 3638, 589, 2343, 1782, 3241, 3571] := by
  rw [tokens_eq]
  decide

theorem buckets_the : (tokens the).map bucket = [1664, 3158, 3451, 2130, 1478, 817] := by
  rw [tokens_eq]
  decide

theorem specScore_toyModel {F : Type} (A : ScoreArith F) (w : F) (text : List Byte) (k : Nat) :
    specScore A (toyModel A.zero w) text k =
      A.add (A.mul
        (((tokens text).map bucket).foldl
          (fun acc b => A.add acc (if b * 2 + k = 5229 ∨ b * 2 + k = 6316 then w else A.zero))
          A.zero)
        (A.rsqrt (numFeatures text)))
        A.zero := by
  unfold specScore
  rw [List.foldl_map]
  simp only [toyModel_weight]
  congr 1
  simp only [toyModel, List.getD_eq_getElem?_getD]
  rcases k with _ | _ | k <;> simp

theorem numFeatures_quoi : numFeatures quoi = 9 := by
  have := congrArg List.length buckets_quoi
  rw [List.length_map] at this
  rw [numFeatures, this]
  rfl

theorem numFeatures_the : numFeatures the = 6 := by
  have := congrArg List.length buckets_the
  rw [List.length_map] at this
  rw [numFeatures, this]
  rfl

/-- The two scores of `quoi` and of `the` in the toy model, once `0 + 0 = 0`,
`0 + w = w` and `w + 0 = w`: the sum of the weights is `w` for the language of the
bigram and `0` for the other. -/
theorem scores_toyModel {F : Type} (A : ScoreArith F) (w : F)
    (h00 : A.add A.zero A.zero = A.zero)
    (h0w : A.add A.zero w = w) (hw0 : A.add w A.zero = w) :
    (List.range (toyModel A.zero w).LANGUAGES.length).map (specScore A (toyModel A.zero w) quoi) =
      [A.add (A.mul A.zero (A.rsqrt 9)) A.zero, A.add (A.mul w (A.rsqrt 9)) A.zero] ∧
    (List.range (toyModel A.zero w).LANGUAGES.length).map (specScore A (toyModel A.zero w) the) =
      [A.add (A.mul w (A.rsqrt 6)) A.zero, A.add (A.mul A.zero (A.rsqrt 6)) A.zero] := by
  have hlen : (toyModel A.zero w).LANGUAGES.length = 2 := rfl
  have hrange : List.range 2 = [0, 1] := rfl
  constructor
  · rw [hlen, hrange]
    simp only [List.map_cons, List.map_nil, specScore_toyModel, buckets_quoi, numFeatures_quoi]
    norm_num [h00, h0w, hw0]
  · rw [hlen, hrange]
    simp only [List.map_cons, List.map_nil, specScore_toyModel, buckets_the, numFeatures_the]
    norm_num [h00, h0w, hw0]

/-- Claim C8, refuted as stated. In binary32 arithmetic the least positive `float`
is a positive weight, but scaled by `1 / sqrt 9` (the nine features of `quoi`) it
rounds to zero: both scores of `quoi` are zero, the tie goes to index 0, and
`detectLanguage` returns English, not French. -/
theorem toyModel_underflow_counterexample :
    floatArith.lt floatArith.zero F32_TRUE_MIN = true ∧
    floatArith.mul F32_TRUE_MIN (floatArith.rsqrt 9) = floatArith.zero ∧
    detectLanguage floatArith (toyModel floatArith.zero F32_TRUE_MIN) quoi =
      some ToyLang.English ∧
    ¬ (∀ w : F32, floatArith.lt floatArith.zero w = true →
        detectLanguage floatArith (toyModel floatArith.zero w) quoi = some ToyLang.French ∧
        detectLanguage floatArith (toyModel floatArith.zero w) the = some ToyLang.English) := by
  have hr : floatArith.mul F32_TRUE_MIN (floatArith.rsqrt 9) = floatArith.zero := by
    set_option maxRecDepth 1000000 in decide
  have hz : floatArith.mul floatArith.zero (floatArith.rsqrt 9) = floatArith.zero := by
    set_option maxRecDepth 1000000 in decide
  have hd : detectLanguage floatArith (toyModel floatArith.zero F32_TRUE_MIN) quoi =
      some ToyLang.English := by
    rw [detectLanguage_eq floatArith _ (toyModel_wellFormed _ _), numFeatures_quoi,
      if_neg (by decide),
      (scores_toyModel floatArith F32_TRUE_MIN (by decide) (by decide) (by decide)).1, hr, hz]
    decide
  refine ⟨by decide, hr, hd, ?_⟩
  intro h
  have h1 := (h F32_TRUE_MIN (by decide)).1
  rw [hd] at h1
  exact absurd h1 (by decide)

/-- Claim C8, amended. With the toy model `[English, French]` (zero intercepts, weight
`w` for French in the bucket of `qu`, weight `w` for English in the bucket of `th`,
zero elsewhere), `detectLanguage` returns French on `quoi` when the score of French,
`w * (1 / sqrt 9) + 0`, is positive, and English on `the` when the score of English,
`w * (1 / sqrt 6) + 0`, is not negative. Of the `float` operations only
`0 + 0 = 0`, `0 + w = w`, `w + 0 = w` and `0 * (1 / sqrt n) = 0` for `n = 9` and
`n = 6` are used. -/
theorem detectLanguage_toyModel {F : Type} (A : ScoreArith F) (w : F)
    (h00 : A.add A.zero A.zero = A.zero)
    (h0w : A.add A.zero w = w) (hw0 : A.add w A.zero = w)
    (hz9 : A.mul A.zero (A.rsqrt 9) = A.zero) (hz6 : A.mul A.zero (A.rsqrt 6) = A.zero)
    (hpos9 : A.lt A.zero (A.add (A.mul w (A.rsqrt 9)) A.zero) = true)
    (hnn6 : A.lt (A.add (A.mul w (A.rsqrt 6)) A.zero) A.zero = false) :
    detectLanguage A (toyModel A.zero w) quoi = some ToyLang.French ∧
    detectLanguage A (toyModel A.zero w) the = some ToyLang.English := by
  obtain ⟨hq, ht⟩ := scores_toyModel A w h00 h0w hw0
  constructor
  · rw [detectLanguage_eq A _ (toyModel_wellFormed _ _), numFeatures_quoi, if_neg (by decide),
      hq, hz9, h00]
    simp only [maxElement, maxElementFrom, hpos9]
    rfl
  · rw [detectLanguage_eq A _ (toyModel_wellFormed _ _), numFeatures_the, if_neg (by decide),
      ht, hz6, h00]
    simp only [maxElement, maxElementFrom, hnn6]
    rfl

set_option maxRecDepth 1000000 in
theorem detectLanguage_toyModel_witness :
    floatArith.add floatArith.zero floatArith.zero = floatArith.zero ∧
    floatArith.add floatArith.zero F32_ONE = F32_ONE ∧
    floatArith.add F32_ONE floatArith.zero = F32_ONE ∧
    floatArith.mul floatArith.zero (floatArith.rsqrt 9) = floatArith.zero ∧
    floatArith.mul floatArith.zero (floatArith.rsqrt 6) = floatArith.zero ∧
    floatArith.lt floatArith.zero
      (floatArith.add (floatArith.mul F32_ONE (floatArith.rsqrt 9)) floatArith.zero) = true ∧
    floatArith.lt
      (floatArith.add (floatArith.mul F32_ONE (floatArith.rsqrt 6)) floatArith.zero)
      floatArith.zero = false ∧
    detectLanguage floatArith (toyModel floatArith.zero F32_ONE) quoi = some ToyLang.French ∧
    detectLanguage floatArith (toyModel floatArith.zero F32_ONE) the = some ToyLang.English :=
  ⟨by decide, by decide, by decide, by decide, by decide, by decide, by decide,
    detectLanguage_toyModel floatArith F32_ONE (by decide) (by decide) (by decide)
      (by decide) (by decide) (by decide) (by decide)⟩

/-! ## UTF-8 round trip -/

theorem or_eq_add (k a b : Nat) (hb : b < 2 ^ k) : (2 ^ k * a) ||| b = 2 ^ k * a + b :=
  (Nat.mul_add_lt_is_or hb a).symm

theorem decode2_eq (c b : Nat) :
    ((c &&& 0x1F) <<< 6) ||| (b &&& 0x3F) = c % 32 * 64 + b % 64 := by
  have h1 : c &&& 0x1F = c % 32 := Nat.and_pow_two_sub_one_eq_mod c 5
  have h2 : b &&& 0x3F = b % 64 := Nat.and_pow_two_sub_one_eq_mod b 6
  rw [h1, h2, Nat.shiftLeft_eq, Nat.mul_comm (c % 32) (2 ^ 6),
    or_eq_add 6 _ (b % 64) (show b % 64 < 2 ^ 6 from Nat.mod_lt b (by norm_num))]

theorem decode3_eq (c b1 b2 : Nat) :
    ((c &&& 0x0F) <<< 12) ||| ((b1 &&& 0x3F) <<< 6) ||| (b2 &&& 0x3F) =
      c % 16 * 4096 + b1 % 64 * 64 + b2 % 64 := by
  have h1 : c &&& 0x0F = c % 16 := Nat.and_pow_two_sub_one_eq_mod c 4
  have h2 : b1 &&& 0x3F = b1 % 64 := Nat.and_pow_two_sub_one_eq_mod b1 6
  have h3 : b2 &&& 0x3F = b2 % 64 := Nat.and_pow_two_sub_one_eq_mod b2 6
  have hb1 : b1 % 64 < 64 := Nat.mod_lt _ (by norm_num)
  rw [h1, h2, h3, Nat.shiftLeft_eq, Nat.shiftLeft_eq, Nat.mul_comm (c % 16) (2 ^ 12),
    or_eq_add 12 _ _ (by norm_num; omega)]
  have : 2 ^ 12 * (c % 16) + b1 % 64 * 2 ^ 6 = 2 ^ 6 * (c % 16 * 64 + b1 % 64) := by ring
  rw [this, or_eq_add 6 _ (b2 % 64) (show b2 % 64 < 2 ^ 6 from Nat.mod_lt b2 (by norm_num))]
  ring

theorem decode4_eq (c b1 b2 b3 : Nat) :
    ((c &&& 0x07) <<< 18) ||| ((b1 &&& 0x3F) <<< 12) ||| ((b2 &&& 0x3F) <<< 6) |||
      (b3 &&& 0x3F) = c % 8 * 262144 + b1 % 64 * 4096 + b2 % 64 * 64 + b3 % 64 := by
  have h1 : c &&& 0x07 = c % 8 := Nat.and_pow_two_sub_one_eq_mod c 3
  have h2 : b1 &&& 0x3F = b1 % 64 := Nat.and_pow_two_sub_one_eq_mod b1 6
  have h3 : b2 &&& 0x3F = b2 % 64 := Nat.and_pow_two_sub_one_eq_mod b2 6
  have h4 : b3 &&& 0x3F = b3 % 64 := Nat.and_pow_two_sub_one_eq_mod b3 6
  have hb1 : b1 % 64 < 64 := Nat.mod_lt _ (by norm_num)
  have hb2 : b2 % 64 < 64 := Nat.mod_lt _ (by norm_num)
  rw [h1, h2, h3, h4, Nat.shiftLeft_eq, Nat.shiftLeft_eq, Nat.shiftLeft_eq,
    Nat.mul_comm (c % 8) (2 ^ 18), or_eq_add 18 _ _ (by norm_num; omega)]
  have e1 : 2 ^ 18 * (c % 8) + b1 % 64 * 2 ^ 12 = 2 ^ 12 * (c % 8 * 64 + b1 % 64) := by ring
  rw [e1, or_eq_add 12 _ _ (by norm_num; omega)]
  have e2 : 2 ^ 12 * (c % 8 * 64 + b1 % 64) + b2 % 64 * 2 ^ 6 =
      2 ^ 6 * (c % 8 * 4096 + b1 % 64 * 64 + b2 % 64) := by ring
  rw [e2, or_eq_add 6 _ (b3 % 64) (show b3 % 64 < 2 ^ 6 from Nat.mod_lt b3 (by norm_num))]
  ring

set_option maxRecDepth 100000 in
theorem lead_class : ∀ b : Byte,
    (b.val &&& 0xE0 = 0xC0 ↔ 192 ≤ b.val ∧ b.val < 224) ∧
    (b.val &&& 0xF0 = 0xE0 ↔ 224 ≤ b.val ∧ b.val < 240) ∧
    (b.val &&& 0xF8 = 0xF0 ↔ 240 ≤ b.val ∧ b.val < 248) := by
  decide

theorem byte_val (n : Nat) (h : n < 256) : (byte n).val = n := by
  unfold byte
  exact Nat.mod_eq_of_lt h

theorem or_lead (k a b : Nat) (hb : b < 2 ^ k) (n : Nat) (hn : n = 2 ^ k * a) :
    n ||| b = n + b := by
  rw [hn]
  exact or_eq_add k a b hb

/-- Decoding the standard encoding of a codepoint below `0x110000`, followed by any
bytes, gives the codepoint and then the decoding of the bytes that follow. -/
theorem utf8Decode_encodeChar (cp : Nat) (hcp : cp < 0x110000) (rest : List Byte) :
    utf8Decode (utf8EncodeChar cp ++ rest) = cp :: utf8Decode rest := by
  have h63 : ∀ x : Nat, x &&& 0x3F = x % 64 := fun x => Nat.and_pow_two_sub_one_eq_mod x 6
  have hcont : ∀ x : Nat, (byte (0x80 ||| (x &&& 0x3F))).val = 128 + x % 64 := by
    intro x
    rw [h63, or_lead 6 2 (x % 64) (Nat.mod_lt x (by norm_num)) 0x80 (by norm_num),
      byte_val _ (by omega)]
  simp only [utf8EncodeChar, Nat.shiftRight_eq_div_pow]
  by_cases h1 : cp < 0x80
  · rw [if_pos h1, List.singleton_append, utf8Decode_cons]
    have hv : (byte cp).val = cp := byte_val cp (by omega)
    rw [hv, if_pos (by omega)]
  · rw [if_neg h1]
    by_cases h2 : cp < 0x800
    · rw [if_pos h2]
      have hl : (byte (0xC0 ||| (cp / 2 ^ 6))).val = 192 + cp / 2 ^ 6 := by
        rw [or_lead 6 3 (cp / 2 ^ 6) (by norm_num; omega) 0xC0 (by norm_num),
          byte_val _ (by norm_num; omega)]
      obtain ⟨hc2, -, -⟩ := lead_class (byte (0xC0 ||| (cp / 2 ^ 6)))
      rw [List.cons_append, List.cons_append, List.nil_append, utf8Decode_cons,
        if_neg (by rw [hl]; omega), if_pos (hc2.mpr (by rw [hl]; norm_num; omega))]
      simp only [decode2_eq, hl, hcont]
      congr 1
      norm_num
      omega
    · rw [if_neg h2]
      by_cases h3 : cp < 0x10000
      · rw [if_pos h3]
        have hl : (byte (0xE0 ||| (cp / 2 ^ 12))).val = 224 + cp / 2 ^ 12 := by
          rw [or_lead 4 14 (cp / 2 ^ 12) (by norm_num; omega) 0xE0 (by norm_num),
            byte_val _ (by norm_num; omega)]
        obtain ⟨hc2, hc3, -⟩ := lead_class (byte (0xE0 ||| (cp / 2 ^ 12)))
        rw [List.cons_append, List.cons_append, List.cons_append, List.nil_append,
          utf8Decode_cons, if_neg (by rw [hl]; omega),
          if_neg (fun h => by have := hc2.mp h; rw [hl] at this; omega),
          if_pos (hc3.mpr (by rw [hl]; norm_num; omega))]
        simp only [decode3_eq, hl, hcont]
        congr 1
        norm_num
        omega
      · rw [if_neg h3]
        have hl : (byte (0xF0 ||| (cp / 2 ^ 18))).val = 240 + cp / 2 ^ 18 := by
          rw [or_lead 3 30 (cp / 2 ^ 18) (by norm_num; omega) 0xF0 (by norm_num),
            byte_val _ (by norm_num; omega)]
        obtain ⟨hc2, hc3, hc4⟩ := lead_class (byte (0xF0 ||| (cp / 2 ^ 18)))
        rw [List.cons_append, List.cons_append, List.cons_append, List.cons_append,
          List.nil_append, utf8Decode_cons, if_neg (by rw [hl]; omega),
          if_neg (fun h => by have := hc2.mp h; rw [hl] at this; omega),
          if_neg (fun h => by have := hc3.mp h; rw [hl] at this; omega),
          if_pos (hc4.mpr (by rw [hl]; norm_num; omega))]
        simp only [decode4_eq, hl, hcont]
        congr 1
        norm_num
        omega

theorem utf8Decode_encode_append (rest : List Byte) :
    ∀ cps : List Nat, (∀ cp ∈ cps, cp < 0x110000) →
      utf8Decode (utf8Encode cps ++ rest) = cps ++ utf8Decode rest := by
  intro cps
  induction cps with
  | nil => intro _; rfl
  | cons cp cps ih =>
    intro h
    have hcons : utf8Encode (cp :: cps) = utf8EncodeChar cp ++ utf8Encode cps := by
      simp [utf8Encode]
    rw [hcons, List.append_assoc,
      utf8Decode_encodeChar cp (h cp (List.mem_cons_self _ _)),
      ih (fun x hx => h x (List.mem_cons_of_mem _ hx)), List.cons_append]

/-- Claim C9. UTF-8 round trip: for every sequence of codepoints each below
`0x110000`, `utf8ToUtf32` applied to the standard shortest-form UTF-8 encoding of
the sequence returns exactly that sequence, in order. -/
theorem utf8ToUtf32_encode (cps : List Nat) (h : ∀ cp ∈ cps, cp < 0x110000) :
    utf8ToUtf32 (utf8Encode cps) = cps := by
  have := utf8Decode_encode_append [] cps h
  rw [List.append_nil, utf8Decode_nil, List.append_nil] at this
  rw [utf8ToUtf32_eq, this]

theorem utf8ToUtf32_encode_witness :
    (∀ cp ∈ [0x41, 0xE9, 0x20AC, 0xD800, 0x1F600, 0x10FFFF], cp < 0x110000) ∧
    utf8ToUtf32 (utf8Encode [0x41, 0xE9, 0x20AC, 0xD800, 0x1F600, 0x10FFFF]) =
      [0x41, 0xE9, 0x20AC, 0xD800, 0x1F600, 0x10FFFF] :=
  ⟨by decide, utf8ToUtf32_encode [0x41, 0xE9, 0x20AC, 0xD800, 0x1F600, 0x10FFFF] (by decide)⟩

set_option maxRecDepth 100000 in
theorem sequenceLength_multi : ∀ b : Byte, 1 < sequenceLength b →
    0xC0 ≤ b.val ∧ b.val ≤ 0xF7 := by
  decide

/-- Claim C10. A truncated tail is dropped: when the input is the encoding of a
sequence of codepoints followed by a lead byte and fewer following bytes than the
lead byte's sequence length requires (so the lead byte is a multi-byte lead,
`0xC0`..`0xF7`), `utf8ToUtf32` returns exactly those codepoints; the partial
sequence produces no codepoint. -/
theorem utf8ToUtf32_truncated_tail (cps : List Nat) (lead : Byte) (following : List Byte)
    (h : ∀ cp ∈ cps, cp < 0x110000)
    (hlen : following.length + 1 < sequenceLength lead) :
    (0xC0 ≤ lead.val ∧ lead.val ≤ 0xF7) ∧
    utf8ToUtf32 (utf8Encode cps ++ lead :: following) = cps := by
  refine ⟨sequenceLength_multi lead (by omega), ?_⟩
  rw [utf8ToUtf32_eq, utf8Decode_encode_append _ cps h,
    utf8Decode_truncated lead following hlen, List.append_nil]

theorem utf8ToUtf32_truncated_tail_witness :
    (∀ cp ∈ [0x41, 0x20AC], cp < 0x110000) ∧
    ([0x9F, 0x98] : List Byte).length + 1 < sequenceLength 0xF0 ∧
    (0xC0 ≤ (0xF0 : Byte).val ∧ (0xF0 : Byte).val ≤ 0xF7) ∧
    utf8ToUtf32 (utf8Encode [0x41, 0x20AC] ++ 0xF0 :: [0x9F, 0x98]) = [0x41, 0x20AC] :=
  ⟨by decide, by decide,
    utf8ToUtf32_truncated_tail [0x41, 0x20AC] 0xF0 [0x9F, 0x98] (by decide) (by decide)⟩

/-! ## Skipped bytes, unvalidated continuation bytes -/

/-- Claim C11. An invalid lead byte is a one-byte skip: for every byte `b` in
`0x80`..`0xBF` or `0xF8`..`0xFF` and every byte sequence `rest`,
`utf8ToUtf32 (b :: rest) = utf8ToUtf32 rest`; and in the loop, at an index `i` that
holds such a byte, nothing is pushed and the index moves to `i + 1`. -/
theorem utf8ToUtf32_invalid_lead (b : Byte) (rest : List Byte)
    (hb : isInvalidLead b = true) :
    utf8ToUtf32 (b :: rest) = utf8ToUtf32 rest ∧
    ∀ (utf8 : List Byte) (i : Nat) (result : List Nat) (hi : i < utf8.length),
      utf8[i] = b →
      utf8ToUtf32Loop utf8 i result = utf8ToUtf32Loop utf8 (i + 1) result := by
  constructor
  · rw [utf8ToUtf32_eq, utf8ToUtf32_eq, utf8Decode_invalid b rest hb]
  · intro utf8 i result hi hbi
    obtain ⟨h1, h2, h3, h4⟩ := invalidLead_facts b hb
    rw [utf8ToUtf32Loop, dif_pos hi]
    simp only [hbi, h1, h2, h3, h4, if_false]

theorem utf8ToUtf32_invalid_lead_witness :
    isInvalidLead 0xBF = true ∧
    utf8ToUtf32 (0xBF :: [0x61, 0xC3, 0xA9]) = utf8ToUtf32 [0x61, 0xC3, 0xA9] ∧
    ∀ (utf8 : List Byte) (i : Nat) (result : List Nat) (hi : i < utf8.length),
      utf8[i] = 0xBF →
      utf8ToUtf32Loop utf8 i result = utf8ToUtf32Loop utf8 (i + 1) result :=
  ⟨rfl, utf8ToUtf32_invalid_lead 0xBF [0x61, 0xC3, 0xA9] rfl⟩

/-- Claim C20. The decoder masks and concatenates the following bytes without
validating them: a 2-byte lead `L` followed by any byte `b` decodes to
`((L & 0x1F) << 6) | (b & 0x3F)`, a 3-byte lead followed by any two bytes and a
4-byte lead followed by any three bytes decode likewise, and the overlong input
`C1 A1` decodes to the ASCII codepoint `0x61`. -/
theorem utf8ToUtf32_unvalidated :
    (∀ L b : Byte, L.val &&& 0xE0 = 0xC0 →
      utf8ToUtf32 [L, b] = [((L.val &&& 0x1F) <<< 6) ||| (b.val &&& 0x3F)]) ∧
    (∀ L b1 b2 : Byte, L.val &&& 0xF0 = 0xE0 →
      utf8ToUtf32 [L, b1, b2] =
        [((L.val &&& 0x0F) <<< 12) ||| ((b1.val &&& 0x3F) <<< 6) ||| (b2.val &&& 0x3F)]) ∧
    (∀ L b1 b2 b3 : Byte, L.val &&& 0xF8 = 0xF0 →
      utf8ToUtf32 [L, b1, b2, b3] =
        [((L.val &&& 0x07) <<< 18) ||| ((b1.val &&& 0x3F) <<< 12) |||
          ((b2.val &&& 0x3F) <<< 6) ||| (b3.val &&& 0x3F)]) ∧
    utf8ToUtf32 [0xC1, 0xA1] = [0x61] := by
  refine ⟨?_, ?_, ?_, ?_⟩
  · intro L b h
    obtain ⟨hc2, -, -⟩ := lead_class L
    have hr := hc2.mp h
    rw [utf8ToUtf32_eq, utf8Decode_cons, if_neg (by omega), if_pos h]
    rfl
  · intro L b1 b2 h
    obtain ⟨hc2, hc3, -⟩ := lead_class L
    have hr := hc3.mp h
    rw [utf8ToUtf32_eq, utf8Decode_cons, if_neg (by omega),
      if_neg (fun h2 => by have := hc2.mp h2; omega), if_pos h]
    rfl
  · intro L b1 b2 b3 h
    obtain ⟨hc2, hc3, hc4⟩ := lead_class L
    have hr := hc4.mp h
    rw [utf8ToUtf32_eq, utf8Decode_cons, if_neg (by omega),
      if_neg (fun h2 => by have := hc2.mp h2; omega),
      if_neg (fun h3 => by have := hc3.mp h3; omega), if_pos h]
    rfl
  · rw [utf8ToUtf32_eq]
    decide

theorem utf8ToUtf32_unvalidated_witness :
    utf8ToUtf32 [0xC1, 0xA1] =
      [(((0xC1 : Byte).val &&& 0x1F) <<< 6) ||| ((0xA1 : Byte).val &&& 0x3F)] ∧
    utf8ToUtf32 [0xE0, 0x41, 0xFF] =
      [(((0xE0 : Byte).val &&& 0x0F) <<< 12) ||| (((0x41 : Byte).val &&& 0x3F) <<< 6) |||
        ((0xFF : Byte).val &&& 0x3F)] ∧
    utf8ToUtf32 [0xF7, 0x00, 0xC3, 0x20] =
      [(((0xF7 : Byte).val &&& 0x07) <<< 18) ||| (((0x00 : Byte).val &&& 0x3F) <<< 12) |||
        (((0xC3 : Byte).val &&& 0x3F) <<< 6) ||| ((0x20 : Byte).val &&& 0x3F)] :=
  ⟨utf8ToUtf32_unvalidated.1 0xC1 0xA1 (by decide),
   utf8ToUtf32_unvalidated.2.1 0xE0 0x41 0xFF (by decide),
   utf8ToUtf32_unvalidated.2.2.1 0xF7 0x00 0xC3 0x20 (by decide)⟩

/-! ## Hashing: coarsening and bounds -/

/-- Claim C16. Unicode tokens are coarsened by 128 before hashing: two codepoints
with the same quotient by 128 have the same hash, namely
`murmurhash2 (c / 128) (SEED ^ 2)`, and so the same bucket. -/
theorem featureToHash_unicode_coarse (c c' : Nat) (h : c / 128 = c' / 128) :
    featureToHash ⟨Feature.Unicode, c⟩ = featureToHash ⟨Feature.Unicode, c'⟩ ∧
    featureToHash ⟨Feature.Unicode, c⟩ = murmurhash2 (c / 128) (SEED ^^^ 2) ∧
    bucket ⟨Feature.Unicode, c⟩ = bucket ⟨Feature.Unicode, c'⟩ := by
  have h1 : featureToHash ⟨Feature.Unicode, c⟩ = murmurhash2 (c / 128) (SEED ^^^ 2) := rfl
  have h2 : featureToHash ⟨Feature.Unicode, c'⟩ = murmurhash2 (c' / 128) (SEED ^^^ 2) := rfl
  refine ⟨by rw [h1, h2, h], h1, ?_⟩
  unfold bucket
  rw [h1, h2, h]

theorem featureToHash_unicode_coarse_witness :
    0x4E00 / 128 = 0x4E7F / 128 ∧
    featureToHash ⟨Feature.Unicode, 0x4E00⟩ = featureToHash ⟨Feature.Unicode, 0x4E7F⟩ ∧
    featureToHash ⟨Feature.Unicode, 0x4E00⟩ = murmurhash2 (0x4E00 / 128) (SEED ^^^ 2) ∧
    bucket ⟨Feature.Unicode, 0x4E00⟩ = bucket ⟨Feature.Unicode, 0x4E7F⟩ :=
  ⟨by decide, featureToHash_unicode_coarse 0x4E00 0x4E7F (by decide)⟩

/-- Claim C17. Every weight access is in bounds. In a model with
`4096 * numLanguages` weights, for every token and every state of the captured
`scores` (one score per language) and counter: the bucket
`featureToHash(token) % DIMENSION` is below 4096; for every language index
`i < numLanguages` the flat index `bucket * numLanguages + i` is below
`4096 * numLanguages`, the size of `WEIGHTS`; the lambda of `detectLanguage` makes
all its reads inside `scores` and `WEIGHTS` and leaves score `i` increased by the
weight at that flat index; and so does the whole run of `emitTokens` on every
text. -/
theorem weight_access_in_bounds {Lang F : Type} (A : ScoreArith F) (m : Model Lang F)
    (hw : m.WEIGHTS.length = DIMENSION * m.LANGUAGES.length)
    (scores : List F) (hs : scores.length = m.LANGUAGES.length) (c : Nat)
    (token : FeatureToken) :
    DIMENSION = 4096 ∧
    featureToHash token % DIMENSION < 4096 ∧
    (∀ i, i < m.LANGUAGES.length →
      featureToHash token % DIMENSION * m.LANGUAGES.length + i < 4096 * m.LANGUAGES.length ∧
      featureToHash token % DIMENSION * m.LANGUAGES.length + i < m.WEIGHTS.length) ∧
    (∃ out, scoreListener A m (some (scores, c)) token = some (out, u32 (c + 1)) ∧
      out.length = m.LANGUAGES.length ∧
      ∀ i, i < m.LANGUAGES.length → ∃ sc wt, scores[i]? = some sc ∧
        m.WEIGHTS[featureToHash token % DIMENSION * m.LANGUAGES.length + i]? = some wt ∧
        out[i]? = some (A.add sc wt)) ∧
    (∀ text : List Byte, ∃ out,
      emitTokens text (scoreListener A m)
        (some (List.replicate m.LANGUAGES.length A.zero, 0)) = some (out, numFeatures text)) := by
  have hb : featureToHash token % DIMENSION < 4096 := bucket_lt token
  have hidx : ∀ i, i < m.LANGUAGES.length →
      featureToHash token % DIMENSION * m.LANGUAGES.length + i < 4096 * m.LANGUAGES.length := by
    intro i hi
    calc featureToHash token % DIMENSION * m.LANGUAGES.length + i
        < featureToHash token % DIMENSION * m.LANGUAGES.length + m.LANGUAGES.length := by omega
      _ = (featureToHash token % DIMENSION + 1) * m.LANGUAGES.length := by ring
      _ ≤ 4096 * m.LANGUAGES.length := Nat.mul_le_mul_right _ hb
  have hlen : m.WEIGHTS.length = 4096 * m.LANGUAGES.length := hw
  refine ⟨rfl, hb, fun i hi => ⟨hidx i hi, by rw [hlen]; exact hidx i hi⟩, ?_, ?_⟩
  · have hfit : featureToHash token % DIMENSION * m.LANGUAGES.length + 0 + m.LANGUAGES.length
        ≤ m.WEIGHTS.length := by
      rw [hlen]
      calc featureToHash token % DIMENSION * m.LANGUAGES.length + 0 + m.LANGUAGES.length
          = (featureToHash token % DIMENSION + 1) * m.LANGUAGES.length := by ring
        _ ≤ 4096 * m.LANGUAGES.length := Nat.mul_le_mul_right _ hb
    obtain ⟨out, h1, hl1, hg1⟩ := addWeights_spec A m.WEIGHTS
      (featureToHash token % DIMENSION * m.LANGUAGES.length) m.LANGUAGES.length 0 scores
      (by omega) hfit
    refine ⟨out, ?_, by omega, ?_⟩
    · simp only [scoreListener]
      rw [h1]
    · intro i hi
      have hi1 : i < scores.length := by omega
      have hi2 : featureToHash token % DIMENSION * m.LANGUAGES.length + i < m.WEIGHTS.length := by
        rw [hlen]
        exact hidx i hi
      refine ⟨scores[i], m.WEIGHTS[featureToHash token % DIMENSION * m.LANGUAGES.length + i],
        List.getElem?_eq_getElem hi1, List.getElem?_eq_getElem hi2, ?_⟩
      rw [hg1 i, if_pos (by omega), List.getElem?_eq_getElem hi1,
        List.getD_eq_getElem m.WEIGHTS A.zero hi2]
      rfl
  · intro text
    obtain ⟨out, h1, _, _⟩ := foldl_scoreListener A m hw (tokens text)
      (List.replicate m.LANGUAGES.length A.zero) 0 (by simp)
    have h0 : u32 0 = 0 := rfl
    rw [h0, Nat.zero_add] at h1
    exact ⟨out, by rw [emitTokens_eq_foldl, h1]; rfl⟩

theorem weight_access_in_bounds_witness :
    (toyModel intArith.zero 1).WEIGHTS.length = DIMENSION * (toyModel intArith.zero 1).LANGUAGES.length ∧
    ([5, 7] : List Int).length = (toyModel intArith.zero 1).LANGUAGES.length ∧
    (∃ out, scoreListener intArith (toyModel intArith.zero 1) (some ([5, 7], 3))
        ⟨Feature.AsciiNGram, 0x7175⟩ = some (out, u32 (3 + 1)) ∧
      out.length = (toyModel intArith.zero 1).LANGUAGES.length ∧
      ∀ i, i < (toyModel intArith.zero 1).LANGUAGES.length → ∃ sc wt,
        ([5, 7] : List Int)[i]? = some sc ∧
        (toyModel intArith.zero 1).WEIGHTS[featureToHash ⟨Feature.AsciiNGram, 0x7175⟩ %
          DIMENSION * (toyModel intArith.zero 1).LANGUAGES.length + i]? = some wt ∧
        out[i]? = some (intArith.add sc wt)) :=
  ⟨(toyModel_wellFormed _ _).1, rfl,
    (weight_access_in_bounds intArith (toyModel intArith.zero 1) (toyModel_wellFormed _ _).1
      [5, 7] rfl 3 ⟨Feature.AsciiNGram, 0x7175⟩).2.2.2.1⟩

/-! ## The mixing steps of the hash are injective -/

theorem u32_lt (n : Nat) : u32 n < 2 ^ 32 := Nat.mod_lt _ (Nat.two_pow_pos 32)

theorem mulM_inverse (z : Nat) (hz : z < 4294967296) :
    (z * 1540483477 % 4294967296) * 3852147133 % 4294967296 = z := by
  rw [Nat.mod_mul_mod, Nat.mul_assoc]
  norm_num
  omega

/-- Multiplication by the odd constant `M` is injective on 32-bit values. -/
theorem mulM_injective (x y : Nat) (hx : x < 2 ^ 32) (hy : y < 2 ^ 32)
    (h : u32 (x * 0x5bd1e995) = u32 (y * 0x5bd1e995)) : x = y := by
  have h1 := mulM_inverse x hx
  have h2 := mulM_inverse y hy
  unfold u32 at h
  norm_num at h
  rw [h] at h1
  rw [← h1, h2]

theorem shiftRight_xor (x y s : Nat) : (x ^^^ y) >>> s = (x >>> s) ^^^ (y >>> s) := by
  apply Nat.eq_of_testBit_eq
  intro i
  simp only [Nat.testBit_shiftRight, Nat.testBit_xor]

/-- The step `h ^= h >> s` is injective for every shift `s > 0`. -/
theorem xorShift_injective (s x y : Nat) (hs : 0 < s)
    (h : x ^^^ (x >>> s) = y ^^^ (y >>> s)) : x = y := by
  have hd : (x ^^^ y) >>> s = x ^^^ y := by
    rw [shiftRight_xor]
    have h1 : x >>> s = x ^^^ (y ^^^ (y >>> s)) := by
      rw [← h, Nat.xor_cancel_left]
    rw [h1, Nat.xor_assoc, Nat.xor_assoc, Nat.xor_self, Nat.xor_zero]
  rw [Nat.shiftRight_eq_div_pow] at hd
  have hz : x ^^^ y = 0 := by
    by_contra hne
    have hpos : 0 < x ^^^ y := Nat.pos_of_ne_zero hne
    have := Nat.div_lt_self hpos (Nat.one_lt_two_pow (Nat.pos_iff_ne_zero.mp hs))
    omega
  exact Nat.xor_eq_zero.mp hz

theorem xorShift_lt (x s : Nat) (hx : x < 2 ^ 32) : x ^^^ (x >>> s) < 2 ^ 32 := by
  apply Nat.xor_lt_two_pow hx
  rw [Nat.shiftRight_eq_div_pow]
  exact Nat.lt_of_le_of_lt (Nat.div_le_self _ _) hx

/-- For a fixed payload, `murmurhash2` is injective in its seed on 32-bit seeds. -/
theorem murmurhash2_seed_injective (k s1 s2 : Nat) (h1 : s1 < 2 ^ 32) (h2 : s2 < 2 ^ 32)
    (h : murmurhash2 k s1 = murmurhash2 k s2) : s1 = s2 := by
  simp only [murmurhash2] at h
  have e3 := xorShift_injective 15 _ _ (by decide) h
  have hb : ∀ s, (u32 (s * 1540483477) ^^^
      u32 ((u32 (k * 1540483477) ^^^ u32 (k * 1540483477) >>> 24) * 1540483477)) < 2 ^ 32 :=
    fun s => Nat.xor_lt_two_pow (u32_lt _) (u32_lt _)
  have e2 := mulM_injective _ _ (xorShift_lt _ 13 (hb s1)) (xorShift_lt _ 13 (hb s2)) e3
  have e1 := xorShift_injective 13 _ _ (by decide) e2
  have e0 := Nat.xor_left_inj.mp e1
  exact mulM_injective s1 s2 h1 h2 e0

/-- Claim C15. Per-type seeding separates the feature types: for every payload `v`
the hash values `murmurhash2 v SEED`, `murmurhash2 v (SEED ^ 2)` and
`murmurhash2 v (SEED ^ 4)` are pairwise distinct, so the hashes of `AsciiNGram v`
and `UnicodeClass v` differ, and both differ from the hash of every `Unicode`
token whose coarsened payload `c / 128` is `v`. -/
theorem featureToHash_types_distinct (v : Nat) :
    murmurhash2 v SEED ≠ murmurhash2 v (SEED ^^^ 2) ∧
    murmurhash2 v SEED ≠ murmurhash2 v (SEED ^^^ 4) ∧
    murmurhash2 v (SEED ^^^ 2) ≠ murmurhash2 v (SEED ^^^ 4) ∧
    featureToHash ⟨Feature.AsciiNGram, v⟩ ≠ featureToHash ⟨Feature.UnicodeClass, v⟩ ∧
    ∀ c, c / 128 = v →
      featureToHash ⟨Feature.AsciiNGram, v⟩ ≠ featureToHash ⟨Feature.Unicode, c⟩ ∧
      featureToHash ⟨Feature.UnicodeClass, v⟩ ≠ featureToHash ⟨Feature.Unicode, c⟩ := by
  have h02 : murmurhash2 v SEED ≠ murmurhash2 v (SEED ^^^ 2) := fun h =>
    absurd (murmurhash2_seed_injective v _ _ (by decide) (by decide) h) (by decide)
  have h04 : murmurhash2 v SEED ≠ murmurhash2 v (SEED ^^^ 4) := fun h =>
    absurd (murmurhash2_seed_injective v _ _ (by decide) (by decide) h) (by decide)
  have h24 : murmurhash2 v (SEED ^^^ 2) ≠ murmurhash2 v (SEED ^^^ 4) := fun h =>
    absurd (murmurhash2_seed_injective v _ _ (by decide) (by decide) h) (by decide)
  refine ⟨h02, h04, h24, h04, ?_⟩
  intro c hc
  have hu : featureToHash ⟨Feature.Unicode, c⟩ = murmurhash2 v (SEED ^^^ 2) := by
    rw [← hc]; rfl
  rw [hu]
  exact ⟨h02, fun h => h24 h.symm⟩

theorem featureToHash_types_distinct_witness :
    0x4E2D / 128 = 156 ∧
    featureToHash ⟨Feature.AsciiNGram, 156⟩ ≠ featureToHash ⟨Feature.Unicode, 0x4E2D⟩ ∧
    featureToHash ⟨Feature.UnicodeClass, 156⟩ ≠ featureToHash ⟨Feature.Unicode, 0x4E2D⟩ :=
  ⟨by decide, (featureToHash_types_distinct 156).2.2.2.2 0x4E2D (by decide)⟩

/-! ## The binary search of `classifyCodepoint` -/

/-- The loop of `std::lower_bound` on a sorted table, started on a range with
every entry before it smaller than `val` and every entry after it not smaller,
returns the index that separates the entries smaller than `val` from the others. -/
theorem lowerBoundLoop_spec (table : List Nat) (val : Nat)
    (hsorted : ∀ i j, i ≤ j → j < table.length → table.getD i 0 ≤ table.getD j 0) :
    ∀ (fuel first len : Nat), len ≤ fuel → first + len ≤ table.length →
      (∀ i, i < first → table.getD i 0 < val) →
      (∀ i, first + len ≤ i → i < table.length → val ≤ table.getD i 0) →
      lowerBoundLoop table val fuel first len ≤ table.length ∧
      (∀ i, i < lowerBoundLoop table val fuel first len → table.getD i 0 < val) ∧
      (∀ i, lowerBoundLoop table val fuel first len ≤ i → i < table.length →
        val ≤ table.getD i 0) := by
  intro fuel
  induction fuel with
  | zero =>
    intro first len hf hlen hlo hhi
    have h0 : len = 0 := by omega
    subst h0
    rw [lowerBoundLoop]
    exact ⟨by omega, hlo, fun i hi => hhi i (by omega)⟩
  | succ fuel ih =>
    intro first len hf hlen hlo hhi
    rw [lowerBoundLoop]
    by_cases hpos : 0 < len
    · rw [if_pos hpos]
      have hhalf : len >>> 1 = len / 2 := by rw [Nat.shiftRight_eq_div_pow]
      simp only [hhalf]
      by_cases hcmp : table.getD (first + len / 2) 0 < val
      · rw [if_pos hcmp]
        apply ih (first + len / 2 + 1) (len - len / 2 - 1) (by omega) (by omega)
        · intro i hi
          exact Nat.lt_of_le_of_lt (hsorted i (first + len / 2) (by omega) (by omega)) hcmp
        · intro i hi1 hi2
          exact hhi i (by omega) hi2
      · rw [if_neg hcmp]
        apply ih first (len / 2) (by omega) (by omega) hlo
        intro i hi1 hi2
        exact Nat.le_trans (Nat.le_of_not_lt hcmp) (hsorted (first + len / 2) i hi1 hi2)
    · rw [if_neg hpos]
      have h0 : len = 0 := by omega
      subst h0
      exact ⟨by omega, hlo, fun i hi => hhi i (by omega)⟩

/-- An index that separates the entries smaller than `val` from the others is the
rank of `val`. -/
theorem rank_eq_of_split (table : List Nat) (val r : Nat) (hr : r ≤ table.length)
    (hlo : ∀ i, i < r → table.getD i 0 < val)
    (hhi : ∀ i, r ≤ i → i < table.length → val ≤ table.getD i 0) :
    rank table val = r := by
  unfold rank
  rw [← List.take_append_drop r table, List.countP_append]
  have h1 : List.countP (fun p => decide (p < val)) (List.take r table) = r := by
    have hl : (List.take r table).length = r := by rw [List.length_take]; omega
    have : List.countP (fun p => decide (p < val)) (List.take r table) =
        (List.take r table).length := by
      rw [List.countP_eq_length]
      intro a ha
      obtain ⟨i, hi, rfl⟩ := List.mem_take_iff_getElem.mp ha
      have hir : i < r := by omega
      have hit : i < table.length := by omega
      have := hlo i hir
      rw [List.getD_eq_getElem table 0 hit] at this
      simpa using this
    rw [this, hl]
  have h2 : List.countP (fun p => decide (p < val)) (List.drop r table) = 0 := by
    rw [List.countP_eq_zero]
    intro a ha
    obtain ⟨i, hi, rfl⟩ := List.mem_drop_iff_getElem.mp ha
    have hri : r + i < table.length := by omega
    have := hhi (r + i) (by omega) hri
    rw [List.getD_eq_getElem table 0 hri] at this
    simpa using this
  rw [h1, h2, Nat.add_zero]

theorem classification_points_sorted :
    List.Pairwise (fun a b => a < b) CLASSIFICATION_POINTS := by
  decide

theorem classification_points_getD_mono (i j : Nat) (hij : i ≤ j)
    (hj : j < CLASSIFICATION_POINTS.length) :
    CLASSIFICATION_POINTS.getD i 0 ≤ CLASSIFICATION_POINTS.getD j 0 := by
  have hi : i < CLASSIFICATION_POINTS.length := by omega
  rw [List.getD_eq_getElem _ 0 hi, List.getD_eq_getElem _ 0 hj]
  rcases Nat.eq_or_lt_of_le hij with h | h
  · subst h; exact Nat.le_refl _
  · exact Nat.le_of_lt
      (List.pairwise_iff_getElem.mp classification_points_sorted i j hi hj h)

/-- The function `classifyCodepoint` returns the lower-bound rank of its argument
(as a `uint32_t`) in the table. -/
theorem classifyCodepoint_eq_rank (c : Nat) :
    classifyCodepoint c = rank CLASSIFICATION_POINTS (u32 c) := by
  have h := lowerBoundLoop_spec CLASSIFICATION_POINTS (u32 c) classification_points_getD_mono
    CLASSIFICATION_POINTS.length 0 CLASSIFICATION_POINTS.length (Nat.le_refl _) (by omega)
    (fun i hi => absurd hi (Nat.not_lt_zero i)) (fun i h1 h2 => by omega)
  exact (rank_eq_of_split _ _ _ h.1 h.2.1 h.2.2).symm

theorem rank_mono (table : List Nat) (a b : Nat) (h : a ≤ b) : rank table a ≤ rank table b := by
  unfold rank
  apply List.countP_mono_left
  intro x _ hx
  simp only [decide_eq_true_eq] at hx ⊢
  omega

theorem u32_of_lt (c : Nat) (h : c < 2 ^ 32) : u32 c = c := Nat.mod_eq_of_lt h

theorem classifyCodepoint_mono (c c' : Nat) (h : c ≤ c') (hc : c' < 2 ^ 32) :
    classifyCodepoint c ≤ classifyCodepoint c' := by
  rw [classifyCodepoint_eq_rank, classifyCodepoint_eq_rank, u32_of_lt c' hc,
    u32_of_lt c (by omega)]
  exact rank_mono _ _ _ h

/-- Claim C18. The 52-entry boundary table of `classifyCodepoint` is strictly
increasing, and for every codepoint `c` (a `char32_t`, below `2 ^ 32`)
`classifyCodepoint c` is the number of table entries strictly smaller than `c`; the
result is monotone non-decreasing in `c` and at most 52. -/
theorem classifyCodepoint_rank :
    List.Pairwise (fun a b => a < b) CLASSIFICATION_POINTS ∧
    CLASSIFICATION_POINTS.length = 52 ∧
    (∀ c, c < 2 ^ 32 →
      classifyCodepoint c = CLASSIFICATION_POINTS.countP (fun p => decide (p < c))) ∧
    (∀ c c', c ≤ c' → c' < 2 ^ 32 → classifyCodepoint c ≤ classifyCodepoint c') ∧
    (∀ c, classifyCodepoint c ≤ 52) := by
  refine ⟨classification_points_sorted, rfl, ?_, ?_, ?_⟩
  · intro c hc
    rw [classifyCodepoint_eq_rank, u32_of_lt c hc]
    rfl
  · intro c c' h hc
    exact classifyCodepoint_mono c c' h hc
  · intro c
    rw [classifyCodepoint_eq_rank]
    exact List.countP_le_length _

theorem classifyCodepoint_rank_witness :
    (0x3041 : Nat) < 2 ^ 32 ∧ (0x3041 : Nat) ≤ 0x4E2D ∧ (0x4E2D : Nat) < 2 ^ 32 ∧
    classifyCodepoint 0x3041 =
      CLASSIFICATION_POINTS.countP (fun p => decide (p < 0x3041)) ∧
    classifyCodepoint 0x3041 ≤ classifyCodepoint 0x4E2D :=
  ⟨by norm_num, by norm_num, by norm_num,
    classifyCodepoint_rank.2.2.1 0x3041 (by norm_num),
    classifyCodepoint_rank.2.2.2.1 0x3041 0x4E2D (by norm_num) (by norm_num)⟩

/-! ## Classes of the blocks -/

theorem classifyCodepoint_between (lo hi k : Nat) (hlo : classifyCodepoint lo = k)
    (hhi : classifyCodepoint hi = k) (h32 : hi < 2 ^ 32) (c : Nat) (h1 : lo ≤ c)
    (h2 : c ≤ hi) : classifyCodepoint c = k := by
  have ha := classifyCodepoint_mono lo c h1 (by omega)
  have hb := classifyCodepoint_mono c hi h2 h32
  omega

/-- Claim C19, refuted as stated. The first codepoint of the Japanese punctuation
block, `0x3000`, has class 42, while the next codepoint of the same block,
`0x3001`, has class 43: a table entry is not smaller than itself, so the start of a
block is ranked with the codepoints below the block. -/
theorem block_start_counterexample :
    JP_PUNCT_START ≤ JP_PUNCT_START + 1 ∧ JP_PUNCT_START + 1 ≤ JP_PUNCT_END ∧
    classifyCodepoint JP_PUNCT_START = 42 ∧
    classifyCodepoint (JP_PUNCT_START + 1) = 43 ∧
    classifyCodepoint JP_PUNCT_START ≠ classifyCodepoint (JP_PUNCT_START + 1) := by
  decide

/-- Claim C19, amended. For each block `[start, end]` of the table,
`classifyCodepoint` returns the same class index for every codepoint from
`start + 1` to `end` inclusive, and the class of `start` itself is one less. The
classes of the five blocks are 43, 45, 47, 49 and 51. -/
theorem block_class_uniform :
    (∀ b ∈ BLOCKS, ∀ c, b.1 < c → c ≤ b.2 →
      classifyCodepoint c = classifyCodepoint b.2 ∧
      classifyCodepoint b.1 + 1 = classifyCodepoint b.2) ∧
    BLOCKS.map (fun b => classifyCodepoint b.2) = [43, 45, 47, 49, 51] := by
  refine ⟨?_, by decide⟩
  intro b hb c h1 h2
  simp only [BLOCKS, List.mem_cons, List.mem_singleton, List.not_mem_nil, or_false] at hb
  rcases hb with rfl | rfl | rfl | rfl | rfl
  · exact ⟨classifyCodepoint_between (JP_PUNCT_START + 1) JP_PUNCT_END _ (by decide) rfl
      (by decide) c h1 h2, by decide⟩
  · exact ⟨classifyCodepoint_between (JP_HIRAGANA_START + 1) JP_HIRAGANA_END _ (by decide) rfl
      (by decide) c h1 h2, by decide⟩
  · exact ⟨classifyCodepoint_between (JP_KATAKANA_START + 1) JP_KATAKANA_END _ (by decide) rfl
      (by decide) c h1 h2, by decide⟩
  · exact ⟨classifyCodepoint_between (CJK_KANJI_START + 1) CJK_KANJI_END _ (by decide) rfl
      (by decide) c h1 h2, by decide⟩
  · exact ⟨classifyCodepoint_between (JP_HALFWIDTH_KATAKANA_START + 1)
      JP_HALFWIDTH_KATAKANA_END _ (by decide) rfl (by decide) c h1 h2, by decide⟩

theorem block_class_uniform_witness :
    (CJK_KANJI_START, CJK_KANJI_END) ∈ BLOCKS ∧ CJK_KANJI_START < 0x4E2D ∧
    0x4E2D ≤ CJK_KANJI_END ∧
    classifyCodepoint 0x4E2D = classifyCodepoint CJK_KANJI_END ∧
    classifyCodepoint CJK_KANJI_START + 1 = classifyCodepoint CJK_KANJI_END :=
  ⟨by decide, by decide, by decide,
    block_class_uniform.1 (CJK_KANJI_START, CJK_KANJI_END) (by decide) 0x4E2D
      (by decide) (by decide)⟩

/-! ## Non-ASCII codepoints in the tokenizer -/

/-- One loop iteration from two windows that agree on the bytes the counter lets
the n-grams read emits the same tokens, reaches the same counter, and leaves
windows that agree again. -/
theorem emitStep_agree (n p1 p2 : Nat) (acc : List FeatureToken) (chr : Nat)
    (h : WindowsAgree n p1 p2) :
    (emitStep (fun acc t => acc ++ [t]) ⟨p1, n, acc⟩ chr).acc =
      (emitStep (fun acc t => acc ++ [t]) ⟨p2, n, acc⟩ chr).acc ∧
    (emitStep (fun acc t => acc ++ [t]) ⟨p1, n, acc⟩ chr).numPreviousAsciiChr =
      (emitStep (fun acc t => acc ++ [t]) ⟨p2, n, acc⟩ chr).numPreviousAsciiChr ∧
    WindowsAgree (emitStep (fun acc t => acc ++ [t]) ⟨p1, n, acc⟩ chr).numPreviousAsciiChr
      (emitStep (fun acc t => acc ++ [t]) ⟨p1, n, acc⟩ chr).prev
      (emitStep (fun acc t => acc ++ [t]) ⟨p2, n, acc⟩ chr).prev := by
  by_cases h1 : isAscii chr = true
  · have hle : chr ≤ 127 := by simpa [isAscii] using h1
    have hc := toLowerAscii_le chr hle
    unfold emitStep
    simp only [h1, Bool.not_true, Bool.false_eq_true, if_false, window_eq _ chr hle,
      and_BIGRAM_MASK, and_TRIGRAM_MASK]
    by_cases h2 : isAlphaNumeric chr = true
    · rcases n with _ | _ | _ | _ | n <;>
        simp only [h2, Bool.not_true, Bool.false_eq_true, if_false, WindowsAgree] at h ⊢
      · exact ⟨trivial, trivial, by omega⟩
      · have e : (p1 * 256 + toLowerAscii chr) % 2 ^ 32 % 2 ^ 16 =
            (p2 * 256 + toLowerAscii chr) % 2 ^ 32 % 2 ^ 16 := by omega
        exact ⟨by rw [e], trivial, e⟩
      · have e : (p1 * 256 + toLowerAscii chr) % 2 ^ 32 % 2 ^ 24 =
            (p2 * 256 + toLowerAscii chr) % 2 ^ 32 % 2 ^ 24 := by omega
        have e2 : (p1 * 256 + toLowerAscii chr) % 2 ^ 32 % 2 ^ 16 =
            (p2 * 256 + toLowerAscii chr) % 2 ^ 32 % 2 ^ 16 := by omega
        exact ⟨by rw [e, e2], trivial, e⟩
      · have e : (p1 * 256 + toLowerAscii chr) % 2 ^ 32 =
            (p2 * 256 + toLowerAscii chr) % 2 ^ 32 := by omega
        exact ⟨by rw [e], trivial, by rw [e]⟩
      · have e : (p1 * 256 + toLowerAscii chr) % 2 ^ 32 =
            (p2 * 256 + toLowerAscii chr) % 2 ^ 32 := by omega
        exact ⟨trivial, trivial, by rw [e]⟩
    · rcases n with _ | _ | _ | _ | n <;>
        simp only [h2, Bool.not_false, if_true, WindowsAgree] at h ⊢
      · trivial
      · have e2 : (p1 * 256 + toLowerAscii chr) % 2 ^ 32 % 2 ^ 16 =
            (p2 * 256 + toLowerAscii chr) % 2 ^ 32 % 2 ^ 16 := by omega
        exact ⟨by rw [e2], trivial, trivial⟩
      · have e : (p1 * 256 + toLowerAscii chr) % 2 ^ 32 % 2 ^ 24 =
            (p2 * 256 + toLowerAscii chr) % 2 ^ 32 % 2 ^ 24 := by omega
        have e2 : (p1 * 256 + toLowerAscii chr) % 2 ^ 32 % 2 ^ 16 =
            (p2 * 256 + toLowerAscii chr) % 2 ^ 32 % 2 ^ 16 := by omega
        exact ⟨by rw [e, e2], trivial, trivial⟩
      · have e : (p1 * 256 + toLowerAscii chr) % 2 ^ 32 =
            (p2 * 256 + toLowerAscii chr) % 2 ^ 32 := by omega
        exact ⟨by rw [e], trivial, trivial⟩
      · exact ⟨trivial, trivial, trivial⟩
  · unfold emitStep
    simp only [h1, Bool.not_false, if_true, WindowsAgree]
    exact ⟨trivial, trivial, trivial⟩

theorem emitLoop_agree (post : List Nat) :
    ∀ (n p1 p2 : Nat) (acc : List FeatureToken), WindowsAgree n p1 p2 →
      (post.foldl (emitStep (fun acc t => acc ++ [t])) ⟨p1, n, acc⟩).acc =
        (post.foldl (emitStep (fun acc t => acc ++ [t])) ⟨p2, n, acc⟩).acc := by
  induction post with
  | nil => intro n p1 p2 acc _; rfl
  | cons chr post ih =>
    intro n p1 p2 acc h
    obtain ⟨ha, hn, hw⟩ := emitStep_agree n p1 p2 acc chr h
    rw [List.foldl_cons, List.foldl_cons]
    generalize emitStep (fun acc t => acc ++ [t]) ⟨p1, n, acc⟩ chr = s1 at ha hn hw
    generalize emitStep (fun acc t => acc ++ [t]) ⟨p2, n, acc⟩ chr = s2 at ha hn hw
    obtain ⟨q1, m1, a1⟩ := s1
    obtain ⟨q2, m2, a2⟩ := s2
    simp only at ha hn hw
    subst ha hn
    exact ih _ _ _ _ hw

/-- Every codepoint the decoder produces is below `2 ^ 21`. -/
theorem utf8Decode_lt :
    ∀ (n : Nat) (bytes : List Byte), bytes.length ≤ n →
      ∀ cp ∈ utf8Decode bytes, cp < 2 ^ 21 := by
  intro n
  induction n with
  | zero =>
    intro bytes hlen cp hcp
    have : bytes = [] := List.length_eq_zero.mp (by omega)
    rw [this, utf8Decode_nil] at hcp
    exact absurd hcp (List.not_mem_nil cp)
  | succ n ih =>
    intro bytes hlen cp hcp
    cases bytes with
    | nil => rw [utf8Decode_nil] at hcp; exact absurd hcp (List.not_mem_nil cp)
    | cons c rest =>
      have hc : c.val < 256 := c.isLt
      rw [utf8Decode_cons] at hcp
      simp only [List.length_cons] at hlen
      split at hcp
      · rcases List.mem_cons.mp hcp with h | h
        · omega
        · exact ih rest (by omega) cp h
      · split at hcp
        · match rest, hlen, hcp with
          | [], _, hcp => exact absurd hcp (List.not_mem_nil cp)
          | b1 :: rest1, hlen, hcp =>
            simp only [List.length_cons] at hlen
            rcases List.mem_cons.mp hcp with h | h
            · rw [decode2_eq] at h; omega
            · exact ih rest1 (by omega) cp h
        · split at hcp
          · match rest, hlen, hcp with
            | [], _, hcp => exact absurd hcp (List.not_mem_nil cp)
            | [_], _, hcp => exact absurd hcp (List.not_mem_nil cp)
            | b1 :: b2 :: rest2, hlen, hcp =>
              simp only [List.length_cons] at hlen
              rcases List.mem_cons.mp hcp with h | h
              · rw [decode3_eq] at h; omega
              · exact ih rest2 (by omega) cp h
          · split at hcp
            · match rest, hlen, hcp with
              | [], _, hcp => exact absurd hcp (List.not_mem_nil cp)
              | [_], _, hcp => exact absurd hcp (List.not_mem_nil cp)
              | [_, _], _, hcp => exact absurd hcp (List.not_mem_nil cp)
              | b1 :: b2 :: b3 :: rest3, hlen, hcp =>
                simp only [List.length_cons] at hlen
                rcases List.mem_cons.mp hcp with h | h
                · rw [decode4_eq] at h; omega
                · exact ih rest3 (by omega) cp h
            · exact ih rest (by omega) cp hcp

theorem utf8ToUtf32_lt (text : List Byte) : ∀ cp ∈ utf8ToUtf32 text, cp < 2 ^ 21 := by
  rw [utf8ToUtf32_eq]
  exact utf8Decode_lt text.length text (Nat.le_refl _)

theorem emitStep_nonAscii {σ : Type} (listener : σ → FeatureToken → σ) (p n : Nat) (a : σ)
    (c : Nat) (h1 : 127 < c) (h2 : c < 2 ^ 32) :
    emitStep listener ⟨p, n, a⟩ c =
      ⟨p, 0, listener (listener a ⟨Feature.Unicode, c⟩)
        ⟨Feature.UnicodeClass, classifyCodepoint c⟩⟩ := by
  have h : isAscii c = false := by simp [isAscii]; omega
  unfold emitStep
  simp only [h, Bool.not_false, if_true, u32_of_lt c h2]

theorem emitStep_counter_zero {σ : Type} (listener : σ → FeatureToken → σ) (p : Nat) (a : σ)
    (x : Nat) (h : x ≤ 127) : (emitStep listener ⟨p, 0, a⟩ x).acc = a := by
  have h1 : isAscii x = true := by simp [isAscii]; omega
  unfold emitStep
  by_cases h2 : isAlphaNumeric x = true <;> simp [h1, h2]

/-- The tokens of a sequence with a non-ASCII codepoint `c` in it: the tokens of the
part before `c`, the two tokens of `c`, and the tokens of the loop run on the part
after `c` with the counter 0 and any window whatever. -/
theorem tokensOfCodepoints_nonAscii (pre post : List Nat) (c p : Nat) (h1 : 127 < c)
    (h2 : c < 2 ^ 32) :
    tokensOfCodepoints (pre ++ c :: post) =
      tokensOfCodepoints pre ++
        [⟨Feature.Unicode, c⟩, ⟨Feature.UnicodeClass, classifyCodepoint c⟩] ++
        (emitLoop p 0 post).acc := by
  unfold tokensOfCodepoints
  conv_lhs => rw [emitLoop, List.foldl_append, List.foldl_cons]
  have hst : List.foldl (emitStep (fun acc t => acc ++ [t])) ⟨0x20, 1, []⟩ pre =
      ⟨(emitLoop 0x20 1 pre).prev, (emitLoop 0x20 1 pre).numPreviousAsciiChr,
        (emitLoop 0x20 1 pre).acc⟩ := rfl
  rw [hst, emitStep_nonAscii _ _ _ _ c h1 h2, foldl_emitStep_acc]
  have hag := emitLoop_agree post 0 (emitLoop 0x20 1 pre).prev p [] trivial
  show _ ++ (emitLoop (emitLoop 0x20 1 pre).prev 0 post).acc = _
  unfold emitLoop at hag ⊢
  rw [hag]
  simp

/-- Claim C13. For every non-ASCII codepoint `c` of the decoded sequence the loop
calls the listener exactly twice, with `Unicode c` and then
`UnicodeClass (classifyCodepoint c)`, sets the counter to 0 and leaves the window
unchanged; with the counter at 0 the next ASCII character emits no token; and the
tokens after `c` are those of the loop run on the rest of the sequence with the
counter 0 and any window whatever, so no later n-gram contains a character that
preceded `c`. -/
theorem nonAscii_codepoint_tokens :
    (∀ (σ : Type) (listener : σ → FeatureToken → σ) (p n : Nat) (a : σ) (c : Nat),
      127 < c → c < 2 ^ 32 →
      emitStep listener ⟨p, n, a⟩ c =
        ⟨p, 0, listener (listener a ⟨Feature.Unicode, c⟩)
          ⟨Feature.UnicodeClass, classifyCodepoint c⟩⟩) ∧
    (∀ (σ : Type) (listener : σ → FeatureToken → σ) (p : Nat) (a : σ) (x : Nat),
      x ≤ 127 → (emitStep listener ⟨p, 0, a⟩ x).acc = a) ∧
    (∀ (text : List Byte) (pre post : List Nat) (c p : Nat),
      utf8ToUtf32 text = pre ++ c :: post → 127 < c →
      tokens text =
        tokensOfCodepoints pre ++
          [⟨Feature.Unicode, c⟩, ⟨Feature.UnicodeClass, classifyCodepoint c⟩] ++
          (emitLoop p 0 post).acc) := by
  refine ⟨fun σ listener p n a c h1 h2 => emitStep_nonAscii listener p n a c h1 h2,
    fun σ listener p a x h => emitStep_counter_zero listener p a x h, ?_⟩
  intro text pre post c p hdec h1
  have hc : c < 2 ^ 21 := utf8ToUtf32_lt text c (by rw [hdec]; simp)
  have : tokens text = tokensOfCodepoints (utf8ToUtf32 text) := rfl
  rw [this, hdec]
  exact tokensOfCodepoints_nonAscii pre post c p h1 (by omega)

theorem nonAscii_codepoint_tokens_witness :
    (emitStep (fun (acc : List FeatureToken) t => acc ++ [t]) ⟨0x206162, 3, []⟩ 0xE9 =
      ⟨0x206162, 0, [⟨Feature.Unicode, 0xE9⟩,
        ⟨Feature.UnicodeClass, classifyCodepoint 0xE9⟩]⟩) ∧
    (emitStep (fun (acc : List FeatureToken) t => acc ++ [t]) ⟨0x206162, 0, []⟩ 0x63).acc
      = [] ∧
    tokens [0x61, 0x62, 0xC3, 0xA9, 0x63, 0x64] =
      tokensOfCodepoints [0x61, 0x62] ++
        [⟨Feature.Unicode, 0xE9⟩, ⟨Feature.UnicodeClass, classifyCodepoint 0xE9⟩] ++
        (emitLoop 0 0 [0x63, 0x64]).acc :=
  ⟨nonAscii_codepoint_tokens.1 _ _ 0x206162 3 [] 0xE9 (by decide) (by norm_num),
   nonAscii_codepoint_tokens.2.1 _ _ 0x206162 [] 0x63 (by decide),
   nonAscii_codepoint_tokens.2.2 [0x61, 0x62, 0xC3, 0xA9, 0x63, 0x64] [0x61, 0x62]
     [0x63, 0x64] 0xE9 0 (by rw [utf8ToUtf32_eq]; decide) (by decide)⟩

/-! ## The counter at a separator -/

theorem emitStep_ascii_counter (p n : Nat) (acc : List FeatureToken) (x : Nat)
    (h : isAscii x = true) :
    (emitStep (fun acc t => acc ++ [t]) ⟨p, n, acc⟩ x).numPreviousAsciiChr =
      if n = 0 then 1 else if n = 1 then 2 else if n = 2 then 3 else n := by
  unfold emitStep
  by_cases h2 : isAlphaNumeric x = true <;>
    rcases n with _ | _ | _ | _ | n <;> simp [h, h2]

theorem emitStep_nonAscii_counter (p n : Nat) (acc : List FeatureToken) (u : Nat)
    (h : isAscii u = false) :
    (emitStep (fun acc t => acc ++ [t]) ⟨p, n, acc⟩ u).numPreviousAsciiChr = 0 := by
  unfold emitStep
  simp [h]

theorem emitLoop_snoc (p n : Nat) (cps : List Nat) (x : Nat) :
    emitLoop p n (cps ++ [x]) =
      emitStep (fun acc t => acc ++ [t]) (emitLoop p n cps) x := by
  unfold emitLoop
  rw [List.foldl_append, List.foldl_cons, List.foldl_nil]

theorem emitLoop_counter_le (cps : List Nat) :
    (emitLoop 0x20 1 cps).numPreviousAsciiChr ≤ 3 := by
  induction cps using List.reverseRecOn with
  | nil => decide
  | append_singleton cps x ih =>
    rw [emitLoop_snoc]
    generalize emitLoop 0x20 1 cps = st at ih
    obtain ⟨q, m, a⟩ := st
    simp only at ih
    by_cases h : isAscii x = true
    · rw [emitStep_ascii_counter q m a x h]
      split
      · omega
      · split
        · omega
        · split <;> omega
    · rw [emitStep_nonAscii_counter q m a x (by simpa using h)]
      omega

/-- The tokens of a sequence with a non-alphanumeric ASCII character `sep` in it,
with the counter made explicit: the loop restarts on the part after `sep` with the
window `' '` and the counter reached after `sep`. -/
theorem tokensOfCodepoints_separator_counter (pre post : List Nat) (sep : Nat)
    (h1 : isAscii sep = true) (h2 : isAlphaNumeric sep = false) :
    tokensOfCodepoints (pre ++ sep :: post) =
      tokensOfCodepoints (pre ++ [sep]) ++
        (emitLoop 0x20 (emitLoop 0x20 1 (pre ++ [sep])).numPreviousAsciiChr post).acc := by
  have hsplit : pre ++ sep :: post = (pre ++ [sep]) ++ post := by simp
  have hprev : (emitLoop 0x20 1 (pre ++ [sep])).prev = 0x20 := by
    rw [emitLoop_snoc]
    exact emitStep_separator _ _ _ sep h1 h2
  unfold tokensOfCodepoints
  rw [hsplit]
  conv_lhs => rw [emitLoop, List.foldl_append]
  have hst : List.foldl (emitStep (fun acc t => acc ++ [t])) ⟨0x20, 1, []⟩ (pre ++ [sep]) =
      ⟨0x20, (emitLoop 0x20 1 (pre ++ [sep])).numPreviousAsciiChr,
        (emitLoop 0x20 1 (pre ++ [sep])).acc⟩ := by
    show emitLoop 0x20 1 (pre ++ [sep]) = _
    generalize emitLoop 0x20 1 (pre ++ [sep]) = e at hprev
    obtain ⟨ep, en, ea⟩ := e
    simp only at hprev
    rw [hprev]
  rw [hst, foldl_emitStep_acc]

theorem separator_counter_after_nonAscii (s' : List Nat) (u sep : Nat)
    (hu : isAscii u = false) (h1 : isAscii sep = true) :
    (emitLoop 0x20 1 ((s' ++ [u]) ++ [sep])).numPreviousAsciiChr = 1 := by
  rw [emitLoop_snoc, emitLoop_snoc]
  generalize emitLoop 0x20 1 s' = st
  obtain ⟨q, m, a⟩ := st
  have h0 := emitStep_nonAscii_counter q m a u hu
  generalize emitStep (fun acc t => acc ++ [t]) ⟨q, m, a⟩ u = st2 at h0
  obtain ⟨q2, m2, a2⟩ := st2
  simp only at h0
  rw [emitStep_ascii_counter q2 m2 a2 sep h1, h0]
  rfl

theorem separator_counter_after_ascii (s : List Nat) (sep : Nat)
    (hs : s = [] ∨ ∃ s' a, s = s' ++ [a] ∧ isAscii a = true) (h1 : isAscii sep = true) :
    2 ≤ (emitLoop 0x20 1 (s ++ [sep])).numPreviousAsciiChr := by
  have hk : 1 ≤ (emitLoop 0x20 1 s).numPreviousAsciiChr := by
    rcases hs with rfl | ⟨s', a, rfl, ha⟩
    · decide
    · rw [emitLoop_snoc]
      generalize emitLoop 0x20 1 s' = st
      obtain ⟨q, m, acc⟩ := st
      rw [emitStep_ascii_counter q m acc a ha]
      split
      · omega
      · split
        · omega
        · split <;> omega
  rw [emitLoop_snoc]
  generalize emitLoop 0x20 1 s = st at hk
  obtain ⟨q, m, acc⟩ := st
  simp only at hk
  rw [emitStep_ascii_counter q m acc sep h1]
  split
  · omega
  · split
    · omega
    · split <;> omega

/-- Claim C14, refuted as stated. The tokens of `ab cd` are not the tokens of `ab `
followed by the tokens of `cd` as a fresh input: after the space the counter is
still 3, so ` c` is emitted three times and ` cd` twice, while a fresh `cd` yields
` c`, `cd` and ` cd` once each. -/
theorem separator_restart_counterexample :
    tokens ([0x61, 0x62, 0x20] ++ [0x63, 0x64]) ≠
      tokens [0x61, 0x62, 0x20] ++ tokens [0x63, 0x64] ∧
    (tokens ([0x61, 0x62, 0x20] ++ [0x63, 0x64])).length = 12 ∧
    (tokens [0x61, 0x62, 0x20] ++ tokens [0x63, 0x64]).length = 9 := by
  rw [tokens_eq, tokens_eq, tokens_eq]
  decide

/-- Claim C14, amended. After a non-alphanumeric ASCII character `sep` the window
is reset to a single space and the counter keeps its value: the tokens of
`s ++ [sep] ++ t` are the tokens of `s ++ [sep]` followed by the tokens of the loop
run on `t` from the window `' '` and the counter reached after `sep`. When `sep`
directly follows a non-ASCII codepoint that counter is 1 and the later tokens are
those of `t` tokenized as a fresh input; when `sep` is the first codepoint or
follows an ASCII character the counter is 2 or 3. -/
theorem tokens_after_separator (s t : List Nat) (sep : Nat) (h1 : isAscii sep = true)
    (h2 : isAlphaNumeric sep = false) :
    tokensOfCodepoints (s ++ sep :: t) =
      tokensOfCodepoints (s ++ [sep]) ++
        (emitLoop 0x20 (emitLoop 0x20 1 (s ++ [sep])).numPreviousAsciiChr t).acc ∧
    ((∃ s' u, s = s' ++ [u] ∧ isAscii u = false) →
      tokensOfCodepoints (s ++ sep :: t) =
        tokensOfCodepoints (s ++ [sep]) ++ tokensOfCodepoints t) ∧
    ((s = [] ∨ ∃ s' a, s = s' ++ [a] ∧ isAscii a = true) →
      2 ≤ (emitLoop 0x20 1 (s ++ [sep])).numPreviousAsciiChr ∧
      (emitLoop 0x20 1 (s ++ [sep])).numPreviousAsciiChr ≤ 3) := by
  have hsplit := tokensOfCodepoints_separator_counter s t sep h1 h2
  refine ⟨hsplit, ?_, ?_⟩
  · rintro ⟨s', u, rfl, hu⟩
    rw [hsplit, separator_counter_after_nonAscii s' u sep hu h1]
    rfl
  · intro hs
    exact ⟨separator_counter_after_ascii s sep hs h1, emitLoop_counter_le _⟩

theorem tokens_after_separator_witness :
    isAscii 0x20 = true ∧ isAlphaNumeric 0x20 = false ∧
    tokensOfCodepoints ([0x61, 0xE9] ++ 0x20 :: [0x63, 0x64]) =
      tokensOfCodepoints ([0x61, 0xE9] ++ [0x20]) ++ tokensOfCodepoints [0x63, 0x64] ∧
    2 ≤ (emitLoop 0x20 1 ([0x61, 0x62] ++ [0x20])).numPreviousAsciiChr ∧
    (emitLoop 0x20 1 ([0x61, 0x62] ++ [0x20])).numPreviousAsciiChr ≤ 3 :=
  ⟨rfl, rfl,
    (tokens_after_separator [0x61, 0xE9] [0x63, 0x64] 0x20 rfl rfl).2.1
      ⟨[0x61], 0xE9, rfl, rfl⟩,
    (tokens_after_separator [0x61, 0x62] [] 0x20 rfl rfl).2.2
      (Or.inr ⟨[0x61], 0x62, rfl, rfl⟩)⟩

/-! ## Runs of ASCII alphanumerics -/

theorem ngramChar_snoc_old (cps : List Nat) (x j : Nat) (hj : j ≤ cps.length) :
    ngramChar (cps ++ [x]) j = ngramChar cps j := by
  unfold ngramChar
  rw [List.map_append, ← List.cons_append, List.getD_eq_getElem?_getD,
    List.getD_eq_getElem?_getD, List.getElem?_append_left (by simp; omega)]

theorem ngramChar_snoc_new (cps : List Nat) (x : Nat) :
    ngramChar (cps ++ [x]) (cps.length + 1) = toLowerAscii x := by
  unfold ngramChar
  rw [List.map_append, ← List.cons_append, List.getD_eq_getElem?_getD,
    List.getElem?_append_right (by simp)]
  simp

theorem ngramChar_le (cps : List Nat) (h : ∀ c ∈ cps, isAscii c = true) (j : Nat) :
    ngramChar cps j ≤ 127 := by
  unfold ngramChar
  rw [List.getD_eq_getElem?_getD]
  cases hj : (0x20 :: cps.map toLowerAscii)[j]? with
  | none => simp
  | some v =>
    have hm := List.getElem?_mem hj
    simp only [Option.getD_some]
    rcases List.mem_cons.mp hm with h0 | h0
    · omega
    · obtain ⟨c, hc, rfl⟩ := List.mem_map.mp h0
      exact toLowerAscii_le c (by simpa [isAscii] using h c hc)

theorem expectedAt_snoc (cps : List Nat) (x k : Nat) (hk : k ≤ cps.length) :
    expectedAt (cps ++ [x]) k = expectedAt cps k := by
  unfold expectedAt
  by_cases h1 : k = 1
  · rw [if_pos h1, if_pos h1, ngramChar_snoc_old cps x 0 (by omega),
      ngramChar_snoc_old cps x 1 (by omega)]
  · rw [if_neg h1, if_neg h1]
    by_cases h2 : k = 2
    · rw [if_pos h2, if_pos h2, ngramChar_snoc_old cps x 0 (by omega),
        ngramChar_snoc_old cps x 1 (by omega), ngramChar_snoc_old cps x 2 (by omega)]
    · rw [if_neg h2, if_neg h2, ngramChar_snoc_old cps x k hk,
        ngramChar_snoc_old cps x (k - 1) (by omega),
        ngramChar_snoc_old cps x (k - 2) (by omega),
        ngramChar_snoc_old cps x (k - 3) (by omega)]

theorem expectedNGrams_snoc (cps : List Nat) (x : Nat) :
    expectedNGrams (cps ++ [x]) =
      expectedNGrams cps ++ expectedAt (cps ++ [x]) (cps.length + 1) := by
  unfold expectedNGrams
  have h : (List.range cps.length).flatMap (fun i => expectedAt (cps ++ [x]) (i + 1)) =
      (List.range cps.length).flatMap (fun i => expectedAt cps (i + 1)) :=
    List.flatMap_congr (fun i hi =>
      expectedAt_snoc cps x (i + 1) (by have := List.mem_range.mp hi; omega))
  rw [List.length_append, List.length_singleton, List.range_succ, List.flatMap_append,
    List.flatMap_singleton, h]

theorem isAlphaNumeric_of_isalnum (x : Nat) (h : isalnum x = true) :
    isAlphaNumeric x = true := by
  unfold isAlphaNumeric
  rw [h]
  rfl

/-- One loop iteration on an ASCII alphanumeric after a run of them. -/
theorem emitStep_alnum_run (cps : List Nat) (x : Nat)
    (hcps : ∀ c ∈ cps, isAscii c = true) (h1 : isAscii x = true) (h2 : isalnum x = true) :
    emitStep (fun acc t => acc ++ [t])
        ⟨windowAfter cps, min (cps.length + 1) 3, expectedNGrams cps⟩ x =
      ⟨windowAfter (cps ++ [x]), min (cps.length + 2) 3,
        expectedNGrams cps ++ expectedAt (cps ++ [x]) (cps.length + 1)⟩ := by
  have hle : x ≤ 127 := by simpa [isAscii] using h1
  have hx := toLowerAscii_le x hle
  have hc := ngramChar_le cps hcps
  have hold := ngramChar_snoc_old cps x
  have hnew := ngramChar_snoc_new cps x
  have halnum := isAlphaNumeric_of_isalnum x h2
  unfold emitStep
  simp only [h1, halnum, Bool.not_true, Bool.false_eq_true, if_false, window_eq _ x hle,
    and_BIGRAM_MASK, and_TRIGRAM_MASK]
  unfold windowAfter expectedAt
  rw [List.length_append, List.length_singleton]
  generalize hn : cps.length = n at hold hnew
  rcases n with _ | _ | _ | n
  · have h0 := hold 0 (by omega)
    have c0 : ngramChar cps 0 = 0x20 := rfl
    simp only [Nat.zero_add, Nat.reduceAdd, Nat.min_def, pack2, pack3, pack4, h0, hnew, c0]
    norm_num
    omega
  · have h0 := hold 0 (by omega)
    have h1' := hold 1 (by omega)
    have c0 : ngramChar cps 0 = 0x20 := rfl
    have hc1 := hc 1
    simp only [Nat.zero_add, Nat.reduceAdd, Nat.min_def, pack2, pack3, pack4, h0, h1', hnew, c0]
    norm_num
    omega
  · have h0 := hold 0 (by omega)
    have h1' := hold 1 (by omega)
    have h2' := hold 2 (by omega)
    have c0 : ngramChar cps 0 = 0x20 := rfl
    have hc1 := hc 1
    have hc2 := hc 2
    simp only [Nat.zero_add, Nat.reduceAdd, Nat.min_def, pack2, pack3, pack4, h0, h1', h2',
      hnew, c0]
    norm_num
    omega
  · have ha := hold (n + 1) (by omega)
    have hb := hold (n + 2) (by omega)
    have hd := hold (n + 3) (by omega)
    have hca := hc n
    have hcb := hc (n + 1)
    have hcc := hc (n + 2)
    have hcd := hc (n + 3)
    have m1 : min (n + 1 + 1 + 1 + 1) 3 = 3 := by omega
    have m2 : min (n + 1 + 1 + 1 + 2) 3 = 3 := by omega
    have f0 : ¬ (n + 1 + 1 + 1 = 0) := by omega
    have f1 : ¬ (n + 1 + 1 + 1 = 1) := by omega
    have f2 : ¬ (n + 1 + 1 + 1 = 2) := by omega
    have g0 : ¬ (n + 1 + 1 + 1 + 1 = 0) := by omega
    have g1 : ¬ (n + 1 + 1 + 1 + 1 = 1) := by omega
    have g2 : ¬ (n + 1 + 1 + 1 + 1 = 2) := by omega
    have i1 : n + 1 + 1 + 1 - 3 = n := by omega
    have i2 : n + 1 + 1 + 1 - 2 = n + 1 := by omega
    have i3 : n + 1 + 1 + 1 - 1 = n + 2 := by omega
    have j1 : n + 1 + 1 + 1 + 1 - 3 = n + 1 := by omega
    have j2 : n + 1 + 1 + 1 + 1 - 2 = n + 2 := by omega
    have j3 : n + 1 + 1 + 1 + 1 - 1 = n + 3 := by omega
    have k3 : n + 1 + 1 + 1 = n + 3 := rfl
    simp only [m1, m2, f0, f1, f2, g0, g1, g2, i1, i2, i3, j1, j2, j3, if_false, hnew, ha, hb,
      hd, pack2, pack3, pack4]
    simp only [k3]
    norm_num
    omega

/-- The loop on a run of ASCII alphanumerics: the window holds the last characters,
the counter is capped at 3, and the tokens are the listed n-grams. -/
theorem emitLoop_alnum_run (cps : List Nat) :
    (∀ c ∈ cps, isAscii c = true ∧ isalnum c = true) →
      emitLoop 0x20 1 cps =
        ⟨windowAfter cps, min (cps.length + 1) 3, expectedNGrams cps⟩ := by
  induction cps using List.reverseRecOn with
  | nil => intro _; rfl
  | append_singleton cps x ih =>
    intro h
    have hcps : ∀ c ∈ cps, isAscii c = true ∧ isalnum c = true :=
      fun c hc => h c (List.mem_append_left _ hc)
    have hx := h x (by simp)
    rw [emitLoop_snoc, ih hcps,
      emitStep_alnum_run cps x (fun c hc => (hcps c hc).1) hx.1 hx.2, expectedNGrams_snoc,
      List.length_append, List.length_singleton]

theorem pack4_masks (a b c d : Nat) (hb : b < 256) (hc : c < 256) (hd : d < 256) :
    pack4 a b c d &&& BIGRAM_MASK = pack2 c d ∧
    pack4 a b c d &&& TRIGRAM_MASK = pack3 b c d := by
  rw [and_BIGRAM_MASK, and_TRIGRAM_MASK]
  unfold pack4 pack3 pack2
  constructor <;> omega

/-- Claim C12. For an input whose decoded codepoints are ASCII alphanumerics
`c_1 .. c_n` (with `c_0` the space and every `c_i` lowercased), `emitTokens` emits, in
this order and nothing else: for `c_1` the bigram `(c_0, c_1)`; for `c_2` the bigram
`(c_1, c_2)` then the trigram `(c_0, c_1, c_2)`; and for every `k ≥ 3` the bigram,
the trigram and the 4-gram ending in `c_k`, each packed one byte per character with
the latest character in the low byte, so that the bigram and the trigram are the
4-character window masked with `0xFFFF` and `0xFFFFFF`. -/
theorem tokens_alnum_run (text : List Byte)
    (h : ∀ c ∈ utf8ToUtf32 text, isAscii c = true ∧ isalnum c = true) :
    tokens text = expectedNGrams (utf8ToUtf32 text) ∧
    ∀ a b c d, b < 256 → c < 256 → d < 256 →
      pack4 a b c d &&& BIGRAM_MASK = pack2 c d ∧
      pack4 a b c d &&& TRIGRAM_MASK = pack3 b c d := by
  refine ⟨?_, fun a b c d hb hc hd => pack4_masks a b c d hb hc hd⟩
  have : tokens text = (emitLoop 0x20 1 (utf8ToUtf32 text)).acc := rfl
  rw [this, emitLoop_alnum_run _ h]

theorem tokens_alnum_run_witness :
    (∀ c ∈ utf8ToUtf32 [0x41, 0x62, 0x39, 0x64, 0x65],
      isAscii c = true ∧ isalnum c = true) ∧
    tokens [0x41, 0x62, 0x39, 0x64, 0x65] =
      expectedNGrams (utf8ToUtf32 [0x41, 0x62, 0x39, 0x64, 0x65]) :=
  have h : ∀ c ∈ utf8ToUtf32 [0x41, 0x62, 0x39, 0x64, 0x65],
      isAscii c = true ∧ isalnum c = true := by
    rw [utf8ToUtf32_eq]
    decide
  ⟨h, (tokens_alnum_run [0x41, 0x62, 0x39, 0x64, 0x65] h).1⟩

/-! ## The number of tokens -/

theorem emitStep_ascii_length (p n : Nat) (acc : List FeatureToken) (x : Nat)
    (h : isAscii x = true) :
    (emitStep (fun acc t => acc ++ [t]) ⟨p, n, acc⟩ x).acc.length =
      acc.length + (if n ≤ 3 then n else 0) := by
  unfold emitStep
  by_cases h2 : isAlphaNumeric x = true <;>
    rcases n with _ | _ | _ | _ | n <;> simp [h, h2]

theorem emitStep_nonAscii_length (p n : Nat) (acc : List FeatureToken) (u : Nat)
    (h : isAscii u = false) :
    (emitStep (fun acc t => acc ++ [t]) ⟨p, n, acc⟩ u).acc.length = acc.length + 2 := by
  unfold emitStep
  simp [h]

theorem utf8Decode_all_ascii (text : List Byte) (h : ∀ b ∈ text, b.val ≤ 0x7F) :
    utf8Decode text = text.map (fun b => b.val) := by
  induction text with
  | nil => rfl
  | cons b rest ih =>
    rw [utf8Decode_cons, if_pos (h b (List.mem_cons_self _ _)),
      ih (fun x hx => h x (List.mem_cons_of_mem _ hx)), List.map_cons]

/-- The loop on ASCII codepoints: the counter is capped at 3 and the number of
tokens depends only on the number of codepoints. -/
theorem emitLoop_ascii_count (cps : List Nat) :
    (∀ c ∈ cps, isAscii c = true) →
      (emitLoop 0x20 1 cps).numPreviousAsciiChr = min (cps.length + 1) 3 ∧
      (emitLoop 0x20 1 cps).acc.length = asciiTokenCount cps.length := by
  induction cps using List.reverseRecOn with
  | nil => intro _; exact ⟨rfl, rfl⟩
  | append_singleton cps x ih =>
    intro h
    obtain ⟨hk, hl⟩ := ih (fun c hc => h c (List.mem_append_left _ hc))
    have hx := h x (by simp)
    rw [emitLoop_snoc]
    generalize emitLoop 0x20 1 cps = st at hk hl
    obtain ⟨q, m, a⟩ := st
    simp only at hk hl
    rw [emitStep_ascii_counter q m a x hx, emitStep_ascii_length q m a x hx, hl, hk,
      List.length_append, List.length_singleton]
    unfold asciiTokenCount
    generalize cps.length = n
    rcases n with _ | _ | n
    · exact ⟨rfl, rfl⟩
    · exact ⟨rfl, rfl⟩
    · have hm : min (n + 1 + 1 + 1) 3 = 3 := by omega
      rw [hm]
      simp only [Nat.add_eq_zero, one_ne_zero, and_false, if_false, Nat.add_left_eq_self,
        OfNat.ofNat_ne_zero, OfNat.ofNat_ne_one, Nat.le_refl, if_true]
      constructor
      · rfl
      · omega

/-- Claim C24. The feature count of an ASCII input depends only on its length: for
an input of `n` bytes all at most `0x7F`, `emitTokens` emits exactly 0 tokens when
`n = 0`, 1 token when `n = 1`, and `3 n - 3` tokens when `n ≥ 2`, whichever ASCII
characters the input contains. -/
theorem ascii_token_count (text : List Byte) (h : ∀ b ∈ text, b.val ≤ 0x7F) :
    (tokens text).length =
      if text.length = 0 then 0 else if text.length = 1 then 1 else 3 * text.length - 3 := by
  have hcps : ∀ c ∈ text.map (fun b : Byte => b.val), isAscii c = true := by
    intro c hc
    obtain ⟨b, hb, rfl⟩ := List.mem_map.mp hc
    simpa [isAscii] using h b hb
  have := (emitLoop_ascii_count _ hcps).2
  rw [List.length_map] at this
  rw [tokens_eq, utf8Decode_all_ascii text h]
  exact this

set_option maxRecDepth 100000 in
theorem abcd_ascii : ∀ b ∈ abcd, b.val ≤ 0x7F := by
  decide

theorem ascii_token_count_witness :
    (∀ b ∈ abcd, b.val ≤ 0x7F) ∧
    (tokens abcd).length =
      if abcd.length = 0 then 0 else if abcd.length = 1 then 1 else 3 * abcd.length - 3 :=
  ⟨abcd_ascii, ascii_token_count abcd abcd_ascii⟩

theorem emitStep_length_le (p n : Nat) (acc : List FeatureToken) (chr : Nat) :
    (emitStep (fun acc t => acc ++ [t]) ⟨p, n, acc⟩ chr).acc.length ≤ acc.length + 3 := by
  by_cases h : isAscii chr = true
  · rw [emitStep_ascii_length p n acc chr h]
    split <;> omega
  · rw [emitStep_nonAscii_length p n acc chr (by simpa using h)]
    omega

theorem emitLoop_length_le (cps : List Nat) (p n : Nat) :
    (emitLoop p n cps).acc.length ≤ 3 * cps.length := by
  induction cps using List.reverseRecOn with
  | nil => exact Nat.le_refl _
  | append_singleton cps x ih =>
    rw [emitLoop_snoc, List.length_append, List.length_singleton]
    generalize emitLoop p n cps = st at ih
    obtain ⟨q, m, a⟩ := st
    have := emitStep_length_le q m a x
    simp only at ih
    omega

/-- The decoder produces at most one codepoint per byte. -/
theorem utf8Decode_length_le :
    ∀ (n : Nat) (bytes : List Byte), bytes.length ≤ n →
      (utf8Decode bytes).length ≤ bytes.length := by
  intro n
  induction n with
  | zero =>
    intro bytes hlen
    have : bytes = [] := List.length_eq_zero.mp (by omega)
    rw [this, utf8Decode_nil]
    exact Nat.le_refl _
  | succ n ih =>
    intro bytes hlen
    cases bytes with
    | nil => rw [utf8Decode_nil]; exact Nat.le_refl _
    | cons c rest =>
      rw [utf8Decode_cons]
      simp only [List.length_cons] at hlen ⊢
      split
      · have := ih rest (by omega)
        simp only [List.length_cons]
        omega
      · split
        · match rest, hlen with
          | [], _ => simp
          | b1 :: rest1, hlen =>
            simp only [List.length_cons] at hlen ⊢
            have := ih rest1 (by omega)
            omega
        · split
          · match rest, hlen with
            | [], _ => simp
            | [_], _ => simp
            | b1 :: b2 :: rest2, hlen =>
              simp only [List.length_cons] at hlen ⊢
              have := ih rest2 (by omega)
              omega
          · split
            · match rest, hlen with
              | [], _ => simp
              | [_], _ => simp
              | [_, _], _ => simp
              | b1 :: b2 :: b3 :: rest3, hlen =>
                simp only [List.length_cons] at hlen ⊢
                have := ih rest3 (by omega)
                omega
            · have := ih rest (by omega)
              omega

theorem utf8ToUtf32_length_le (text : List Byte) :
    (utf8ToUtf32 text).length ≤ text.length := by
  rw [utf8ToUtf32_eq]
  exact utf8Decode_length_le text.length text (Nat.le_refl _)

theorem tokens_length_le (text : List Byte) : (tokens text).length ≤ 3 * text.length := by
  have h1 : (tokens text).length ≤ 3 * (utf8ToUtf32 text).length :=
    emitLoop_length_le (utf8ToUtf32 text) 0x20 1
  have h2 := utf8ToUtf32_length_le text
  omega

/-- The loop emits no token exactly on the empty sequence of codepoints. -/
theorem tokensOfCodepoints_eq_nil_iff (cps : List Nat) :
    tokensOfCodepoints cps = [] ↔ cps = [] := by
  constructor
  · intro h
    cases cps with
    | nil => rfl
    | cons c rest =>
      exfalso
      have hlen := congrArg List.length h
      unfold tokensOfCodepoints emitLoop at hlen
      rw [List.foldl_cons] at hlen
      have hstep : 1 ≤ (emitStep (fun acc t => acc ++ [t]) ⟨0x20, 1, []⟩ c).acc.length := by
        by_cases hc : isAscii c = true
        · rw [emitStep_ascii_length _ _ _ c hc]; simp
        · rw [emitStep_nonAscii_length _ _ _ c (by simpa using hc)]; simp
      generalize emitStep (fun acc t => acc ++ [t]) ⟨0x20, 1, []⟩ c = st at hlen hstep
      obtain ⟨q, m, a⟩ := st
      rw [foldl_emitStep_acc] at hlen
      simp only [List.length_append, List.length_nil] at hlen hstep
      omega
  · intro h
    rw [h]
    rfl

/-- Claim C22. The default branch is taken exactly when nothing decodes:
`emitTokens` emits zero tokens if and only if `utf8ToUtf32` returns the empty
sequence; when the number of tokens is below `2 ^ 32` (which holds when three times
the number of bytes is), the counter is zero exactly when nothing decodes, and every
input that decodes to at least one codepoint is scored by the model: in a model of
the required dimensions the result is the language at the index of the maximal
score. -/
theorem default_iff_nothing_decodes (text : List Byte) :
    (tokens text = [] ↔ utf8ToUtf32 text = []) ∧
    (3 * text.length < 2 ^ 32 → (tokens text).length < 2 ^ 32) ∧
    ((tokens text).length < 2 ^ 32 → (numFeatures text = 0 ↔ utf8ToUtf32 text = [])) ∧
    (∀ (Lang F : Type) (A : ScoreArith F) (m : Model Lang F), m.WellFormed →
      (tokens text).length < 2 ^ 32 → utf8ToUtf32 text ≠ [] →
      tokens text ≠ [] ∧
      detectLanguage A m text =
        m.LANGUAGES[maxElement A.lt
          ((List.range m.LANGUAGES.length).map (specScore A m text))]?) := by
  have hiff : tokens text = [] ↔ utf8ToUtf32 text = [] :=
    tokensOfCodepoints_eq_nil_iff (utf8ToUtf32 text)
  have hnum : (tokens text).length < 2 ^ 32 →
      (numFeatures text = 0 ↔ utf8ToUtf32 text = []) := by
    intro hlt
    rw [← hiff, numFeatures, u32_of_lt _ hlt]
    exact List.length_eq_zero
  refine ⟨hiff, ?_, hnum, ?_⟩
  · intro h
    have := tokens_length_le text
    omega
  · intro Lang F A m hm hlt hne
    refine ⟨fun h => hne (hiff.mp h), ?_⟩
    rw [detectLanguage_eq A m hm text, if_neg (fun h => hne ((hnum hlt).mp h))]

theorem default_iff_nothing_decodes_witness :
    3 * quoi.length < 2 ^ 32 ∧ (tokens quoi).length < 2 ^ 32 ∧
    (numFeatures quoi = 0 ↔ utf8ToUtf32 quoi = []) ∧
    tokens quoi ≠ [] ∧
    detectLanguage intArith zeroToyModel quoi =
      zeroToyModel.LANGUAGES[maxElement intArith.lt
        ((List.range zeroToyModel.LANGUAGES.length).map
          (specScore intArith zeroToyModel quoi))]? :=
  have h3 : 3 * quoi.length < 2 ^ 32 := by norm_num [quoi]
  have hlt : (tokens quoi).length < 2 ^ 32 := (default_iff_nothing_decodes quoi).2.1 h3
  have hne : utf8ToUtf32 quoi ≠ [] := by rw [utf8ToUtf32_eq]; decide
  ⟨h3, hlt, (default_iff_nothing_decodes quoi).2.2.1 hlt,
    (default_iff_nothing_decodes quoi).2.2.2 ToyLang Int intArith zeroToyModel
      (zeroModel_wellFormed _ _ _) hlt hne⟩

/-! ## The decoder loop advances and stops -/

/-- One iteration of the decoder loop at an index inside the input: the byte there
announces a sequence of 1 to 4 bytes; when the sequence fits in the input the index
advances by its length and at most one codepoint is pushed, otherwise the loop
stops with the result so far. -/
theorem utf8ToUtf32Loop_step (utf8 : List Byte) (i : Nat) (result : List Nat)
    (hi : i < utf8.length) :
    1 ≤ sequenceLength utf8[i] ∧ sequenceLength utf8[i] ≤ 4 ∧
    (i + sequenceLength utf8[i] ≤ utf8.length →
      ∃ result', (result' = result ∨ ∃ cp, result' = result ++ [cp]) ∧
        utf8ToUtf32Loop utf8 i result =
          utf8ToUtf32Loop utf8 (i + sequenceLength utf8[i]) result') ∧
    (utf8.length < i + sequenceLength utf8[i] →
      utf8ToUtf32Loop utf8 i result = result) := by
  obtain ⟨hc2, hc3, hc4⟩ := lead_class utf8[i]
  rw [utf8ToUtf32Loop, dif_pos hi]
  unfold sequenceLength
  by_cases c2 : (utf8[i]).val &&& 0xE0 = 0xC0
  · have c1 : ¬ (utf8[i]).val ≤ 0x7F := by have := hc2.mp c2; omega
    simp only [c1, c2, if_true, if_false]
    refine ⟨by omega, by omega, ?_, ?_⟩
    · intro h
      rw [dif_pos (by omega)]
      exact ⟨_, Or.inr ⟨_, rfl⟩, rfl⟩
    · intro h
      rw [dif_neg (by omega)]
  · by_cases c3 : (utf8[i]).val &&& 0xF0 = 0xE0
    · have c1 : ¬ (utf8[i]).val ≤ 0x7F := by have := hc3.mp c3; omega
      simp only [c1, c2, c3, if_true, if_false]
      refine ⟨by omega, by omega, ?_, ?_⟩
      · intro h
        rw [dif_pos (by omega)]
        exact ⟨_, Or.inr ⟨_, rfl⟩, rfl⟩
      · intro h
        rw [dif_neg (by omega)]
    · by_cases c4 : (utf8[i]).val &&& 0xF8 = 0xF0
      · have c1 : ¬ (utf8[i]).val ≤ 0x7F := by have := hc4.mp c4; omega
        simp only [c1, c2, c3, c4, if_true, if_false]
        refine ⟨by omega, by omega, ?_, ?_⟩
        · intro h
          rw [dif_pos (by omega)]
          exact ⟨_, Or.inr ⟨_, rfl⟩, rfl⟩
        · intro h
          rw [dif_neg (by omega)]
      · simp only [c2, c3, c4, if_false]
        refine ⟨by omega, by omega, ?_, fun h => by omega⟩
        intro _
        by_cases c1 : (utf8[i]).val ≤ 0x7F
        · rw [if_pos c1]
          exact ⟨_, Or.inr ⟨_, rfl⟩, rfl⟩
        · rw [if_neg c1]
          exact ⟨_, Or.inl rfl, rfl⟩

/-- Claim C25. The loop of `utf8ToUtf32` ends on every byte sequence: at an index
inside the input an iteration either stops the loop or advances the index by the 1
to 4 bytes of the sequence at that index, all of them inside the input, pushing at
most one codepoint; at an index at or past the end the loop returns. The result has
at most as many codepoints as the input has bytes, and each codepoint is below
`2 ^ 21`. -/
theorem utf8ToUtf32_terminates (utf8 : List Byte) :
    (∀ (i : Nat) (result : List Nat) (hi : i < utf8.length),
      1 ≤ sequenceLength utf8[i] ∧ sequenceLength utf8[i] ≤ 4 ∧
      (i + sequenceLength utf8[i] ≤ utf8.length →
        ∃ result', (result' = result ∨ ∃ cp, result' = result ++ [cp]) ∧
          utf8ToUtf32Loop utf8 i result =
            utf8ToUtf32Loop utf8 (i + sequenceLength utf8[i]) result') ∧
      (utf8.length < i + sequenceLength utf8[i] →
        utf8ToUtf32Loop utf8 i result = result)) ∧
    (∀ (i : Nat) (result : List Nat), utf8.length ≤ i →
      utf8ToUtf32Loop utf8 i result = result) ∧
    (utf8ToUtf32 utf8).length ≤ utf8.length ∧
    (∀ cp ∈ utf8ToUtf32 utf8, cp < 2 ^ 21) := by
  refine ⟨fun i result hi => utf8ToUtf32Loop_step utf8 i result hi, ?_,
    utf8ToUtf32_length_le utf8, utf8ToUtf32_lt utf8⟩
  intro i result hi
  rw [utf8ToUtf32Loop, dif_neg (by omega)]

theorem utf8ToUtf32_terminates_witness :
    (3 : Nat) < ([0x61, 0xC3, 0xA9, 0xE2, 0x82] : List Byte).length ∧
    utf8ToUtf32Loop [0x61, 0xC3, 0xA9, 0xE2, 0x82] 3 [0x61, 0xE9] = [0x61, 0xE9] ∧
    (∃ result', (result' = [0x61] ∨ ∃ cp, result' = [0x61] ++ [cp]) ∧
      utf8ToUtf32Loop [0x61, 0xC3, 0xA9, 0xE2, 0x82] 1 [0x61] =
        utf8ToUtf32Loop [0x61, 0xC3, 0xA9, 0xE2, 0x82]
          (1 + sequenceLength ([0x61, 0xC3, 0xA9, 0xE2, 0x82] : List Byte)[1]) result') ∧
    utf8ToUtf32Loop [0x61, 0xC3, 0xA9, 0xE2, 0x82] 7 [0x61, 0xE9] = [0x61, 0xE9] :=
  ⟨by decide,
    ((utf8ToUtf32_terminates [0x61, 0xC3, 0xA9, 0xE2, 0x82]).1 3 [0x61, 0xE9]
      (by decide)).2.2.2 (by decide),
    ((utf8ToUtf32_terminates [0x61, 0xC3, 0xA9, 0xE2, 0x82]).1 1 [0x61]
      (by decide)).2.2.1 (by decide),
    (utf8ToUtf32_terminates [0x61, 0xC3, 0xA9, 0xE2, 0x82]).2.1 7 [0x61, 0xE9] (by decide)⟩

/-! ## The hash is a bijection of the payload -/

/-- For a fixed seed, `murmurhash2` is injective in its payload on 32-bit values. -/
theorem murmurhash2_key_injective (seed k k' : Nat) (hk : k < 2 ^ 32) (hk' : k' < 2 ^ 32)
    (h : murmurhash2 k seed = murmurhash2 k' seed) : k = k' := by
  simp only [murmurhash2] at h
  have e6 := xorShift_injective 15 _ _ (by decide) h
  have hb : ∀ j, (u32 (seed * 1540483477) ^^^
      u32 ((u32 (j * 1540483477) ^^^ u32 (j * 1540483477) >>> 24) * 1540483477)) < 2 ^ 32 :=
    fun j => Nat.xor_lt_two_pow (u32_lt _) (u32_lt _)
  have e5 := mulM_injective _ _ (xorShift_lt _ 13 (hb k)) (xorShift_lt _ 13 (hb k')) e6
  have e4 := xorShift_injective 13 _ _ (by decide) e5
  have e3 := Nat.xor_right_inj.mp e4
  have e2 := mulM_injective _ _ (xorShift_lt _ 24 (u32_lt _)) (xorShift_lt _ 24 (u32_lt _)) e3
  have e1 := xorShift_injective 24 _ _ (by decide) e2
  exact mulM_injective k k' hk hk' e1

theorem murmurhash2_lt (k seed : Nat) : murmurhash2 k seed < 2 ^ 32 := by
  simp only [murmurhash2]
  exact xorShift_lt _ 15 (u32_lt _)

theorem murmurhash2_surjective (seed y : Nat) (hy : y < 2 ^ 32) :
    ∃ k, k < 2 ^ 32 ∧ murmurhash2 k seed = y := by
  have hinj : Function.Injective
      (fun k : Fin (2 ^ 32) => (⟨murmurhash2 k.val seed, murmurhash2_lt k.val seed⟩ :
        Fin (2 ^ 32))) := by
    intro a b hab
    have := congrArg Fin.val hab
    exact Fin.ext (murmurhash2_key_injective seed a.val b.val a.isLt b.isLt this)
  obtain ⟨k, hk⟩ := Finite.surjective_of_injective hinj ⟨y, hy⟩
  exact ⟨k.val, k.isLt, congrArg Fin.val hk⟩

/-- Claim C23. For every fixed seed, `murmurhash2` is a bijection on 32-bit
values: distinct payloads have distinct hashes, and every 32-bit value is the hash
of a payload. So two distinct `AsciiNGram` values, two distinct `UnicodeClass`
indices, or two `Unicode` codepoints with different quotients by 128 never share a
hash, and two distinct values of one feature type that share a bucket have
different hashes that agree modulo 4096. -/
theorem murmurhash2_bijective (seed : Nat) :
    (∀ k k', k < 2 ^ 32 → k' < 2 ^ 32 → k ≠ k' →
      murmurhash2 k seed ≠ murmurhash2 k' seed) ∧
    (∀ k, murmurhash2 k seed < 2 ^ 32) ∧
    (∀ y, y < 2 ^ 32 → ∃ k, k < 2 ^ 32 ∧ murmurhash2 k seed = y) ∧
    (∀ v v', v < 2 ^ 32 → v' < 2 ^ 32 → v ≠ v' →
      featureToHash ⟨Feature.AsciiNGram, v⟩ ≠ featureToHash ⟨Feature.AsciiNGram, v'⟩ ∧
      featureToHash ⟨Feature.UnicodeClass, v⟩ ≠ featureToHash ⟨Feature.UnicodeClass, v'⟩ ∧
      (bucket ⟨Feature.AsciiNGram, v⟩ = bucket ⟨Feature.AsciiNGram, v'⟩ →
        featureToHash ⟨Feature.AsciiNGram, v⟩ % 4096 =
          featureToHash ⟨Feature.AsciiNGram, v'⟩ % 4096)) ∧
    (∀ c c', c < 2 ^ 32 → c' < 2 ^ 32 → c / 128 ≠ c' / 128 →
      featureToHash ⟨Feature.Unicode, c⟩ ≠ featureToHash ⟨Feature.Unicode, c'⟩) := by
  refine ⟨?_, fun k => murmurhash2_lt k seed, fun y hy => murmurhash2_surjective seed y hy,
    ?_, ?_⟩
  · intro k k' hk hk' hne h
    exact hne (murmurhash2_key_injective seed k k' hk hk' h)
  · intro v v' hv hv' hne
    refine ⟨fun h => hne (murmurhash2_key_injective _ v v' hv hv' h),
      fun h => hne (murmurhash2_key_injective _ v v' hv hv' h), fun h => h⟩
  · intro c c' hc hc' hne h
    exact hne (murmurhash2_key_injective _ _ _
      (Nat.lt_of_le_of_lt (Nat.div_le_self _ _) hc)
      (Nat.lt_of_le_of_lt (Nat.div_le_self _ _) hc') h)

theorem murmurhash2_bijective_witness :
    murmurhash2 0x7175 SEED ≠ murmurhash2 0x7468 SEED ∧
    featureToHash ⟨Feature.Unicode, 0x4E2D⟩ ≠ featureToHash ⟨Feature.Unicode, 0x3042⟩ ∧
    ∃ k, k < 2 ^ 32 ∧ murmurhash2 k SEED = 0 :=
  ⟨(murmurhash2_bijective SEED).1 0x7175 0x7468 (by norm_num) (by norm_num) (by norm_num),
   (murmurhash2_bijective SEED).2.2.2.2 0x4E2D 0x3042 (by norm_num) (by norm_num)
     (by norm_num),
   (murmurhash2_bijective SEED).2.2.1 0 (by norm_num)⟩

/-! ## Case-insensitivity -/

/-- The loop treats an ASCII uppercase letter and its lowercase letter alike. -/
theorem emitStep_tolower {σ : Type} (listener : σ → FeatureToken → σ) (st : EmitState σ)
    (chr : Nat) : emitStep listener st (tolower chr) = emitStep listener st chr := by
  by_cases hU : 0x41 ≤ chr ∧ chr ≤ 0x5A
  · have ht : tolower chr = chr + 0x20 := by unfold tolower; rw [if_pos hU]
    have h1 : isAscii chr = true := by simp [isAscii]; omega
    have h2 : isAscii (chr + 0x20) = true := by simp [isAscii]; omega
    have h3 : toLowerAscii (chr + 0x20) = chr + 0x20 := by
      unfold toLowerAscii tolower
      rw [h2, if_pos rfl, if_neg (by omega)]
    have h4 : toLowerAscii chr = chr + 0x20 := by
      unfold toLowerAscii
      rw [h1, if_pos rfl, ht]
    have h5 : isAlphaNumeric chr = true := by
      simp [isAlphaNumeric, isalnum]; omega
    have h6 : isAlphaNumeric (chr + 0x20) = true := by
      simp [isAlphaNumeric, isalnum]; omega
    rw [ht]
    unfold emitStep
    simp only [h1, h2, h3, h4, h5, h6, Bool.not_true, Bool.false_eq_true, if_false]
  · have ht : tolower chr = chr := by unfold tolower; rw [if_neg hU]
    rw [ht]

theorem tokensOfCodepoints_tolower (cps : List Nat) :
    tokensOfCodepoints (cps.map tolower) = tokensOfCodepoints cps := by
  unfold tokensOfCodepoints emitLoop
  rw [List.foldl_map]
  have : (fun (st : EmitState (List FeatureToken)) (c : Nat) =>
      emitStep (fun acc t => acc ++ [t]) st (tolower c)) =
      emitStep (fun acc t => acc ++ [t]) := by
    funext st c
    exact emitStep_tolower _ st c
  rw [this]

theorem lowerByte_of_ge (b : Byte) (h : 0x80 ≤ b.val) : lowerByte b = b := by
  unfold lowerByte
  rw [if_neg (by omega)]

theorem lowerByte_byte_lt (cp : Nat) (h : cp < 0x80) :
    lowerByte (byte cp) = byte (tolower cp) := by
  unfold lowerByte tolower
  rw [byte_val cp (by omega)]
  split <;> rfl

/-- Lowering the bytes of the encoding of a codepoint gives the encoding of the
lowered codepoint: only the one-byte encodings hold letters. -/
theorem lowerBytes_encodeChar (cp : Nat) (hcp : cp < 0x110000) :
    lowerBytes (utf8EncodeChar cp) = utf8EncodeChar (tolower cp) := by
  have h63 : ∀ x : Nat, x &&& 0x3F = x % 64 := fun x => Nat.and_pow_two_sub_one_eq_mod x 6
  have hcont : ∀ x : Nat, lowerByte (byte (0x80 ||| (x &&& 0x3F))) =
      byte (0x80 ||| (x &&& 0x3F)) := by
    intro x
    apply lowerByte_of_ge
    rw [h63, or_lead 6 2 (x % 64) (Nat.mod_lt x (by norm_num)) 0x80 (by norm_num),
      byte_val _ (by omega)]
    omega
  by_cases h1 : cp < 0x80
  · have ht : tolower cp < 0x80 := by unfold tolower; split <;> omega
    unfold utf8EncodeChar lowerBytes
    rw [if_pos h1, if_pos ht, List.map_singleton, lowerByte_byte_lt cp h1]
  · have ht : tolower cp = cp := by unfold tolower; rw [if_neg (by omega)]
    rw [ht]
    simp only [utf8EncodeChar, Nat.shiftRight_eq_div_pow, lowerBytes]
    rw [if_neg h1]
    by_cases h2 : cp < 0x800
    · rw [if_pos h2]
      have hl : lowerByte (byte (0xC0 ||| (cp / 2 ^ 6))) = byte (0xC0 ||| (cp / 2 ^ 6)) := by
        apply lowerByte_of_ge
        rw [or_lead 6 3 (cp / 2 ^ 6) (by norm_num; omega) 0xC0 (by norm_num),
          byte_val _ (by norm_num; omega)]
        omega
      simp only [List.map_cons, List.map_nil, hl, hcont]
    · rw [if_neg h2]
      by_cases h3 : cp < 0x10000
      · rw [if_pos h3]
        have hl : lowerByte (byte (0xE0 ||| (cp / 2 ^ 12))) =
            byte (0xE0 ||| (cp / 2 ^ 12)) := by
          apply lowerByte_of_ge
          rw [or_lead 4 14 (cp / 2 ^ 12) (by norm_num; omega) 0xE0 (by norm_num),
            byte_val _ (by norm_num; omega)]
          omega
        simp only [List.map_cons, List.map_nil, hl, hcont]
      · rw [if_neg h3]
        have hl : lowerByte (byte (0xF0 ||| (cp / 2 ^ 18))) =
            byte (0xF0 ||| (cp / 2 ^ 18)) := by
          apply lowerByte_of_ge
          rw [or_lead 3 30 (cp / 2 ^ 18) (by norm_num; omega) 0xF0 (by norm_num),
            byte_val _ (by norm_num; omega)]
          omega
        simp only [List.map_cons, List.map_nil, hl, hcont]

theorem tolower_lt (cp : Nat) (h : cp < 0x110000) : tolower cp < 0x110000 := by
  unfold tolower
  split <;> omega

/-- Lowering the bytes of a well-formed text is encoding the lowered codepoints. -/
theorem lowerBytes_encode : ∀ cps : List Nat, (∀ cp ∈ cps, cp < 0x110000) →
    lowerBytes (utf8Encode cps) = utf8Encode (cps.map tolower) := by
  intro cps
  induction cps with
  | nil => intro _; rfl
  | cons cp cps ih =>
    intro h
    have hcons : ∀ (c : Nat) (l : List Nat),
        utf8Encode (c :: l) = utf8EncodeChar c ++ utf8Encode l := by
      intro c l
      unfold utf8Encode
      rw [List.flatMap_cons]
    have happ : ∀ a b : List Byte, lowerBytes (a ++ b) = lowerBytes a ++ lowerBytes b := by
      intro a b
      unfold lowerBytes
      rw [List.map_append]
    rw [List.map_cons, hcons, hcons, happ,
      lowerBytes_encodeChar cp (h cp (List.mem_cons_self _ _)),
      ih (fun c hc => h c (List.mem_cons_of_mem _ hc))]

/-- The decision of `detectLanguage` depends on the text through its tokens only. -/
theorem detectLanguage_congr {Lang F : Type} (A : ScoreArith F) (m : Model Lang F)
    (t1 t2 : List Byte) (h : tokens t1 = tokens t2) :
    detectLanguage A m t1 = detectLanguage A m t2 := by
  unfold detectLanguage
  simp only [emitTokens_eq_foldl, h]

theorem tokens_encode (cps : List Nat) (h : ∀ cp ∈ cps, cp < 0x110000) :
    tokens (utf8Encode cps) = tokensOfCodepoints cps := by
  have hd := utf8Decode_encode_append [] cps h
  rw [List.append_nil, utf8Decode_nil, List.append_nil] at hd
  rw [tokens_eq, hd]

theorem tokens_lowerBytes_encode (cps : List Nat) (h : ∀ cp ∈ cps, cp < 0x110000) :
    tokens (lowerBytes (utf8Encode cps)) = tokens (utf8Encode cps) := by
  have hl : ∀ cp ∈ cps.map tolower, cp < 0x110000 := by
    intro cp hcp
    rw [List.mem_map] at hcp
    obtain ⟨c, hc, rfl⟩ := hcp
    exact tolower_lt c (h c hc)
  rw [lowerBytes_encode cps h, tokens_encode _ hl, tokens_encode cps h,
    tokensOfCodepoints_tolower]

/-- Claim C21. Case-insensitivity: for every well-formed UTF-8 text (the encoding of
a list of codepoints below `0x110000`), replacing each byte `A`..`Z` by its
lowercase letter leaves the tokens handed to the listener of `emitTokens`
unchanged, and so `detectLanguage` returns the same for every model and every
arithmetic of the scores. -/
theorem tokens_case_insensitive (cps : List Nat) (h : ∀ cp ∈ cps, cp < 0x110000) :
    tokens (lowerBytes (utf8Encode cps)) = tokens (utf8Encode cps) ∧
    (∀ (σ : Type) (listener : σ → FeatureToken → σ) (init : σ),
      emitTokens (lowerBytes (utf8Encode cps)) listener init =
        emitTokens (utf8Encode cps) listener init) ∧
    ∀ (Lang F : Type) (A : ScoreArith F) (m : Model Lang F),
      detectLanguage A m (lowerBytes (utf8Encode cps)) =
        detectLanguage A m (utf8Encode cps) := by
  have ht := tokens_lowerBytes_encode cps h
  refine ⟨ht, ?_, ?_⟩
  · intro σ listener init
    rw [emitTokens_eq_foldl, emitTokens_eq_foldl, ht]
  · intro Lang F A m
    exact detectLanguage_congr A m _ _ ht

theorem tokens_case_insensitive_witness :
    (∀ cp ∈ [0x51, 0x75, 0xC9, 0x42, 0x20AC, 0x5A], cp < 0x110000) ∧
    (tokens (lowerBytes (utf8Encode [0x51, 0x75, 0xC9, 0x42, 0x20AC, 0x5A])) =
      tokens (utf8Encode [0x51, 0x75, 0xC9, 0x42, 0x20AC, 0x5A]) ∧
    (∀ (σ : Type) (listener : σ → FeatureToken → σ) (init : σ),
      emitTokens (lowerBytes (utf8Encode [0x51, 0x75, 0xC9, 0x42, 0x20AC, 0x5A]))
          listener init =
        emitTokens (utf8Encode [0x51, 0x75, 0xC9, 0x42, 0x20AC, 0x5A]) listener init) ∧
    ∀ (Lang F : Type) (A : ScoreArith F) (m : Model Lang F),
      detectLanguage A m (lowerBytes (utf8Encode [0x51, 0x75, 0xC9, 0x42, 0x20AC, 0x5A])) =
        detectLanguage A m (utf8Encode [0x51, 0x75, 0xC9, 0x42, 0x20AC, 0x5A])) :=
  ⟨by decide, tokens_case_insensitive [0x51, 0x75, 0xC9, 0x42, 0x20AC, 0x5A] (by decide)⟩

/-! ## The harness: `trim` -/

theorem find_first_not_of_all (p : Byte → Bool) :
    ∀ L : List Byte, (∀ c ∈ L, p c = true) → find_first_not_of p L = none := by
  intro L
  induction L with
  | nil => intro _; rfl
  | cons c L ih =>
    intro h
    unfold find_first_not_of
    rw [if_pos (h c (List.mem_cons_self _ _)), ih (fun x hx => h x (List.mem_cons_of_mem _ hx))]
    rfl

/-- After a run of characters of the set, the first other character is found at
the length of the run. -/
theorem find_first_not_of_append (p : Byte → Bool) (x : Byte) (M : List Byte)
    (hx : p x = false) :
    ∀ L : List Byte, (∀ c ∈ L, p c = true) →
      find_first_not_of p (L ++ x :: M) = some L.length := by
  intro L
  induction L with
  | nil =>
    intro _
    rw [List.nil_append]
    unfold find_first_not_of
    rw [if_neg (by rw [hx]; exact Bool.false_ne_true)]
    rfl
  | cons c L ih =>
    intro h
    rw [List.cons_append]
    unfold find_first_not_of
    rw [if_pos (h c (List.mem_cons_self _ _)), ih (fun y hy => h y (List.mem_cons_of_mem _ hy))]
    rfl

/-- Before a run of characters of the set that ends the string, the last other
character is found just before the run. -/
theorem find_last_not_of_append (p : Byte → Bool) (L M : List Byte) (y : Byte)
    (hy : p y = false) (hM : ∀ c ∈ M, p c = true) :
    find_last_not_of p (L ++ y :: M) = some L.length := by
  unfold find_last_not_of
  have hrev : (L ++ y :: M).reverse = M.reverse ++ y :: L.reverse := by
    rw [List.reverse_append, List.reverse_cons, List.append_assoc]
    rfl
  rw [hrev, find_first_not_of_append p y L.reverse hy M.reverse
    (fun c hc => hM c (List.mem_reverse.mp hc))]
  simp only [Option.map_some', List.length_append, List.length_cons, List.length_reverse]
  congr 1
  omega

theorem trim_of_all (s : List Byte) (h : ∀ c ∈ s, isTrimChar c = true) :
    trim s = some [] := by
  unfold trim
  rw [find_first_not_of_all isTrimChar s h]

/-- On a string made of a run of the set, a middle part that starts and ends with
a character outside the set, and a run of the set, `trim` returns the middle. -/
theorem trim_of_decomp (lead t trail t1 t2 : List Byte) (x y : Byte)
    (hlen : (lead ++ t ++ trail).length < 2 ^ 64)
    (hlead : ∀ c ∈ lead, isTrimChar c = true)
    (htrail : ∀ c ∈ trail, isTrimChar c = true)
    (hhead : t = x :: t1) (hx : isTrimChar x = false)
    (hlast : t = t2 ++ [y]) (hy : isTrimChar y = false) :
    trim (lead ++ t ++ trail) = some t := by
  have hfirst : find_first_not_of isTrimChar (lead ++ t ++ trail) = some lead.length := by
    rw [hhead, List.append_assoc, List.cons_append]
    exact find_first_not_of_append isTrimChar x _ hx lead hlead
  have hlst : find_last_not_of isTrimChar (lead ++ t ++ trail) =
      some (lead.length + t2.length) := by
    have e : lead ++ t ++ trail = (lead ++ t2) ++ y :: trail := by
      rw [hlast]
      simp only [List.append_assoc, List.cons_append, List.nil_append]
    rw [e, find_last_not_of_append isTrimChar (lead ++ t2) trail y hy htrail,
      List.length_append]
  have htl : t.length = t2.length + 1 := by
    rw [hlast, List.length_append]
    rfl
  have hlen2 : lead.length + t.length + trail.length < 18446744073709551616 := by
    have := hlen
    simp only [List.length_append] at this
    norm_num at this
    exact this
  have harg : ((lead.length + t2.length + 2 ^ SIZE_BITS - lead.length) % 2 ^ SIZE_BITS + 1)
      % 2 ^ SIZE_BITS = t.length := by
    have e64 : 2 ^ SIZE_BITS = 18446744073709551616 := by norm_num [SIZE_BITS]
    rw [e64]
    omega
  unfold trim
  rw [hfirst]
  simp only [hlst, Option.getD_some, harg]
  unfold substr
  rw [if_neg (by simp only [List.length_append]; omega)]
  congr 1
  rw [List.append_assoc, List.drop_left, List.take_left]

/-- Every string is a run of the set, then `trimSpec` of it, then a run of the
set; and `trimSpec` neither starts nor ends with a character of the set. -/
theorem trimSpec_decomp (s : List Byte) :
    ∃ lead trail : List Byte, s = lead ++ trimSpec s ++ trail ∧
      (∀ c ∈ lead, isTrimChar c = true) ∧ (∀ c ∈ trail, isTrimChar c = true) ∧
      (∀ c, (trimSpec s).head? = some c → isTrimChar c = false) ∧
      (∀ c, (trimSpec s).getLast? = some c → isTrimChar c = false) := by
  have hd : s.dropWhile isTrimChar =
      trimSpec s ++ ((s.dropWhile isTrimChar).reverse.takeWhile isTrimChar).reverse := by
    unfold trimSpec
    rw [← List.reverse_append, List.takeWhile_append_dropWhile, List.reverse_reverse]
  refine ⟨s.takeWhile isTrimChar,
    ((s.dropWhile isTrimChar).reverse.takeWhile isTrimChar).reverse, ?_, ?_, ?_, ?_, ?_⟩
  · rw [List.append_assoc, ← hd, List.takeWhile_append_dropWhile]
  · intro c hc
    exact List.mem_takeWhile_imp hc
  · intro c hc
    exact List.mem_takeWhile_imp (List.mem_reverse.mp hc)
  · intro c hc
    obtain ⟨ys, hys⟩ := List.head?_eq_some_iff.mp hc
    have h1 := List.head?_dropWhile_not isTrimChar s
    rw [hd, hys] at h1
    simpa using h1
  · intro c hc
    have h1 := List.head?_dropWhile_not isTrimChar (s.dropWhile isTrimChar).reverse
    have h2 : (List.dropWhile isTrimChar (s.dropWhile isTrimChar).reverse).head? = some c := by
      rw [← List.getLast?_reverse]
      exact hc
    rw [h2] at h1
    simpa using h1

/-- The function `trim` computes `trimSpec` on every string a `size_t` can
measure. -/
theorem trim_eq_trimSpec (s : List Byte) (hlen : s.length < 2 ^ 64) :
    trim s = some (trimSpec s) := by
  obtain ⟨lead, trail, hs, hlead, htrail, hhead, hlast⟩ := trimSpec_decomp s
  generalize trimSpec s = t at hs hhead hlast
  by_cases ht : t = []
  · subst ht
    rw [hs]
    apply trim_of_all
    intro c hc
    simp only [List.append_nil, List.mem_append] at hc
    rcases hc with hc | hc
    · exact hlead c hc
    · exact htrail c hc
  · obtain ⟨x, t1, hx⟩ := List.exists_cons_of_ne_nil ht
    obtain ⟨y, hy⟩ : ∃ y, t.getLast? = some y := by
      cases hg : t.getLast? with
      | none => exact absurd (List.getLast?_eq_none_iff.mp hg) ht
      | some y => exact ⟨y, rfl⟩
    obtain ⟨t2, ht2⟩ := List.getLast?_eq_some_iff.mp hy
    have hxh : t.head? = some x := by rw [hx]; rfl
    have h := trim_of_decomp lead t trail t1 t2 x y (by rw [← hs]; exact hlen) hlead htrail
      hx (hhead x hxh) ht2 (hlast y hy)
    rw [← hs] at h
    exact h

theorem trimSpec_length_le (s : List Byte) : (trimSpec s).length ≤ s.length := by
  obtain ⟨lead, trail, hs, _⟩ := trimSpec_decomp s
  have := congrArg List.length hs
  simp only [List.length_append] at this
  omega

theorem trimSpec_idem (s : List Byte) : trimSpec (trimSpec s) = trimSpec s := by
  obtain ⟨lead, trail, hs, hlead, htrail, hhead, hlast⟩ := trimSpec_decomp s
  generalize trimSpec s = t at hs hhead hlast
  have h1 : t.dropWhile isTrimChar = t := by
    cases t with
    | nil => rfl
    | cons x t1 =>
      have := hhead x rfl
      simp [List.dropWhile_cons, this]
  have h2 : t.reverse.dropWhile isTrimChar = t.reverse := by
    cases hr : t.reverse with
    | nil => rfl
    | cons y r =>
      have hy : t.getLast? = some y := by
        rw [← List.head?_reverse, hr]
        rfl
      have := hlast y hy
      simp [List.dropWhile_cons, this]
  unfold trimSpec
  rw [h1, h2, List.reverse_reverse]

/-- Claim C26. On every string a `size_t` can measure, `trim` returns the string
without its leading and its trailing characters of the set space, tab, LF, CR:
the input is a run of the set, then the result, then a run of the set, and the
result neither starts nor ends with a character of the set, so that what lies
between the first and the last other character is unchanged. The result is empty
when the string holds only characters of the set, and `trim` is idempotent. -/
theorem trim_strips_whitespace (s : List Byte) (hlen : s.length < 2 ^ 64) :
    (∃ lead t trail : List Byte, trim s = some t ∧ s = lead ++ t ++ trail ∧
      (∀ c ∈ lead, isTrimChar c = true) ∧ (∀ c ∈ trail, isTrimChar c = true) ∧
      (∀ c, t.head? = some c → isTrimChar c = false) ∧
      (∀ c, t.getLast? = some c → isTrimChar c = false) ∧
      t = trimSpec s) ∧
    ((∀ c ∈ s, isTrimChar c = true) → trim s = some []) ∧
    (trim s).bind trim = trim s := by
  have ht := trim_eq_trimSpec s hlen
  obtain ⟨lead, trail, hs, hlead, htrail, hhead, hlast⟩ := trimSpec_decomp s
  refine ⟨⟨lead, trimSpec s, trail, ht, hs, hlead, htrail, hhead, hlast, rfl⟩,
    trim_of_all s, ?_⟩
  rw [ht, Option.some_bind,
    trim_eq_trimSpec (trimSpec s) (Nat.lt_of_le_of_lt (trimSpec_length_le s) hlen),
    trimSpec_idem]

theorem trim_strips_whitespace_witness :
    ([0x20, 0x09, 0x61, 0x20, 0x62, 0x0A, 0x0D] : List Byte).length < 2 ^ 64 ∧
    ((∃ lead t trail : List Byte,
      trim [0x20, 0x09, 0x61, 0x20, 0x62, 0x0A, 0x0D] = some t ∧
      ([0x20, 0x09, 0x61, 0x20, 0x62, 0x0A, 0x0D] : List Byte) = lead ++ t ++ trail ∧
      (∀ c ∈ lead, isTrimChar c = true) ∧ (∀ c ∈ trail, isTrimChar c = true) ∧
      (∀ c, t.head? = some c → isTrimChar c = false) ∧
      (∀ c, t.getLast? = some c → isTrimChar c = false) ∧
      t = trimSpec [0x20, 0x09, 0x61, 0x20, 0x62, 0x0A, 0x0D]) ∧
    ((∀ c ∈ ([0x20, 0x09, 0x61, 0x20, 0x62, 0x0A, 0x0D] : List Byte), isTrimChar c = true) →
      trim [0x20, 0x09, 0x61, 0x20, 0x62, 0x0A, 0x0D] = some []) ∧
    (trim [0x20, 0x09, 0x61, 0x20, 0x62, 0x0A, 0x0D]).bind trim =
      trim [0x20, 0x09, 0x61, 0x20, 0x62, 0x0A, 0x0D]) :=
  ⟨by decide, trim_strips_whitespace [0x20, 0x09, 0x61, 0x20, 0x62, 0x0A, 0x0D] (by decide)⟩

/-! ## The harness: the language tables -/

theorem mapFind_mem {K V : Type} [DecidableEq K] (key : K) (v : V) :
    ∀ m : List (K × V), mapFind m key = some v → (key, v) ∈ m := by
  intro m
  induction m with
  | nil => intro h; simp [mapFind] at h
  | cons e rest ih =>
    obtain ⟨k, w⟩ := e
    intro h
    unfold mapFind at h
    by_cases hk : key = k
    · rw [if_pos hk] at h
      have hw : w = v := Option.some.inj h
      rw [hk, hw]
      exact List.mem_cons_self _ _
    · rw [if_neg hk] at h
      exact List.mem_cons_of_mem _ (ih h)

set_option maxRecDepth 100000 in
theorem singleWord_forward_entries : ∀ e ∈ SingleWord.createLanguageMap,
    mapFind SingleWord.createReverseLanguageMap e.2 = some e.1 := by decide

set_option maxRecDepth 100000 in
theorem singleWord_reverse_entries : ∀ e ∈ SingleWord.createReverseLanguageMap,
    mapFind SingleWord.createLanguageMap e.2 = some e.1 := by decide

set_option maxRecDepth 100000 in
theorem singleWord_sizes : mapSize SingleWord.createLanguageMap = 75 ∧
    mapSize SingleWord.createReverseLanguageMap = 75 ∧
    SingleWord.createLanguageMap.length = 75 ∧
    SingleWord.createReverseLanguageMap.length = 75 := by decide

theorem singleWordG_forward_entries : ∀ e ∈ SingleWordG.createLanguageMap,
    mapFind SingleWordG.createReverseLanguageMap e.2 = some e.1 := by decide

theorem singleWordG_reverse_entries : ∀ e ∈ SingleWordG.createReverseLanguageMap,
    mapFind SingleWordG.createLanguageMap e.2 = some e.1 := by decide

theorem singleWordG_sizes : mapSize SingleWordG.createLanguageMap = 6 ∧
    mapSize SingleWordG.createReverseLanguageMap = 6 ∧
    SingleWordG.createLanguageMap.length = 6 ∧
    SingleWordG.createReverseLanguageMap.length = 6 := by decide

/-- Claim C27. The two language tables of the harness are mutual inverses, in
single_word.cpp (75 entries each, no key written twice) and in single_word_g.cpp
(6 entries each): the reverse table sends the language of every code of the
forward table back to that code, the forward table sends the code of every
language of the reverse table back to that language, and so `isCorrect` is true
whenever the detected language is the one the forward table gives for the
expected code. -/
theorem language_tables_inverse :
    ((mapSize SingleWord.createLanguageMap = 75 ∧
      mapSize SingleWord.createReverseLanguageMap = 75 ∧
      SingleWord.createLanguageMap.length = 75 ∧
      SingleWord.createReverseLanguageMap.length = 75) ∧
     (∀ c l, mapFind SingleWord.createLanguageMap c = some l →
        mapFind SingleWord.createReverseLanguageMap l = some c ∧
        mapIndex SingleWord.createReverseLanguageMap l = c ∧
        SingleWord.isCorrect c l = true) ∧
     (∀ l c, mapFind SingleWord.createReverseLanguageMap l = some c →
        mapFind SingleWord.createLanguageMap c = some l)) ∧
    ((mapSize SingleWordG.createLanguageMap = 6 ∧
      mapSize SingleWordG.createReverseLanguageMap = 6 ∧
      SingleWordG.createLanguageMap.length = 6 ∧
      SingleWordG.createReverseLanguageMap.length = 6) ∧
     (∀ c l, mapFind SingleWordG.createLanguageMap c = some l →
        mapFind SingleWordG.createReverseLanguageMap l = some c ∧
        mapIndex SingleWordG.createReverseLanguageMap l = c ∧
        SingleWordG.isCorrect c l = true) ∧
     (∀ l c, mapFind SingleWordG.createReverseLanguageMap l = some c →
        mapFind SingleWordG.createLanguageMap c = some l)) := by
  refine ⟨⟨singleWord_sizes, ?_, ?_⟩, ⟨singleWordG_sizes, ?_, ?_⟩⟩
  · intro c l h
    have hr := singleWord_forward_entries (c, l) (mapFind_mem c l _ h)
    have hr2 : mapFind SingleWord.createReverseLanguageMap l = some c := hr
    refine ⟨hr2, ?_, ?_⟩
    · unfold mapIndex
      rw [hr2]
      rfl
    · unfold SingleWord.isCorrect mapIndex
      rw [hr2]
      exact beq_self_eq_true c
  · intro l c h
    exact singleWord_reverse_entries (l, c) (mapFind_mem l c _ h)
  · intro c l h
    have hr := singleWordG_forward_entries (c, l) (mapFind_mem c l _ h)
    have hr2 : mapFind SingleWordG.createReverseLanguageMap l = some c := hr
    refine ⟨hr2, ?_, ?_⟩
    · unfold mapIndex
      rw [hr2]
      rfl
    · unfold SingleWordG.isCorrect mapIndex
      rw [hr2]
      exact beq_self_eq_true c
  · intro l c h
    exact singleWordG_reverse_entries (l, c) (mapFind_mem l c _ h)

theorem language_tables_inverse_witness :
    mapFind SingleWord.createLanguageMap "zu" = some SingleWord.Lang.Zu ∧
    (mapFind SingleWord.createReverseLanguageMap SingleWord.Lang.Zu = some "zu" ∧
      mapIndex SingleWord.createReverseLanguageMap SingleWord.Lang.Zu = "zu" ∧
      SingleWord.isCorrect "zu" SingleWord.Lang.Zu = true) ∧
    mapFind SingleWordG.createReverseLanguageMap SingleWordG.Lang.Ja = some "ja" ∧
    mapFind SingleWordG.createLanguageMap "ja" = some SingleWordG.Lang.Ja :=
  ⟨by decide,
    language_tables_inverse.1.2.1 "zu" SingleWord.Lang.Zu (by decide),
    by decide,
    language_tables_inverse.2.2.2 SingleWordG.Lang.Ja "ja" (by decide)⟩

end LanguageDetector
